import Mathlib

/-!
Verification of the class-hierarchy flattening compiler in `src/index.js`
(`ClassCompiler`).  The JavaScript implementation is shallowly embedded:
acorn AST nodes become inductive types, the compiler's methods become
functions over those types, the `Map`/`Set` objects become association
lists / deduplicated lists preserving JS insertion-order semantics, and
the few in-place AST mutations are made explicit by returning updated
values (plus an explicit registry-update function where a claim is about
mutation itself).  A small operational semantics for the emitted class
fragment is used to state claims about runtime behaviour of the output.
-/

set_option maxHeartbeats 1000000

namespace Ignorant

/-! ## AST: expressions and statements (ESTree subset used by the compiler) -/

/-- Subset of ESTree expression nodes relevant to `src/index.js`:
`ThisExpression`, `Super`, `Identifier`, `PrivateIdentifier`, `Literal`,
`CallExpression` and `MemberExpression` (with its `computed` flag).
All other expression forms play no role in any code path of the compiler
and are represented by `otherE` with an opaque tag. -/
inductive Expr where
  | thisE : Expr
  | superE : Expr
  | ident (name : String) : Expr
  | privateName (name : String) : Expr
  | lit (value : String) : Expr
  | call (callee : Expr) (args : List Expr) : Expr
  | member (obj : Expr) (prop : Expr) (computed : Bool) : Expr
  | otherE (tag : String) : Expr
  deriving Repr

/-- Subset of ESTree statement nodes: `ExpressionStatement`, `IfStatement`,
`BlockStatement`, `ReturnStatement`, plus an opaque statement form.
`IfStatement` is included so that super-calls nested below the top level
of a constructor body can be expressed. -/
inductive Stmt where
  | exprStmt (e : Expr) : Stmt
  | ifStmt (test : Expr) (consequent : Stmt) (alternate : Option Stmt) : Stmt
  | block (body : List Stmt) : Stmt
  | retStmt (arg : Option Expr) : Stmt
  deriving Repr

mutual

/-- Decidable equality for `Expr` (written by hand because `Expr` nests
`List Expr`). -/
def Expr.decEq : (a b : Expr) → Decidable (a = b)
  | .thisE, .thisE => isTrue rfl
  | .superE, .superE => isTrue rfl
  | .ident n, .ident m =>
    match String.decEq n m with
    | isTrue h => isTrue (by rw [h])
    | isFalse _ => isFalse (by intro hc; injection hc; contradiction)
  | .privateName n, .privateName m =>
    match String.decEq n m with
    | isTrue h => isTrue (by rw [h])
    | isFalse _ => isFalse (by intro hc; injection hc; contradiction)
  | .lit a, .lit b =>
    match String.decEq a b with
    | isTrue h => isTrue (by rw [h])
    | isFalse _ => isFalse (by intro hc; injection hc; contradiction)
  | .otherE a, .otherE b =>
    match String.decEq a b with
    | isTrue h => isTrue (by rw [h])
    | isFalse _ => isFalse (by intro hc; injection hc; contradiction)
  | .call c1 a1, .call c2 a2 =>
    match Expr.decEq c1 c2, Expr.decEqList a1 a2 with
    | isTrue h1, isTrue h2 => isTrue (by rw [h1, h2])
    | isFalse _, _ => isFalse (by intro hc; injection hc; contradiction)
    | _, isFalse _ => isFalse (by intro hc; injection hc; contradiction)
  | .member o1 p1 c1, .member o2 p2 c2 =>
    match Expr.decEq o1 o2, Expr.decEq p1 p2, Bool.decEq c1 c2 with
    | isTrue h1, isTrue h2, isTrue h3 => isTrue (by rw [h1, h2, h3])
    | isFalse _, _, _ => isFalse (by intro hc; injection hc; contradiction)
    | _, isFalse _, _ => isFalse (by intro hc; injection hc; contradiction)
    | _, _, isFalse _ => isFalse (by intro hc; injection hc; contradiction)
  | .thisE, .superE => isFalse (fun hc => Expr.noConfusion hc)
  | .thisE, .ident _ => isFalse (fun hc => Expr.noConfusion hc)
  | .thisE, .privateName _ => isFalse (fun hc => Expr.noConfusion hc)
  | .thisE, .lit _ => isFalse (fun hc => Expr.noConfusion hc)
  | .thisE, .call _ _ => isFalse (fun hc => Expr.noConfusion hc)
  | .thisE, .member _ _ _ => isFalse (fun hc => Expr.noConfusion hc)
  | .thisE, .otherE _ => isFalse (fun hc => Expr.noConfusion hc)
  | .superE, .thisE => isFalse (fun hc => Expr.noConfusion hc)
  | .superE, .ident _ => isFalse (fun hc => Expr.noConfusion hc)
  | .superE, .privateName _ => isFalse (fun hc => Expr.noConfusion hc)
  | .superE, .lit _ => isFalse (fun hc => Expr.noConfusion hc)
  | .superE, .call _ _ => isFalse (fun hc => Expr.noConfusion hc)
  | .superE, .member _ _ _ => isFalse (fun hc => Expr.noConfusion hc)
  | .superE, .otherE _ => isFalse (fun hc => Expr.noConfusion hc)
  | .ident _, .thisE => isFalse (fun hc => Expr.noConfusion hc)
  | .ident _, .superE => isFalse (fun hc => Expr.noConfusion hc)
  | .ident _, .privateName _ => isFalse (fun hc => Expr.noConfusion hc)
  | .ident _, .lit _ => isFalse (fun hc => Expr.noConfusion hc)
  | .ident _, .call _ _ => isFalse (fun hc => Expr.noConfusion hc)
  | .ident _, .member _ _ _ => isFalse (fun hc => Expr.noConfusion hc)
  | .ident _, .otherE _ => isFalse (fun hc => Expr.noConfusion hc)
  | .privateName _, .thisE => isFalse (fun hc => Expr.noConfusion hc)
  | .privateName _, .superE => isFalse (fun hc => Expr.noConfusion hc)
  | .privateName _, .ident _ => isFalse (fun hc => Expr.noConfusion hc)
  | .privateName _, .lit _ => isFalse (fun hc => Expr.noConfusion hc)
  | .privateName _, .call _ _ => isFalse (fun hc => Expr.noConfusion hc)
  | .privateName _, .member _ _ _ => isFalse (fun hc => Expr.noConfusion hc)
  | .privateName _, .otherE _ => isFalse (fun hc => Expr.noConfusion hc)
  | .lit _, .thisE => isFalse (fun hc => Expr.noConfusion hc)
  | .lit _, .superE => isFalse (fun hc => Expr.noConfusion hc)
  | .lit _, .ident _ => isFalse (fun hc => Expr.noConfusion hc)
  | .lit _, .privateName _ => isFalse (fun hc => Expr.noConfusion hc)
  | .lit _, .call _ _ => isFalse (fun hc => Expr.noConfusion hc)
  | .lit _, .member _ _ _ => isFalse (fun hc => Expr.noConfusion hc)
  | .lit _, .otherE _ => isFalse (fun hc => Expr.noConfusion hc)
  | .call _ _, .thisE => isFalse (fun hc => Expr.noConfusion hc)
  | .call _ _, .superE => isFalse (fun hc => Expr.noConfusion hc)
  | .call _ _, .ident _ => isFalse (fun hc => Expr.noConfusion hc)
  | .call _ _, .privateName _ => isFalse (fun hc => Expr.noConfusion hc)
  | .call _ _, .lit _ => isFalse (fun hc => Expr.noConfusion hc)
  | .call _ _, .member _ _ _ => isFalse (fun hc => Expr.noConfusion hc)
  | .call _ _, .otherE _ => isFalse (fun hc => Expr.noConfusion hc)
  | .member _ _ _, .thisE => isFalse (fun hc => Expr.noConfusion hc)
  | .member _ _ _, .superE => isFalse (fun hc => Expr.noConfusion hc)
  | .member _ _ _, .ident _ => isFalse (fun hc => Expr.noConfusion hc)
  | .member _ _ _, .privateName _ => isFalse (fun hc => Expr.noConfusion hc)
  | .member _ _ _, .lit _ => isFalse (fun hc => Expr.noConfusion hc)
  | .member _ _ _, .call _ _ => isFalse (fun hc => Expr.noConfusion hc)
  | .member _ _ _, .otherE _ => isFalse (fun hc => Expr.noConfusion hc)
  | .otherE _, .thisE => isFalse (fun hc => Expr.noConfusion hc)
  | .otherE _, .superE => isFalse (fun hc => Expr.noConfusion hc)
  | .otherE _, .ident _ => isFalse (fun hc => Expr.noConfusion hc)
  | .otherE _, .privateName _ => isFalse (fun hc => Expr.noConfusion hc)
  | .otherE _, .lit _ => isFalse (fun hc => Expr.noConfusion hc)
  | .otherE _, .call _ _ => isFalse (fun hc => Expr.noConfusion hc)
  | .otherE _, .member _ _ _ => isFalse (fun hc => Expr.noConfusion hc)

/-- Decidable equality for lists of expressions. -/
def Expr.decEqList : (a b : List Expr) → Decidable (a = b)
  | [], [] => isTrue rfl
  | x :: xs, y :: ys =>
    match Expr.decEq x y, Expr.decEqList xs ys with
    | isTrue h1, isTrue h2 => isTrue (by rw [h1, h2])
    | isFalse _, _ => isFalse (by intro hc; injection hc; contradiction)
    | _, isFalse _ => isFalse (by intro hc; injection hc; contradiction)
  | [], _ :: _ => isFalse (fun hc => List.noConfusion hc)
  | _ :: _, [] => isFalse (fun hc => List.noConfusion hc)

end

instance : DecidableEq Expr := Expr.decEq

mutual

/-- Decidable equality for `Stmt` (hand written: `Stmt` nests `List Stmt`
and `Option Stmt`). -/
def Stmt.decEq : (a b : Stmt) → Decidable (a = b)
  | .exprStmt e1, .exprStmt e2 =>
    match Expr.decEq e1 e2 with
    | isTrue h => isTrue (by rw [h])
    | isFalse _ => isFalse (by intro hc; injection hc; contradiction)
  | .ifStmt t1 c1 a1, .ifStmt t2 c2 a2 =>
    match Expr.decEq t1 t2, Stmt.decEq c1 c2, Stmt.decEqOpt a1 a2 with
    | isTrue h1, isTrue h2, isTrue h3 => isTrue (by rw [h1, h2, h3])
    | isFalse _, _, _ => isFalse (by intro hc; injection hc; contradiction)
    | _, isFalse _, _ => isFalse (by intro hc; injection hc; contradiction)
    | _, _, isFalse _ => isFalse (by intro hc; injection hc; contradiction)
  | .block b1, .block b2 =>
    match Stmt.decEqList b1 b2 with
    | isTrue h => isTrue (by rw [h])
    | isFalse _ => isFalse (by intro hc; injection hc; contradiction)
  | .retStmt a1, .retStmt a2 =>
    match (inferInstance : DecidableEq (Option Expr)) a1 a2 with
    | isTrue h => isTrue (by rw [h])
    | isFalse _ => isFalse (by intro hc; injection hc; contradiction)
  | .exprStmt _, .ifStmt _ _ _ => isFalse (fun hc => Stmt.noConfusion hc)
  | .exprStmt _, .block _ => isFalse (fun hc => Stmt.noConfusion hc)
  | .exprStmt _, .retStmt _ => isFalse (fun hc => Stmt.noConfusion hc)
  | .ifStmt _ _ _, .exprStmt _ => isFalse (fun hc => Stmt.noConfusion hc)
  | .ifStmt _ _ _, .block _ => isFalse (fun hc => Stmt.noConfusion hc)
  | .ifStmt _ _ _, .retStmt _ => isFalse (fun hc => Stmt.noConfusion hc)
  | .block _, .exprStmt _ => isFalse (fun hc => Stmt.noConfusion hc)
  | .block _, .ifStmt _ _ _ => isFalse (fun hc => Stmt.noConfusion hc)
  | .block _, .retStmt _ => isFalse (fun hc => Stmt.noConfusion hc)
  | .retStmt _, .exprStmt _ => isFalse (fun hc => Stmt.noConfusion hc)
  | .retStmt _, .ifStmt _ _ _ => isFalse (fun hc => Stmt.noConfusion hc)
  | .retStmt _, .block _ => isFalse (fun hc => Stmt.noConfusion hc)

/-- Decidable equality for lists of statements. -/
def Stmt.decEqList : (a b : List Stmt) → Decidable (a = b)
  | [], [] => isTrue rfl
  | x :: xs, y :: ys =>
    match Stmt.decEq x y, Stmt.decEqList xs ys with
    | isTrue h1, isTrue h2 => isTrue (by rw [h1, h2])
    | isFalse _, _ => isFalse (by intro hc; injection hc; contradiction)
    | _, isFalse _ => isFalse (by intro hc; injection hc; contradiction)
  | [], _ :: _ => isFalse (fun hc => List.noConfusion hc)
  | _ :: _, [] => isFalse (fun hc => List.noConfusion hc)

/-- Decidable equality for optional statements. -/
def Stmt.decEqOpt : (a b : Option Stmt) → Decidable (a = b)
  | none, none => isTrue rfl
  | some x, some y =>
    match Stmt.decEq x y with
    | isTrue h => isTrue (by rw [h])
    | isFalse _ => isFalse (by intro hc; injection hc; contradiction)
  | none, some _ => isFalse (fun hc => Option.noConfusion hc)
  | some _, none => isFalse (fun hc => Option.noConfusion hc)

end

instance : DecidableEq Stmt := Stmt.decEq

/-! ## Class members -/

/-- The `kind` string of an ESTree `MethodDefinition`. -/
inductive MethodKind where
  | ctorKind
  | methodKind
  | getKind
  | setKind
  deriving Repr, DecidableEq

/-- String value of the `kind` field, as acorn produces it. -/
def MethodKind.str : MethodKind → String
  | .ctorKind => "constructor"
  | .methodKind => "method"
  | .getKind => "get"
  | .setKind => "set"

/-- A member key: `member.key` together with the `member.computed` flag.
`computedKey e` is a member with `computed: true` whose key is the
expression `e`; the other two are non-computed `Identifier` /
`PrivateIdentifier` keys. -/
inductive Key where
  | ident (name : String) : Key
  | privateId (name : String) : Key
  | computedKey (e : Expr) : Key
  deriving Repr, DecidableEq

/-- A class-body member: an ESTree `MethodDefinition` (with `kind`, `key`,
`static`, and a `FunctionExpression` value carrying `params` and a block
`body`) or a `PropertyDefinition` (field, with optional initializer). -/
inductive ClassMember where
  | methodDef (kind : MethodKind) (key : Key) (isStatic : Bool)
      (params : List String) (body : List Stmt) : ClassMember
  | propertyDef (key : Key) (isStatic : Bool) (value : Option Expr) : ClassMember
  deriving Repr, DecidableEq

/-- The `key` field of a member. -/
def ClassMember.key : ClassMember → Key
  | .methodDef _ k _ _ _ => k
  | .propertyDef k _ _ => k

/-- The `static` flag of a member. -/
def ClassMember.isStatic : ClassMember → Bool
  | .methodDef _ _ s _ _ => s
  | .propertyDef _ s _ => s

/-- `member.value.params` (empty for a `PropertyDefinition`, where the code
never reads it). -/
def ClassMember.params : ClassMember → List String
  | .methodDef _ _ _ p _ => p
  | .propertyDef _ _ _ => []

/-- `member.value.body.body` (empty for a `PropertyDefinition`, where the
code never reads it). -/
def ClassMember.body : ClassMember → List Stmt
  | .methodDef _ _ _ _ b => b
  | .propertyDef _ _ _ => []

/-- Replace `member.key` by a plain identifier, as the in-place assignment
`renamedMethod.key = { type: 'Identifier', name: ... }` does. -/
def ClassMember.withKey (m : ClassMember) (k : Key) : ClassMember :=
  match m with
  | .methodDef kd _ s p b => .methodDef kd k s p b
  | .propertyDef _ s v => .propertyDef k s v

/-- `getMethodName` (src/index.js:525): `Identifier` keys yield their name,
`PrivateIdentifier` keys yield the name prefixed by `#`, anything else
yields `null`. -/
def getMethodName (methodNode : ClassMember) : Option String :=
  match methodNode.key with
  | .ident n => some n
  | .privateId n => some ("#" ++ n)
  | .computedKey _ => none

/-- `getMemberId` (src/index.js:733): the stable member-identity string
`(static:)?<kind>:<name>` where `<kind>` is `member.kind || 'field'` and
`<name>` is the identifier name, `#`-prefixed private name, or
`[computed]`. -/
def getMemberId (member : ClassMember) : String :=
  let isStatic := if member.isStatic then "static:" else ""
  let kind := match member with
    | .methodDef k _ _ _ _ => k.str
    | .propertyDef _ _ _ => "field"
  let name := match member.key with
    | .ident n => n
    | .privateId n => "#" ++ n
    | .computedKey _ => "[computed]"
  isStatic ++ kind ++ ":" ++ name

/-- The nine member buckets of `categorizeMembers` /
`createEmptyMemberCollection` (the constructor is held separately). -/
inductive Category where
  | staticPrivateFields
  | staticPublicFields
  | instancePrivateFields
  | instancePublicFields
  | staticPrivateMethods
  | staticPublicMethods
  | instancePrivateMethods
  | instancePublicMethods
  | gettersSetters
  deriving Repr, DecidableEq

/-- The JS property-name string of a bucket (used in history keys). -/
def Category.str : Category → String
  | .staticPrivateFields => "staticPrivateFields"
  | .staticPublicFields => "staticPublicFields"
  | .instancePrivateFields => "instancePrivateFields"
  | .instancePublicFields => "instancePublicFields"
  | .staticPrivateMethods => "staticPrivateMethods"
  | .staticPublicMethods => "staticPublicMethods"
  | .instancePrivateMethods => "instancePrivateMethods"
  | .instancePublicMethods => "instancePublicMethods"
  | .gettersSetters => "gettersSetters"

/-- `getMemberCategory` (src/index.js:209): bucket from the static flag,
privacy, and field/method distinction
(`prefix + visibility + suffix` on the string names). -/
def getMemberCategory (isStatic isPrivate : Bool) (type_ : String) : Category :=
  if type_ = "field" then
    if isStatic then
      if isPrivate then .staticPrivateFields else .staticPublicFields
    else
      if isPrivate then .instancePrivateFields else .instancePublicFields
  else
    if isStatic then
      if isPrivate then .staticPrivateMethods else .staticPublicMethods
    else
      if isPrivate then .instancePrivateMethods else .instancePublicMethods

/-- `isMethod` (src/index.js:726): `category.includes('Methods') ||
category === 'gettersSetters'`, spelled out over the nine bucket names. -/
def isMethod (category : Category) : Bool :=
  match category with
  | .staticPrivateMethods => true
  | .staticPublicMethods => true
  | .instancePrivateMethods => true
  | .instancePublicMethods => true
  | .gettersSetters => true
  | _ => false

/-- The raw member buckets of one class, as built by `categorizeMembers`
(the `members` field of a registry entry).  `ctor` models the
`constructor` property. -/
structure RawMembers where
  ctor : Option ClassMember := none
  staticPrivateFields : List ClassMember := []
  staticPublicFields : List ClassMember := []
  instancePrivateFields : List ClassMember := []
  instancePublicFields : List ClassMember := []
  staticPrivateMethods : List ClassMember := []
  staticPublicMethods : List ClassMember := []
  instancePrivateMethods : List ClassMember := []
  instancePublicMethods : List ClassMember := []
  gettersSetters : List ClassMember := []
  deriving Repr, DecidableEq

/-- Read a bucket of `RawMembers` by `Category`. -/
def RawMembers.getCat (r : RawMembers) : Category → List ClassMember
  | .staticPrivateFields => r.staticPrivateFields
  | .staticPublicFields => r.staticPublicFields
  | .instancePrivateFields => r.instancePrivateFields
  | .instancePublicFields => r.instancePublicFields
  | .staticPrivateMethods => r.staticPrivateMethods
  | .staticPublicMethods => r.staticPublicMethods
  | .instancePrivateMethods => r.instancePrivateMethods
  | .instancePublicMethods => r.instancePublicMethods
  | .gettersSetters => r.gettersSetters

/-- Write a bucket of `RawMembers` by `Category`. -/
def RawMembers.setCat (r : RawMembers) (c : Category) (l : List ClassMember) :
    RawMembers :=
  match c with
  | .staticPrivateFields => { r with staticPrivateFields := l }
  | .staticPublicFields => { r with staticPublicFields := l }
  | .instancePrivateFields => { r with instancePrivateFields := l }
  | .instancePublicFields => { r with instancePublicFields := l }
  | .staticPrivateMethods => { r with staticPrivateMethods := l }
  | .staticPublicMethods => { r with staticPublicMethods := l }
  | .instancePrivateMethods => { r with instancePrivateMethods := l }
  | .instancePublicMethods => { r with instancePublicMethods := l }
  | .gettersSetters => { r with gettersSetters := l }

/-- One step of the `categorizeMembers` loop body (src/index.js:183-201):
place one class-body member in its bucket, or record it as the
constructor. -/
def categorizeOne (categories : RawMembers) (member : ClassMember) : RawMembers :=
  let isStatic := member.isStatic
  let isPrivate := match member.key with
    | .privateId _ => true
    | _ => false
  match member with
  | .methodDef kind _ _ _ _ =>
    match kind with
    | .ctorKind => { categories with ctor := some member }
    | .getKind =>
        { categories with gettersSetters := categories.gettersSetters ++ [member] }
    | .setKind =>
        { categories with gettersSetters := categories.gettersSetters ++ [member] }
    | .methodKind =>
        let category := getMemberCategory isStatic isPrivate "method"
        categories.setCat category (categories.getCat category ++ [member])
  | .propertyDef _ _ _ =>
    let category := getMemberCategory isStatic isPrivate "field"
    categories.setCat category (categories.getCat category ++ [member])

/-- `categorizeMembers` (src/index.js:169): fold the class body into the
nine buckets plus the constructor slot. -/
def categorizeMembers (body : List ClassMember) : RawMembers :=
  body.foldl categorizeOne {}

/-! ## JS `Map` as an insertion-ordered association list -/

/-- `Map.prototype.get` / `Map.prototype.has`. -/
def alistGet {α β : Type} [DecidableEq α] (m : List (α × β)) (k : α) : Option β :=
  match m with
  | [] => none
  | (k', v) :: t => if k' = k then some v else alistGet t k

/-- `Map.prototype.set`: overwrite the value in place when the key exists,
otherwise append the new pair at the end of the insertion order. -/
def alistSet {α β : Type} [DecidableEq α] (m : List (α × β)) (k : α) (v : β) :
    List (α × β) :=
  match m with
  | [] => [(k, v)]
  | (k', v') :: t => if k' = k then (k', v) :: t else (k', v') :: alistSet t k v

/-- The `if (!m.has(k)) m.set(k, []); m.get(k).push(...vs)` pattern used for
`methodHistory` and the inheritance graph: append `vs` to the list stored
under `k`, creating the entry at the end when absent. -/
def alistAppend {α β : Type} [DecidableEq α] (m : List (α × List β)) (k : α)
    (vs : List β) : List (α × List β) :=
  match m with
  | [] => [(k, vs)]
  | (k', v') :: t =>
    if k' = k then (k', v' ++ vs) :: t else (k', v') :: alistAppend t k vs

/-! ## Member collections (the linearizer's data) -/

/-- An element of a merged member bucket: `{ member, fromClass, memberId }`
(src/index.js:696-700). -/
structure MemberEntry where
  member : ClassMember
  fromClass : Option String
  memberId : String
  deriving Repr, DecidableEq

/-- An element of `constructorChain`: `{ member, fromClass }`
(src/index.js:657-660). -/
structure ChainEntry where
  member : ClassMember
  fromClass : Option String
  deriving Repr, DecidableEq

/-- The linearized member collection built by `collectInheritedMembers` /
`createEmptyMemberCollection` (src/index.js:614-628).  `ctor` models the
`constructor` property; `methodHistory` is the lazily-initialized history
`Map` keyed by `category:memberId` strings. -/
structure MemberCollection where
  ctor : Option ClassMember := none
  constructorChain : List ChainEntry := []
  staticPrivateFields : List MemberEntry := []
  staticPublicFields : List MemberEntry := []
  instancePrivateFields : List MemberEntry := []
  instancePublicFields : List MemberEntry := []
  staticPrivateMethods : List MemberEntry := []
  staticPublicMethods : List MemberEntry := []
  instancePrivateMethods : List MemberEntry := []
  instancePublicMethods : List MemberEntry := []
  gettersSetters : List MemberEntry := []
  methodHistory : List (String × List MemberEntry) := []
  deriving Repr, DecidableEq

/-- `createEmptyMemberCollection` (src/index.js:614). -/
def createEmptyMemberCollection : MemberCollection := {}

/-- Read a bucket of a `MemberCollection` by `Category`. -/
def MemberCollection.getCat (c : MemberCollection) : Category → List MemberEntry
  | .staticPrivateFields => c.staticPrivateFields
  | .staticPublicFields => c.staticPublicFields
  | .instancePrivateFields => c.instancePrivateFields
  | .instancePublicFields => c.instancePublicFields
  | .staticPrivateMethods => c.staticPrivateMethods
  | .staticPublicMethods => c.staticPublicMethods
  | .instancePrivateMethods => c.instancePrivateMethods
  | .instancePublicMethods => c.instancePublicMethods
  | .gettersSetters => c.gettersSetters

/-- Write a bucket of a `MemberCollection` by `Category`. -/
def MemberCollection.setCat (c : MemberCollection) (cat : Category)
    (l : List MemberEntry) : MemberCollection :=
  match cat with
  | .staticPrivateFields => { c with staticPrivateFields := l }
  | .staticPublicFields => { c with staticPublicFields := l }
  | .instancePrivateFields => { c with instancePrivateFields := l }
  | .instancePublicFields => { c with instancePublicFields := l }
  | .staticPrivateMethods => { c with staticPrivateMethods := l }
  | .staticPublicMethods => { c with staticPublicMethods := l }
  | .instancePrivateMethods => { c with instancePrivateMethods := l }
  | .instancePublicMethods => { c with instancePublicMethods := l }
  | .gettersSetters => { c with gettersSetters := l }

/-- The category list iterated by `mergeMembers` (src/index.js:665-671). -/
def mergeCategories : List Category :=
  [.staticPrivateFields, .staticPublicFields,
   .instancePrivateFields, .instancePublicFields,
   .staticPrivateMethods, .staticPublicMethods,
   .instancePrivateMethods, .instancePublicMethods,
   .gettersSetters]

/-- The `source` argument of `mergeMembers`: either an already-merged
collection (its items are member entries and it carries a
`constructorChain`) or the raw buckets of one class from
`categorizeMembers`.  This mirrors the dynamic
`item.member && item.memberId !== undefined` / `source.constructorChain`
checks in the JS code. -/
inductive MergeSource where
  | coll (c : MemberCollection) : MergeSource
  | raw (r : RawMembers) : MergeSource

/-- Bucket contents of a merge source as member entries
(src/index.js:674-689): entries pass through unchanged; raw AST members
are wrapped with `fromClass := sourceClassName` and a fresh
`memberId`. -/
def MergeSource.items (source : MergeSource) (category : Category)
    (sourceClassName : Option String) : List MemberEntry :=
  match source with
  | .coll c => c.getCat category
  | .raw r => (r.getCat category).map
      (fun m => ⟨m, sourceClassName, getMemberId m⟩)

/-- One iteration of the inner `mergeMembers` loop (src/index.js:691-719):
record the entry in `methodHistory` when it is a named method, then
replace the existing entry with the same `memberId` in place, or append
the entry at the end of the bucket. -/
def mergeOneItem (target : MemberCollection) (category : Category)
    (entry : MemberEntry) : MemberCollection :=
  let existingIndex := (target.getCat category).findIdx?
    (fun m => m.memberId = entry.memberId)
  let target :=
    match getMethodName entry.member with
    | some methodName =>
      -- `if (methodName && this.isMethod(category))`: JS truthiness also
      -- rejects the empty string
      if methodName = "" then target
      else if isMethod category then
        let historyKey := category.str ++ ":" ++ entry.memberId
        { target with methodHistory := alistAppend target.methodHistory historyKey [entry] }
      else target
    | none => target
  match existingIndex with
  | some i => target.setCat category ((target.getCat category).set i entry)
  | none => target.setCat category (target.getCat category ++ [entry])

/-- `mergeMembers` (src/index.js:633-721): copy the source's method
history, extend the constructor chain, then merge every bucket with
override handling. -/
def mergeMembers (target : MemberCollection) (source : MergeSource)
    (sourceClassName : Option String := none) : MemberCollection :=
  -- copy method history from the source if it exists (raw members carry none)
  let target := match source with
    | .coll c => c.methodHistory.foldl
        (fun t kv => { t with methodHistory := alistAppend t.methodHistory kv.1 kv.2 }) target
    | .raw _ => target
  -- constructor handling: a collection with a non-empty chain contributes
  -- the whole chain; otherwise a raw constructor is wrapped and appended
  let target := match source with
    | .coll c =>
      if c.constructorChain.length > 0 then
        { target with
            constructorChain := target.constructorChain ++ c.constructorChain,
            ctor := c.ctor }
      else
        match c.ctor with
        | some con =>
          { target with
              constructorChain := target.constructorChain ++ [⟨con, sourceClassName⟩],
              ctor := some con }
        | none => target
    | .raw r =>
      match r.ctor with
      | some con =>
        { target with
            constructorChain := target.constructorChain ++ [⟨con, sourceClassName⟩],
            ctor := some con }
      | none => target
  mergeCategories.foldl
    (fun t category =>
      (source.items category sourceClassName).foldl
        (fun t entry => mergeOneItem t category entry) t)
    target

/-! ## Class registry -/

/-- Export kind of a class declaration (`exportType`). -/
inductive ExportType where
  | defaultE
  | namedE
  deriving Repr, DecidableEq

/-- A registry entry built by `extractClassInfo` (src/index.js:122-164)
minus the raw AST back-references (`node`, `parentNode`, `sourceCode`),
which the flattening pipeline does not consult. -/
structure ClassInfo where
  name : String
  superClass : Option String
  exported : Bool
  exportType : Option ExportType
  members : RawMembers
  deriving Repr, DecidableEq

/-- The class registry `classMap`: a name-keyed insertion-ordered map. -/
abbrev ClassMap := List (String × ClassInfo)

/-- Number of registry classes not yet in the visited set — the
termination measure of the recursive linearizer. -/
def unvisitedCount (classMap : ClassMap) (visited : List String) : Nat :=
  ((classMap.map Prod.fst).filter (fun k => !visited.contains k)).length

theorem length_filter_le_of_imp {α : Type} (l : List α) (p q : α → Bool)
    (h : ∀ a, p a = true → q a = true) :
    (l.filter p).length ≤ (l.filter q).length := by
  induction l with
  | nil => simp
  | cons b t ih =>
    by_cases hb : p b = true
    · simp only [List.filter, hb, h b hb]
      simpa using ih
    · simp only [List.filter, Bool.not_eq_true] at hb ⊢
      rw [hb]
      cases hq : q b <;> simp <;> omega

theorem length_filter_lt_of_imp {α : Type} (l : List α) (p q : α → Bool)
    (h : ∀ x, p x = true → q x = true)
    (a : α) (ha : a ∈ l) (hqa : q a = true) (hpa : p a = false) :
    (l.filter p).length < (l.filter q).length := by
  induction l with
  | nil => simp at ha
  | cons b t ih =>
    rcases List.mem_cons.mp ha with hb | hb
    · subst hb
      simp only [List.filter, hqa]
      have hp : p a = false := hpa
      rw [hp]
      simp only [List.length_cons]
      exact Nat.lt_succ_of_le (length_filter_le_of_imp t p q h)
    · by_cases hpb : p b = true
      · simp only [List.filter, hpb, h b hpb, List.length_cons]
        exact Nat.succ_lt_succ (ih hb)
      · simp only [Bool.not_eq_true] at hpb
        simp only [List.filter, hpb]
        have hle := ih hb
        cases hq : q b <;> simp <;> omega

theorem alistGet_mem_keys {α β : Type} [DecidableEq α] (m : List (α × β))
    (k : α) (v : β) (h : alistGet m k = some v) : k ∈ m.map Prod.fst := by
  induction m with
  | nil => simp [alistGet] at h
  | cons p t ih =>
    rw [alistGet] at h
    by_cases hk : p.1 = k
    · simp [hk]
    · simp only [hk, if_false] at h
      simp [ih h]

theorem unvisitedCount_cons_lt (classMap : ClassMap) (className : String)
    (visited : List String)
    (hmem : className ∈ classMap.map Prod.fst)
    (hv : className ∉ visited) :
    unvisitedCount classMap (className :: visited) <
      unvisitedCount classMap visited := by
  refine length_filter_lt_of_imp _ _ _ ?_ className hmem ?_ ?_
  · intro x hx
    simp only [Bool.not_eq_true', List.contains_cons] at hx ⊢
    exact (Bool.or_eq_false_iff.mp hx).2
  · simp only [Bool.not_eq_true']
    simpa using hv
  · simp [List.contains_cons]

/-- `collectInheritedMembers` (src/index.js:581-609): linearize a class's
ancestry post-order (base first), guarded by the visited set.  A repeat
visit or an unknown class contributes the empty collection. -/
def collectInheritedMembers (classMap : ClassMap) (className : String)
    (visited : List String) : MemberCollection :=
  if hv : className ∈ visited then createEmptyMemberCollection
  else
    match hc : alistGet classMap className with
    | none => createEmptyMemberCollection
    | some classInfo =>
      let visited' := className :: visited
      let allMembers := createEmptyMemberCollection
      let allMembers :=
        match classInfo.superClass with
        | some sup =>
          mergeMembers allMembers
            (.coll (collectInheritedMembers classMap sup visited')) none
        | none => allMembers
      mergeMembers allMembers (.raw classInfo.members) (some className)
termination_by unvisitedCount classMap visited
decreasing_by
  exact unvisitedCount_cons_lt classMap className visited
    (alistGet_mem_keys _ _ _ hc) hv

/-- Unfolding equation for `collectInheritedMembers`. -/
theorem collectInheritedMembers_eq (classMap : ClassMap) (className : String)
    (visited : List String) :
    collectInheritedMembers classMap className visited =
      if className ∈ visited then createEmptyMemberCollection
      else
        match alistGet classMap className with
        | none => createEmptyMemberCollection
        | some classInfo =>
          mergeMembers
            (match classInfo.superClass with
             | some sup =>
               mergeMembers createEmptyMemberCollection
                 (.coll (collectInheritedMembers classMap sup (className :: visited)))
                 none
             | none => createEmptyMemberCollection)
            (.raw classInfo.members) (some className) := by
  rw [collectInheritedMembers]
  by_cases hv : className ∈ visited
  · simp [hv]
  · simp only [hv, dite_false, if_false]
    cases hc : alistGet classMap className with
    | none => simp
    | some classInfo => simp

/-- Fuel-indexed variant of `collectInheritedMembers`: `none` models
running out of call stack.  Used to state that the visited set bounds the
recursion depth by the registry size, so even cyclic parent links cannot
exhaust the stack. -/
def collectInheritedMembersFuel (fuel : Nat) (classMap : ClassMap)
    (className : String) (visited : List String) : Option MemberCollection :=
  match fuel with
  | 0 => none
  | fuel + 1 =>
    if className ∈ visited then some createEmptyMemberCollection
    else
      match alistGet classMap className with
      | none => some createEmptyMemberCollection
      | some classInfo =>
        let visited' := className :: visited
        match classInfo.superClass with
        | some sup =>
          match collectInheritedMembersFuel fuel classMap sup visited' with
          | none => none
          | some parentMembers =>
            some (mergeMembers
              (mergeMembers createEmptyMemberCollection (.coll parentMembers) none)
              (.raw classInfo.members) (some className))
        | none =>
          some (mergeMembers createEmptyMemberCollection
            (.raw classInfo.members) (some className))

/-! ## Finding and transforming `super.m(...)` method calls -/

/-- Result element of `findSuperCalls` (src/index.js:945-979); the
`callNode` back-reference is omitted because no caller reads it. -/
structure SuperCallInfo where
  memberName : Option String
  isComputed : Bool
  deriving Repr, DecidableEq

/-- Reading `.name` off an AST node (`node.callee.property?.name`): only
`Identifier` and `PrivateIdentifier` nodes carry a name. -/
def exprName : Expr → Option String
  | .ident n => some n
  | .privateName n => some n
  | _ => none

/-- The record `findSuperCalls` pushes for a call node, from its callee:
one entry when the callee is a `MemberExpression` with object `Super`. -/
def superCallHit (callee : Expr) : List SuperCallInfo :=
  match callee with
  | .member .superE prop computed =>
    [⟨if computed then none else exprName prop, computed⟩]
  | _ => []

mutual

/-- `findSuperCalls` (src/index.js:945): pre-order walk pushing an info
record for every `CallExpression` whose callee is a `MemberExpression`
with object `Super`; a computed member access yields a `null` name. -/
def findSuperCallsExpr : Expr → List SuperCallInfo
  | .call callee args =>
    superCallHit callee ++ (findSuperCallsExpr callee ++ findSuperCallsExprList args)
  | .member obj prop _ => findSuperCallsExpr obj ++ findSuperCallsExpr prop
  | .thisE => []
  | .superE => []
  | .ident _ => []
  | .privateName _ => []
  | .lit _ => []
  | .otherE _ => []

/-- `findSuperCalls` over expression lists (the generic array recursion). -/
def findSuperCallsExprList : List Expr → List SuperCallInfo
  | [] => []
  | e :: es => findSuperCallsExpr e ++ findSuperCallsExprList es

end

mutual

/-- `findSuperCalls` over a statement (the generic child recursion). -/
def findSuperCallsStmt : Stmt → List SuperCallInfo
  | .exprStmt e => findSuperCallsExpr e
  | .ifStmt test consequent alternate =>
    findSuperCallsExpr test ++ findSuperCallsStmt consequent ++
      findSuperCallsStmtOpt alternate
  | .block body => findSuperCallsStmtList body
  | .retStmt arg =>
    match arg with
    | some e => findSuperCallsExpr e
    | none => []

/-- `findSuperCalls` over a statement list. -/
def findSuperCallsStmtList : List Stmt → List SuperCallInfo
  | [] => []
  | s :: ss => findSuperCallsStmt s ++ findSuperCallsStmtList ss

/-- `findSuperCalls` over an optional statement. -/
def findSuperCallsStmtOpt : Option Stmt → List SuperCallInfo
  | some s => findSuperCallsStmt s
  | none => []

end

/-- `findSuperCalls` over a member key (a computed key is an expression
child and is walked too). -/
def findSuperCallsKey : Key → List SuperCallInfo
  | .computedKey e => findSuperCallsExpr e
  | .ident _ => []
  | .privateId _ => []

/-- `findSuperCalls` applied to a whole member node (`key` before
`value`, matching the JS object field order). -/
def findSuperCallsMember : ClassMember → List SuperCallInfo
  | .methodDef _ key _ _ body => findSuperCallsKey key ++ findSuperCallsStmtList body
  | .propertyDef key _ value =>
    findSuperCallsKey key ++
      (match value with
       | some e => findSuperCallsExpr e
       | none => [])

/-- The in-place callee replacement of `transformSuperCalls`
(src/index.js:992-1011): `super.<name>` with a non-computed name mapped in
`superMethodMap` becomes `this.<renamed>` (JS truthiness also rejects the
empty name); anything else is left for the generic child recursion. -/
def superCalleeRewrite (superMethodMap : List (String × String))
    (callee : Expr) : Option Expr :=
  match callee with
  | .member .superE prop false =>
    (match exprName prop with
     | some methodName =>
       if methodName = "" then none
       else
         match alistGet superMethodMap methodName with
         | some renamedMethod =>
           some (Expr.member .thisE (.ident renamedMethod) false)
         | none => none
     | none => none)
  | _ => none

mutual

/-- `transformSuperCalls` (src/index.js:986-1026) on an expression:
rewrite `super.m(...)` to `this.<renamed>(...)` when `m` is non-computed
and mapped in `superMethodMap`; recurse into all children otherwise. -/
def transformSuperCallsExpr (superMethodMap : List (String × String)) :
    Expr → Expr
  | .call callee args =>
    -- the callee is replaced when `superCalleeRewrite` fires; otherwise
    -- its children are transformed generically, exactly as the JS
    -- recursion does after the in-place check
    let newCallee :=
      match superCalleeRewrite superMethodMap callee with
      | some c => c
      | none => transformSuperCallsExpr superMethodMap callee
    .call newCallee (transformSuperCallsExprList superMethodMap args)
  | .member obj prop computed =>
    .member (transformSuperCallsExpr superMethodMap obj)
      (transformSuperCallsExpr superMethodMap prop) computed
  | .thisE => .thisE
  | .superE => .superE
  | .ident n => .ident n
  | .privateName n => .privateName n
  | .lit v => .lit v
  | .otherE t => .otherE t

/-- `transformSuperCalls` on an expression list. -/
def transformSuperCallsExprList (superMethodMap : List (String × String)) :
    List Expr → List Expr
  | [] => []
  | e :: es =>
    transformSuperCallsExpr superMethodMap e ::
      transformSuperCallsExprList superMethodMap es

end

mutual

/-- `transformSuperCalls` on a statement. -/
def transformSuperCallsStmt (superMethodMap : List (String × String)) :
    Stmt → Stmt
  | .exprStmt e => .exprStmt (transformSuperCallsExpr superMethodMap e)
  | .ifStmt test consequent alternate =>
    .ifStmt (transformSuperCallsExpr superMethodMap test)
      (transformSuperCallsStmt superMethodMap consequent)
      (transformSuperCallsStmtOpt superMethodMap alternate)
  | .block body => .block (transformSuperCallsStmtList superMethodMap body)
  | .retStmt arg =>
    .retStmt
      (match arg with
       | some e => some (transformSuperCallsExpr superMethodMap e)
       | none => none)

/-- `transformSuperCalls` on a statement list. -/
def transformSuperCallsStmtList (superMethodMap : List (String × String)) :
    List Stmt → List Stmt
  | [] => []
  | s :: ss =>
    transformSuperCallsStmt superMethodMap s ::
      transformSuperCallsStmtList superMethodMap ss

/-- `transformSuperCalls` on an optional statement. -/
def transformSuperCallsStmtOpt (superMethodMap : List (String × String)) :
    Option Stmt → Option Stmt
  | some s => some (transformSuperCallsStmt superMethodMap s)
  | none => none

end

/-- `transformSuperCalls` on a member key. -/
def transformSuperCallsKey (superMethodMap : List (String × String)) :
    Key → Key
  | .computedKey e => .computedKey (transformSuperCallsExpr superMethodMap e)
  | .ident n => .ident n
  | .privateId n => .privateId n

/-- `transformSuperCalls` applied to a whole member node. -/
def transformSuperCallsMember (superMethodMap : List (String × String)) :
    ClassMember → ClassMember
  | .methodDef kind key isStatic params body =>
    .methodDef kind (transformSuperCallsKey superMethodMap key) isStatic params
      (transformSuperCallsStmtList superMethodMap body)
  | .propertyDef key isStatic value =>
    .propertyDef (transformSuperCallsKey superMethodMap key) isStatic
      (match value with
       | some e => some (transformSuperCallsExpr superMethodMap e)
       | none => none)

/-! ## Super-call resolution (`analyzeSuperCalls` and friends) -/

/-- The method categories scanned for super calls
(src/index.js:425-429, 564-568). -/
def methodCategories : List Category :=
  [.staticPrivateMethods, .staticPublicMethods,
   .instancePrivateMethods, .instancePublicMethods,
   .gettersSetters]

/-- JS template-literal stringification of a possibly-null class name. -/
def optName : Option String → String
  | some s => s
  | none => "null"

/-- Category loop of `findParentMethodImplementation`
(src/index.js:492-520).  `currentIndex > 0` returns the previous history
entry; `currentIndex === -1` (with non-empty history) returns the most
recent entry; `currentIndex === 0` and a missing member or history fall
through to the next category. -/
def findParentMethodImplementationGo (className : Option String)
    (methodName : String) (allMembers : MemberCollection) :
    List Category → Option MemberEntry
  | [] => none
  | category :: rest =>
    match (allMembers.getCat category).find?
        (fun m => getMethodName m.member = some methodName) with
    | none => findParentMethodImplementationGo className methodName allMembers rest
    | some testMember =>
      let historyKey := category.str ++ ":" ++ testMember.memberId
      match alistGet allMembers.methodHistory historyKey with
      | none => findParentMethodImplementationGo className methodName allMembers rest
      | some history =>
        if history.length = 0 then
          findParentMethodImplementationGo className methodName allMembers rest
        else
          match history.findIdx? (fun h => h.fromClass = className) with
          | some (i + 1) => history.get? i
          | some 0 =>
            findParentMethodImplementationGo className methodName allMembers rest
          | none => history.getLast?

/-- `findParentMethodImplementation` (src/index.js:492). -/
def findParentMethodImplementation (className : Option String)
    (methodName : String) (allMembers : MemberCollection) : Option MemberEntry :=
  findParentMethodImplementationGo className methodName allMembers methodCategories

/-- `buildParentSuperMap` (src/index.js:537-558): resolve the super calls
inside a preserved parent method against the grandparent implementations. -/
def buildParentSuperMap (parentClassName : Option String)
    (parentMethod : ClassMember) (allMembers : MemberCollection) :
    List (String × String) :=
  (findSuperCallsMember parentMethod).foldl
    (fun m superCall =>
      match superCall.memberName with
      | some memberName =>
        if memberName = "" then m
        else if superCall.isComputed then m
        else
          match findParentMethodImplementation parentClassName memberName allMembers with
          | some grandparentImpl =>
            alistSet m memberName
              ("_super_" ++ optName grandparentImpl.fromClass ++ "_" ++ memberName)
          | none => m
      | none => m)
    []

/-- First pass of `analyzeSuperCalls` (src/index.js:423-448): the
deduplicated list, in first-appearance order, of the non-computed,
non-empty super-called names across all method buckets. -/
def neededParentMethods (allMembers : MemberCollection) : List String :=
  methodCategories.foldl
    (fun acc category =>
      (allMembers.getCat category).foldl
        (fun acc memberEntry =>
          (findSuperCallsMember memberEntry.member).foldl
            (fun acc superCall =>
              match superCall.memberName with
              | some memberName =>
                if memberName = "" then acc
                else if superCall.isComputed then acc
                else if acc.contains memberName then acc
                else acc ++ [memberName]
              | none => acc)
            acc)
        acc)
    ([] : List String)

/-- Second-pass step of `analyzeSuperCalls` (src/index.js:452-483) for one
needed name: resolve the parent implementation, record the rename in the
map, and synthesize the renamed copy (its own super calls rewritten via
`buildParentSuperMap`). -/
def analyzeSuperStep (allMembers : MemberCollection) (currentClassName : String)
    (acc : List (String × String) × List ClassMember) (methodName : String) :
    List (String × String) × List ClassMember :=
  match findParentMethodImplementation (some currentClassName) methodName allMembers with
  | some parentImpl =>
    let renamedMethodName :=
      "_super_" ++ optName parentImpl.fromClass ++ "_" ++ methodName
    let superMethodMap := alistSet acc.1 methodName renamedMethodName
    let renamedMethod := parentImpl.member.withKey (.ident renamedMethodName)
    let parentSuperMap := buildParentSuperMap parentImpl.fromClass renamedMethod allMembers
    let renamedMethod := transformSuperCallsMember parentSuperMap renamedMethod
    (superMethodMap, acc.2 ++ [renamedMethod])
  | none => acc

/-- `analyzeSuperCalls` (src/index.js:419-486): first pass collects the
set of non-computed super-called names; second pass synthesizes, per
name with a found parent implementation, a renamed copy of that
implementation (its own super calls rewritten via `buildParentSuperMap`)
and the `superMethodMap` entry for call-site rewriting.
Source-attribution comments (`preserveComments`) are cosmetic and not
modelled. -/
def analyzeSuperCalls (allMembers : MemberCollection) (currentClassName : String) :
    List (String × String) × List ClassMember :=
  (neededParentMethods allMembers).foldl
    (analyzeSuperStep allMembers currentClassName) ([], [])

/-- `transformAllSuperCalls` (src/index.js:563-575): rewrite the super
calls of every merged method entry.  (In JS this mutates the member AST
nodes in place; the functional embedding returns the updated collection,
and `registryAfterFlatten` below accounts for the shared-node mutation.) -/
def transformAllSuperCalls (allMembers : MemberCollection)
    (superMethodMap : List (String × String)) : MemberCollection :=
  methodCategories.foldl
    (fun coll category =>
      coll.setCat category
        ((coll.getCat category).map
          (fun memberEntry =>
            { memberEntry with
                member := transformSuperCallsMember superMethodMap memberEntry.member })))
    allMembers

/-! ## Constructor chain synthesis -/

/-- `isSuperCall` (src/index.js:928): an expression statement whose
expression is a call with callee `Super`. -/
def isSuperCall (statement : Stmt) : Bool :=
  match statement with
  | .exprStmt (.call .superE _) => true
  | _ => false

/-- Arguments of a top-level `super(...)` statement. -/
def superCallArgs (statement : Stmt) : List Expr :=
  match statement with
  | .exprStmt (.call _ args) => args
  | _ => []

/-- The replacement statement built at src/index.js:894-911:
`this.<parentConstructorName>(...originalArguments)`. -/
def superCtorRewrite (parentConstructorName : String) (statement : Stmt) : Stmt :=
  .exprStmt (.call (.member .thisE (.ident parentConstructorName) false)
    (superCallArgs statement))

/-- `transformSuperConstructorCalls` (src/index.js:886-914): rewrite, in
place, every direct top-level `super(...)` expression statement of the
body; nothing is recursed into. -/
def transformSuperConstructorCalls (body : List Stmt)
    (parentConstructorName : String) : List Stmt :=
  body.map
    (fun statement =>
      if isSuperCall statement then superCtorRewrite parentConstructorName statement
      else statement)

/-- `removeSuperConstructorCalls` (src/index.js:919-923): drop the direct
top-level `super(...)` expression statements of the body. -/
def removeSuperConstructorCalls (body : List Stmt) : List Stmt :=
  body.filter (fun statement => !isSuperCall statement)

/-- Loop body of `analyzeConstructorSuperCalls` (src/index.js:786-833)
for chain index `i`: synthesize the renamed `_super_<Class>_constructor`
method for chain link `i`, rewiring its `super(...)` statement to the
next-outer link (or removing it at the root link). -/
def ctorChainStep (constructorChain : List ChainEntry)
    (acc : List (Option String × String) × List ClassMember) (i : Nat) :
    List (Option String × String) × List ClassMember :=
  match constructorChain.get? i with
  | none => acc
  | some chainEntry =>
    let renamedConstructorName :=
      "_super_" ++ optName chainEntry.fromClass ++ "_constructor"
    let superConstructorMap :=
      alistSet acc.1 chainEntry.fromClass renamedConstructorName
    let body0 := chainEntry.member.body
    let body1 :=
      if i > 0 then
        match constructorChain.get? (i - 1) with
        | some grandparentEntry =>
          transformSuperConstructorCalls body0
            ("_super_" ++ optName grandparentEntry.fromClass ++ "_constructor")
        | none => body0
      else removeSuperConstructorCalls body0
    let renamedConstructor :=
      ClassMember.methodDef .methodKind (.ident renamedConstructorName) false
        chainEntry.member.params body1
    (superConstructorMap, acc.2 ++ [renamedConstructor])

/-- `analyzeConstructorSuperCalls` (src/index.js:773-835): synthesize a
`_super_<Class>_constructor` method for every constructor-chain entry but
the last. -/
def analyzeConstructorSuperCalls (allMembers : MemberCollection)
    (_currentClassName : String) :
    List (Option String × String) × List ClassMember :=
  match allMembers.ctor with
  | none => ([], [])
  | some _ =>
    let constructorChain := allMembers.constructorChain
    (List.range (constructorChain.length - 1)).foldl
      (ctorChainStep constructorChain) ([], [])

/-- `buildSuperPatternConstructor` (src/index.js:840-881): clone the
most-derived chain constructor as the flattened constructor, rewriting
its `super(...)` statement to the synthesized immediate-ancestor
constructor-method (or removing it when the chain has one link). -/
def buildSuperPatternConstructor (_className : String)
    (allMembers : MemberCollection)
    (superConstructorMap : List (Option String × String)) : Option ClassMember :=
  match allMembers.ctor with
  | none => none
  | some _ =>
    let constructorChain := allMembers.constructorChain
    match constructorChain.getLast? with
    | none => none
    | some finalEntry =>
      let body0 := finalEntry.member.body
      let body1 :=
        if constructorChain.length > 1 then
          match constructorChain.get? (constructorChain.length - 2) with
          | some parentEntry =>
            match alistGet superConstructorMap parentEntry.fromClass with
            | some parentConstructorName =>
              transformSuperConstructorCalls body0 parentConstructorName
            | none => body0
          | none => body0
        else removeSuperConstructorCalls body0
      some (ClassMember.methodDef .ctorKind (.ident "constructor") false
        finalEntry.member.params body1)

/-! ## Class assembly and the program-level pipeline -/

/-- `createMemberNodes` (src/index.js:752-767): deep-clone each entry's
member.  Cloning is the identity on values; the source-attribution
comments are cosmetic and not modelled. -/
def createMemberNodes (memberEntries : List MemberEntry)
    (_currentClassName : String) : List ClassMember :=
  memberEntries.map (fun entry => entry.member)

/-- An ESTree `ClassDeclaration` node: optional identifier, optional
`superClass` expression, and the class body members. -/
structure ClassNode where
  id : Option String
  superClass : Option Expr
  body : List ClassMember
  deriving Repr, DecidableEq

/-- `flattenClass` (src/index.js:343-413): linearize, resolve and rewrite
super calls, stitch the constructor chain, and assemble the flat class
body in the fixed category order with `superClass: null`. -/
def flattenClass (classMap : ClassMap) (classInfo : ClassInfo) : ClassNode :=
  let allMembers := collectInheritedMembers classMap classInfo.name []
  let analyzed := analyzeSuperCalls allMembers classInfo.name
  let superMethodMap := analyzed.1
  let parentMethodsToKeep := analyzed.2
  let allMembers := transformAllSuperCalls allMembers superMethodMap
  let ctorAnalyzed := analyzeConstructorSuperCalls allMembers classInfo.name
  let superConstructorMap := ctorAnalyzed.1
  let parentConstructorsToKeep := ctorAnalyzed.2
  let finalConstructor :=
    buildSuperPatternConstructor classInfo.name allMembers superConstructorMap
  let classBody :=
    createMemberNodes allMembers.staticPrivateFields classInfo.name
    ++ createMemberNodes allMembers.staticPublicFields classInfo.name
    ++ createMemberNodes allMembers.staticPrivateMethods classInfo.name
    ++ createMemberNodes allMembers.staticPublicMethods classInfo.name
    ++ createMemberNodes allMembers.instancePrivateFields classInfo.name
    ++ createMemberNodes allMembers.instancePublicFields classInfo.name
    ++ (match finalConstructor with
        | some c => [c]
        | none => [])
    ++ createMemberNodes allMembers.gettersSetters classInfo.name
    ++ createMemberNodes allMembers.instancePrivateMethods classInfo.name
    ++ createMemberNodes allMembers.instancePublicMethods classInfo.name
    ++ parentMethodsToKeep
    ++ parentConstructorsToKeep
  { id := some classInfo.name, superClass := none, body := classBody }

/-- A top-level node of the compilation unit: a (possibly export-wrapped)
class declaration, or any other statement kept verbatim. -/
inductive TopLevel where
  | classDecl (c : ClassNode) : TopLevel
  | exportDefaultClass (c : ClassNode) : TopLevel
  | exportNamedClass (c : ClassNode) : TopLevel
  | otherNode (tag : String) : TopLevel
  deriving Repr, DecidableEq

/-- `extractClassInfo` (src/index.js:122-164): recognize bare and
export-wrapped class declarations with an identifier name; only a plain
identifier `superClass` is recorded as the parent. -/
def extractClassInfo (node : TopLevel) : Option ClassInfo :=
  let recognized : Option (ClassNode × Bool × Option ExportType) :=
    match node with
    | .classDecl c => some (c, false, none)
    | .exportDefaultClass c => some (c, true, some .defaultE)
    | .exportNamedClass c => some (c, true, some .namedE)
    | .otherNode _ => none
  match recognized with
  | none => none
  | some (classNode, exported, exportType) =>
    match classNode.id with
    | none => none
    | some className =>
      let superClass :=
        match classNode.superClass with
        | some (.ident n) => some n
        | _ => none
      some { name := className, superClass := superClass, exported := exported,
             exportType := exportType, members := categorizeMembers classNode.body }

/-- The child→parent inheritance graph, stored parent-keyed as in the JS
(`parent name ↦ list of child names`). -/
abbrev InheritanceGraph := List (String × List String)

/-- `buildClassRegistry` (src/index.js:98-117): one pass over the
top-level nodes filling the class map and the inheritance graph.  (The
`exportedClasses` set is also populated there but never read again, so it
is not modelled.) -/
def buildClassRegistry (prog : List TopLevel) : ClassMap × InheritanceGraph :=
  prog.foldl
    (fun (acc : ClassMap × InheritanceGraph) node =>
      match extractClassInfo node with
      | none => acc
      | some classInfo =>
        let classMap := alistSet acc.1 classInfo.name classInfo
        let graph :=
          match classInfo.superClass with
          | some sup => alistAppend acc.2 sup [classInfo.name]
          | none => acc.2
        (classMap, graph))
    ([], [])

/-- `hasCircularInheritance` (src/index.js:247-260): walk parent links
with a visited set; a revisit reports a cycle. -/
def hasCircularInheritance (classMap : ClassMap) (className : String)
    (visited : List String) : Bool :=
  if hv : className ∈ visited then true
  else
    match hc : alistGet classMap className with
    | some classInfo =>
      match classInfo.superClass with
      | some sup => hasCircularInheritance classMap sup (className :: visited)
      | none => false
    | none => false
termination_by unvisitedCount classMap visited
decreasing_by
  exact unvisitedCount_cons_lt classMap className visited
    (alistGet_mem_keys _ _ _ hc) hv

/-- Unfolding equation for `hasCircularInheritance`. -/
theorem hasCircularInheritance_eq (classMap : ClassMap) (className : String)
    (visited : List String) :
    hasCircularInheritance classMap className visited =
      if className ∈ visited then true
      else
        match alistGet classMap className with
        | some classInfo =>
          match classInfo.superClass with
          | some sup => hasCircularInheritance classMap sup (className :: visited)
          | none => false
        | none => false := by
  rw [hasCircularInheritance]
  by_cases hv : className ∈ visited
  · simp [hv]
  · simp only [hv, dite_false, if_false]
    cases hc : alistGet classMap className with
    | none => simp
    | some classInfo => simp

/-- Fuel-indexed variant of `hasCircularInheritance`, used to evaluate the
well-founded definition inside kernel computations. -/
def hasCircularInheritanceFuel (fuel : Nat) (classMap : ClassMap)
    (className : String) (visited : List String) : Option Bool :=
  match fuel with
  | 0 => none
  | fuel + 1 =>
    if className ∈ visited then some true
    else
      match alistGet classMap className with
      | some classInfo =>
        match classInfo.superClass with
        | some sup => hasCircularInheritanceFuel fuel classMap sup (className :: visited)
        | none => some false
      | none => some false

/-- The fuel-indexed cycle check agrees with the recursive one once the
fuel exceeds the number of unvisited registry classes. -/
theorem hasCircularInheritanceFuel_eq (fuel : Nat) :
    ∀ (classMap : ClassMap) (className : String) (visited : List String),
      unvisitedCount classMap visited < fuel →
      hasCircularInheritanceFuel fuel classMap className visited =
        some (hasCircularInheritance classMap className visited) := by
  induction fuel with
  | zero => intro _ _ _ h; omega
  | succ fuel ih =>
    intro classMap className visited h
    rw [hasCircularInheritance_eq]
    unfold hasCircularInheritanceFuel
    by_cases hv : className ∈ visited
    · simp [hv]
    · simp only [hv, if_false]
      cases hc : alistGet classMap className with
      | none => simp
      | some classInfo =>
        cases hs : classInfo.superClass with
        | none => simp [hs]
        | some sup =>
          have hlt := unvisitedCount_cons_lt classMap className visited
            (alistGet_mem_keys _ _ _ hc) hv
          simp only [hs]
          exact ih classMap sup (className :: visited) (by omega)

/-- Kernel-evaluable form of `hasCircularInheritance`. -/
theorem hasCircularInheritance_eval (classMap : ClassMap) (className : String)
    (visited : List String) :
    hasCircularInheritance classMap className visited =
      (hasCircularInheritanceFuel (unvisitedCount classMap visited + 1)
          classMap className visited).getD false := by
  rw [hasCircularInheritanceFuel_eq (unvisitedCount classMap visited + 1)
    classMap className visited (by omega)]
  rfl

/-- A compiler diagnostic.  The implementation only ever constructs
`missingParent`, `circularInheritance` and (on a thrown parse error, not
modelled here) `compilationError`.  `unresolvedSuperCall` is the
diagnostic kind named by the specification's error taxonomy for an
unresolvable super call; it exists in this model so that its absence from
every produced diagnostics list can be stated. -/
inductive Diag where
  | missingParent (cls parent : String) : Diag
  | circularInheritance (cls : String) : Diag
  | compilationError (msg : String) : Diag
  | unresolvedSuperCall (cls member : String) : Diag
  deriving Repr, DecidableEq

/-- `validateInheritance` (src/index.js:219-242): for every class with a
parent, report a missing parent and/or a detected cycle; never halts
compilation. -/
def validateInheritance (classMap : ClassMap) : List Diag :=
  classMap.foldl
    (fun errors kv =>
      match kv.2.superClass with
      | none => errors
      | some sup =>
        let errors :=
          if alistGet classMap sup = none then errors ++ [.missingParent kv.1 sup]
          else errors
        if hasCircularInheritance classMap kv.1 [] then
          errors ++ [.circularInheritance kv.1]
        else errors)
    []

/-- The compiler options (src/index.js:25-32) with their defaults. -/
structure Options where
  excludeIntermediate : Bool := true
  exportOnly : Bool := true
  preserveComments : Bool := true
  validateInheritance : Bool := true
  deriving Repr, DecidableEq

/-- `shouldSkipClass` (src/index.js:323-338): skip non-exported classes
under `exportOnly`, and skip classes with children under
`excludeIntermediate`. -/
def shouldSkipClass (options : Options) (graph : InheritanceGraph)
    (classInfo : ClassInfo) : Bool :=
  if options.exportOnly && !classInfo.exported then true
  else if options.excludeIntermediate then
    match alistGet graph classInfo.name with
    | some children => children.length > 0
    | none => false
  else false

/-- Per-node action of `transformAST` (src/index.js:265-318): keep
non-class nodes verbatim, drop skipped classes, flatten the rest and wrap
them in an export when originally exported or (under
`excludeIntermediate`) chain-terminal. -/
def transformNode (options : Options) (classMap : ClassMap)
    (graph : InheritanceGraph) (node : TopLevel) : Option TopLevel :=
  match extractClassInfo node with
  | none => some node
  | some classInfo =>
    if shouldSkipClass options graph classInfo then none
    else
      let flattenedClass := flattenClass classMap classInfo
      let shouldExport :=
        classInfo.exported ||
          (options.excludeIntermediate && !(alistGet graph classInfo.name).isSome)
      if shouldExport then
        match classInfo.exportType.getD .namedE with
        | .defaultE => some (.exportDefaultClass flattenedClass)
        | .namedE => some (.exportNamedClass flattenedClass)
      else some (.classDecl flattenedClass)

/-- `transformAST` (src/index.js:265-318). -/
def transformAST (options : Options) (classMap : ClassMap)
    (graph : InheritanceGraph) (prog : List TopLevel) : List TopLevel :=
  prog.filterMap (transformNode options classMap graph)

/-- Result of one compilation: transformed unit plus accumulated
diagnostics (`code` generation and prettier formatting are external
collaborators and not modelled). -/
structure CompileResult where
  prog : List TopLevel
  errors : List Diag
  deriving Repr, DecidableEq

/-- The `compile` pipeline (src/index.js:43-80) minus parsing and code
generation: build the registry and graph, validate if enabled, transform. -/
def compileModel (options : Options) (prog : List TopLevel) : CompileResult :=
  let reg := buildClassRegistry prog
  let errors :=
    if options.validateInheritance then Ignorant.validateInheritance reg.1 else []
  { prog := transformAST options reg.1 reg.2 prog, errors := errors }

/-! ## Registry state after `flattenClass` (explicit mutation model)

`transformAllSuperCalls` rewrites `memberEntry.member` in place.  Those
member values are the very AST nodes held by the registry entry of the
class the entry came from (`collectInheritedMembers` wraps the raw
registry nodes without cloning, and `flattenClass` only clones *after*
the rewriting).  The functions below make that shared-node mutation
explicit: a registry method node is rewritten exactly when it survived
into the merged collection (same value, same owning class).  Object
identity is approximated by structural equality plus the `fromClass`
provenance. -/

/-- Does `m`, owned by class `clsName`, survive as a merged entry of
bucket `category` (and hence get rewritten in place)? -/
def survivesMerge (merged : MemberCollection) (category : Category)
    (clsName : String) (m : ClassMember) : Bool :=
  (merged.getCat category).any
    (fun e => e.member = m && e.fromClass = some clsName)

/-- The raw buckets of one registry class after `transformAllSuperCalls`
has run for a flattening whose merged collection is `merged`. -/
def rawAfterTransformAll (r : RawMembers) (merged : MemberCollection)
    (superMethodMap : List (String × String)) (clsName : String) : RawMembers :=
  methodCategories.foldl
    (fun r category =>
      r.setCat category
        ((r.getCat category).map
          (fun m =>
            if survivesMerge merged category clsName m then
              transformSuperCallsMember superMethodMap m
            else m)))
    r

/-- The registry state after `flattenClass classMap classInfo` ran for the
class named `className`: every registry entry's method buckets reflect the
in-place super-call rewriting. -/
def registryAfterFlatten (classMap : ClassMap) (className : String) : ClassMap :=
  let allMembers := collectInheritedMembers classMap className []
  let superMethodMap := (analyzeSuperCalls allMembers className).1
  classMap.map
    (fun kv =>
      (kv.1,
        { kv.2 with
            members := rawAfterTransformAll kv.2.members allMembers superMethodMap kv.1 }))

/-! ## Observation functions (occurrence counting)

These are specification-side instruments: they count syntactic
occurrences in the produced AST, so that "the output contains zero
occurrences of the parent-call syntax" and "every call site is rewritten
to the synthesized name on `this`" can be stated.  Occurrences of
`super.m(...)` are exactly the records `findSuperCalls` collects. -/

/-- Occurrences, among collected super-call records, of the non-computed
name `name` — i.e. occurrences of the syntax `super.<name>(...)`. -/
def countSuperName (name : String) (infos : List SuperCallInfo) : Nat :=
  (infos.filter (fun sc => sc.memberName = some name && !sc.isComputed)).length

/-- Occurrences of `super.<name>(...)` anywhere in a member. -/
def countSuperNameMember (name : String) (m : ClassMember) : Nat :=
  countSuperName name (findSuperCallsMember m)

/-- Occurrences of `super.<name>(...)` anywhere in a class body. -/
def countSuperNameClass (name : String) (c : ClassNode) : Nat :=
  (c.body.map (countSuperNameMember name)).sum

/-- The name recorded for a call whose callee is `this.<name>`
(non-computed). -/
def thisCallHit (callee : Expr) : List String :=
  match callee with
  | .member .thisE (.ident n) false => [n]
  | _ => []

mutual

/-- Names of all `this.<name>(...)` call sites (non-computed callee on
`this`) in an expression, in pre-order. -/
def findThisCallsExpr : Expr → List String
  | .call callee args =>
    thisCallHit callee ++ (findThisCallsExpr callee ++ findThisCallsExprList args)
  | .member obj prop _ => findThisCallsExpr obj ++ findThisCallsExpr prop
  | .thisE => []
  | .superE => []
  | .ident _ => []
  | .privateName _ => []
  | .lit _ => []
  | .otherE _ => []

/-- `findThisCallsExpr` over an expression list. -/
def findThisCallsExprList : List Expr → List String
  | [] => []
  | e :: es => findThisCallsExpr e ++ findThisCallsExprList es

end

mutual

/-- `findThisCallsExpr` over a statement. -/
def findThisCallsStmt : Stmt → List String
  | .exprStmt e => findThisCallsExpr e
  | .ifStmt test consequent alternate =>
    findThisCallsExpr test ++ findThisCallsStmt consequent ++
      findThisCallsStmtOpt alternate
  | .block body => findThisCallsStmtList body
  | .retStmt arg =>
    match arg with
    | some e => findThisCallsExpr e
    | none => []

/-- `findThisCallsExpr` over a statement list. -/
def findThisCallsStmtList : List Stmt → List String
  | [] => []
  | s :: ss => findThisCallsStmt s ++ findThisCallsStmtList ss

/-- `findThisCallsExpr` over an optional statement. -/
def findThisCallsStmtOpt : Option Stmt → List String
  | some s => findThisCallsStmt s
  | none => []

end

/-- `findThisCallsExpr` over a whole member. -/
def findThisCallsMember : ClassMember → List String
  | .methodDef _ key _ _ body =>
    (match key with
     | .computedKey e => findThisCallsExpr e
     | _ => []) ++ findThisCallsStmtList body
  | .propertyDef key _ value =>
    (match key with
     | .computedKey e => findThisCallsExpr e
     | _ => []) ++
      (match value with
       | some e => findThisCallsExpr e
       | none => [])

/-- Occurrences of `this.<name>(...)` anywhere in a member. -/
def countThisCallMember (name : String) (m : ClassMember) : Nat :=
  ((findThisCallsMember m).filter (fun n => n = name)).length

/-- Count of top-level `super(...)` expression statements in a body. -/
def countTopSuperCalls (body : List Stmt) : Nat :=
  (body.filter isSuperCall).length

/-- One when a call's callee is `Super` itself. -/
def superCtorHit (callee : Expr) : Nat :=
  match callee with
  | .superE => 1
  | _ => 0

mutual

/-- Deep count of constructor-style `super(...)` call expressions (callee
is `Super` itself) anywhere in an expression. -/
def countSuperCtorCallsExpr : Expr → Nat
  | .call callee args =>
    superCtorHit callee + (countSuperCtorCallsExpr callee + countSuperCtorCallsExprList args)
  | .member obj prop _ => countSuperCtorCallsExpr obj + countSuperCtorCallsExpr prop
  | .thisE => 0
  | .superE => 0
  | .ident _ => 0
  | .privateName _ => 0
  | .lit _ => 0
  | .otherE _ => 0

def countSuperCtorCallsExprList : List Expr → Nat
  | [] => 0
  | e :: es => countSuperCtorCallsExpr e + countSuperCtorCallsExprList es

end

mutual

def countSuperCtorCallsStmt : Stmt → Nat
  | .exprStmt e => countSuperCtorCallsExpr e
  | .ifStmt test consequent alternate =>
    countSuperCtorCallsExpr test + countSuperCtorCallsStmt consequent +
      countSuperCtorCallsStmtOpt alternate
  | .block body => countSuperCtorCallsStmtList body
  | .retStmt arg =>
    match arg with
    | some e => countSuperCtorCallsExpr e
    | none => 0

def countSuperCtorCallsStmtList : List Stmt → Nat
  | [] => 0
  | s :: ss => countSuperCtorCallsStmt s + countSuperCtorCallsStmtList ss

def countSuperCtorCallsStmtOpt : Option Stmt → Nat
  | some s => countSuperCtorCallsStmt s
  | none => 0

end

/-! ## Reference semantics for the emitted class fragment

The flattened class uses only plain instance methods called as
`this.<m>(...)` plus `console.log('<v>')` side effects.  This small
operational semantics executes such bodies, producing the list of logged
strings; it is used to state the base-first execution-order claim about
constructor chains. -/

/-- Method environment of a class: later definitions shadow earlier ones,
as in a JS class body.  Only plain non-static identifier-named methods
are dispatchable via `this.<m>(...)`. -/
def classMethodEnv (c : ClassNode) : List (String × List Stmt) :=
  c.body.foldl
    (fun env m =>
      match m with
      | .methodDef .methodKind (.ident n) false _ body => alistSet env n body
      | _ => env)
    []

/-- Execute a statement list: a `this.<m>(...)` expression statement runs
the body of method `m` (consuming one unit of call-stack fuel), a
`console.log('<v>')` logs `v`, and any other statement has no observable
effect.  Returns the log in order. -/
def execStmts (fuel : Nat) (env : List (String × List Stmt)) :
    List Stmt → List String
  | [] => []
  | statement :: rest =>
    (match statement with
     | .exprStmt (.call (.member .thisE (.ident m) false) _) =>
       (match fuel with
        | 0 => []
        | f + 1 =>
          match alistGet env m with
          | some body => execStmts f env body
          | none => [])
     | .exprStmt (.call (.member (.ident "console") (.ident "log") false) [.lit v]) =>
       [v]
     | _ => []) ++ execStmts fuel env rest
termination_by stmts => (fuel, stmts)

/-- The constructor member of a class body (later one wins, as in JS). -/
def findClassConstructor (c : ClassNode) : Option ClassMember :=
  c.body.foldl
    (fun acc m =>
      match m with
      | .methodDef .ctorKind _ _ _ _ => some m
      | _ => acc)
    none

/-- Logs produced by `new C(...)`: run the constructor body in the class's
method environment. -/
def instantiate (fuel : Nat) (c : ClassNode) : List String :=
  match findClassConstructor c with
  | some ctorMember => execStmts fuel (classMethodEnv c) ctorMember.body
  | none => []

/-! ## The specification's member-identity tuple (claim C7)

`specMemberIdentity` is written from the specification's words, not from
the source: "(is-static, member-kind [field/method/accessor/constructor],
visibility [public/private], name)".  It is compared against the
implementation's slot key (bucket + `getMemberId`). -/

/-- The spec's member-kind alternatives; note getters and setters are one
kind, `accessor`. -/
inductive SpecMemberKind where
  | fieldK
  | methodK
  | accessorK
  | constructorK
  deriving Repr, DecidableEq

/-- The spec's member-kind of a member. -/
def specMemberKind : ClassMember → SpecMemberKind
  | .methodDef .ctorKind _ _ _ _ => .constructorK
  | .methodDef .getKind _ _ _ _ => .accessorK
  | .methodDef .setKind _ _ _ _ => .accessorK
  | .methodDef .methodKind _ _ _ _ => .methodK
  | .propertyDef _ _ _ => .fieldK

/-- Privacy of a member (key is a `PrivateIdentifier`). -/
def ClassMember.isPrivate (m : ClassMember) : Bool :=
  match m.key with
  | .privateId _ => true
  | _ => false

/-- The declared name of a member, when not computed. -/
def memberKeyName : ClassMember → Option String
  | m =>
    match m.key with
    | .ident n => some n
    | .privateId n => some n
    | .computedKey _ => none

/-- Modelled from the spec: the claimed `MemberIdentity` tuple
`(is-static, member-kind, visibility, name)`. -/
def specMemberIdentity (m : ClassMember) :
    Bool × SpecMemberKind × Bool × Option String :=
  (m.isStatic, specMemberKind m, m.isPrivate, memberKeyName m)

/-- The bucket `categorizeOne` files a member under (`none` for a
constructor). -/
def memberCategoryOf : ClassMember → Option Category
  | .methodDef .ctorKind _ _ _ _ => none
  | m@(.methodDef .getKind _ _ _ _) =>
    let _ := m; some .gettersSetters
  | .methodDef .setKind _ _ _ _ => some .gettersSetters
  | m@(.methodDef .methodKind _ _ _ _) =>
    some (getMemberCategory m.isStatic m.isPrivate "method")
  | m@(.propertyDef _ _ _) =>
    some (getMemberCategory m.isStatic m.isPrivate "field")

/-- The implementation's override criterion: two members occupy the same
slot when `categorizeOne` files them in the same bucket and `getMemberId`
gives them the same identity string (`mergeOneItem` replaces an existing
entry exactly when the `memberId`s agree within a bucket). -/
def sameSlot (m1 m2 : ClassMember) : Prop :=
  memberCategoryOf m1 = memberCategoryOf m2 ∧ getMemberId m1 = getMemberId m2

instance (m1 m2 : ClassMember) : Decidable (sameSlot m1 m2) := by
  unfold sameSlot; infer_instance

/-! # Theorems -/

/-! ## Claim C10: only direct top-level `super(...)` statements are rewritten -/

/-- Characterization of `isSuperCall`. -/
theorem isSuperCall_iff (s : Stmt) :
    isSuperCall s = true ↔ ∃ args, s = .exprStmt (.call .superE args) := by
  constructor
  · intro h
    match s, h with
    | .exprStmt (.call .superE args), _ => exact ⟨args, rfl⟩
  · rintro ⟨args, rfl⟩
    rfl

/-- C10: within a constructor body only the direct top-level `super(...)`
expression statements are rewritten to `this.<parent>(...)` (and
`removeSuperConstructorCalls` removes exactly those); any `super(...)`
nested inside another statement (an `if` branch, a block, ...) is left
unchanged in the output, and the output has no top-level `super(...)`
statement left. -/
theorem C10_only_top_level_super_rewritten
    (body : List Stmt) (parentConstructorName : String) :
    (transformSuperConstructorCalls body parentConstructorName =
      body.map (fun s =>
        if isSuperCall s then superCtorRewrite parentConstructorName s else s))
    ∧ (∀ s ∈ body, isSuperCall s = false →
        s ∈ transformSuperConstructorCalls body parentConstructorName)
    ∧ (∀ s ∈ transformSuperConstructorCalls body parentConstructorName,
        isSuperCall s = false)
    ∧ (countSuperCtorCallsStmtList
          (transformSuperConstructorCalls body parentConstructorName)
        + countTopSuperCalls body
        = countSuperCtorCallsStmtList body)
    ∧ (removeSuperConstructorCalls body =
        body.filter (fun s => !isSuperCall s)) := by
  refine ⟨rfl, ?_, ?_, ?_, rfl⟩
  · intro s hs h
    unfold transformSuperConstructorCalls
    exact List.mem_map.mpr ⟨s, hs, by simp [h]⟩
  · intro s' hs'
    unfold transformSuperConstructorCalls at hs'
    obtain ⟨s, _, rfl⟩ := List.mem_map.mp hs'
    by_cases h : isSuperCall s = true
    · obtain ⟨args, rfl⟩ := (isSuperCall_iff s).mp h
      simp [h, superCtorRewrite, isSuperCall, superCallArgs]
    · simp only [Bool.not_eq_true] at h
      simp [h]
  · induction body with
    | nil => simp [transformSuperConstructorCalls, countTopSuperCalls,
        countSuperCtorCallsStmtList]
    | cons s rest ih =>
      by_cases h : isSuperCall s = true
      · obtain ⟨args, rfl⟩ := (isSuperCall_iff s).mp h
        simp [transformSuperConstructorCalls, countTopSuperCalls,
          countSuperCtorCallsStmtList, countSuperCtorCallsStmt,
          countSuperCtorCallsExpr, superCtorHit, superCtorRewrite,
          superCallArgs, List.filter_cons, h] at ih ⊢
        omega
      · simp only [Bool.not_eq_true] at h
        simp [transformSuperConstructorCalls, countTopSuperCalls,
          countSuperCtorCallsStmtList, List.filter_cons, h] at ih ⊢
        omega

/-- Concrete witness body for C10: a top-level `super(1)`, a `super(...)`
nested below an `if`, and a plain log statement. -/
def c10Body : List Stmt :=
  [.exprStmt (.call .superE [.lit "1"]),
   .ifStmt (.ident "cond")
     (.block [.exprStmt (.call .superE [.lit "2"])]) none,
   .exprStmt (.call (.member (.ident "console") (.ident "log") false) [.lit "x"])]

/-- Witness for C10 at a concrete body: the top-level `super("1")` is
rewritten with its argument kept, while the `super("2")` nested inside the
`if` survives verbatim. -/
theorem C10_only_top_level_super_rewritten_witness :
    (transformSuperConstructorCalls c10Body "_super_P_constructor" =
      [.exprStmt (.call (.member .thisE (.ident "_super_P_constructor") false)
        [.lit "1"]),
       .ifStmt (.ident "cond")
         (.block [.exprStmt (.call .superE [.lit "2"])]) none,
       .exprStmt (.call (.member (.ident "console") (.ident "log") false)
         [.lit "x"])])
    ∧ (Stmt.ifStmt (.ident "cond")
         (.block [.exprStmt (.call .superE [.lit "2"])]) none)
        ∈ transformSuperConstructorCalls c10Body "_super_P_constructor" := by
  have h := C10_only_top_level_super_rewritten c10Body "_super_P_constructor"
  refine ⟨by rw [h.1]; rfl, ?_⟩
  exact h.2.1 _ (by decide) (by decide)

/-! ## Claim C8: linearization terminates on cycles via the visited set -/

/-- The fuel-indexed linearizer agrees with the total one as soon as the
fuel exceeds the number of unvisited registry classes: the visited set
bounds the recursion depth by the registry size, independently of any
cycles in the parent links. -/
theorem collectInheritedMembersFuel_eq (fuel : Nat) :
    ∀ (classMap : ClassMap) (className : String) (visited : List String),
      unvisitedCount classMap visited < fuel →
      collectInheritedMembersFuel fuel classMap className visited =
        some (collectInheritedMembers classMap className visited) := by
  induction fuel with
  | zero => intro _ _ _ h; omega
  | succ fuel ih =>
    intro classMap className visited h
    rw [collectInheritedMembers_eq]
    unfold collectInheritedMembersFuel
    by_cases hv : className ∈ visited
    · simp [hv]
    · simp only [hv, if_false]
      cases hc : alistGet classMap className with
      | none => simp
      | some classInfo =>
        cases hs : classInfo.superClass with
        | none => simp [hs]
        | some sup =>
          have hlt := unvisitedCount_cons_lt classMap className visited
            (alistGet_mem_keys _ _ _ hc) hv
          simp only [hs]
          rw [ih classMap sup (className :: visited) (by omega)]

/-- Kernel-evaluable form of `collectInheritedMembers`. -/
theorem collectInheritedMembers_eval (classMap : ClassMap) (className : String)
    (visited : List String) :
    collectInheritedMembers classMap className visited =
      (collectInheritedMembersFuel (unvisitedCount classMap visited + 1)
          classMap className visited).getD createEmptyMemberCollection := by
  rw [collectInheritedMembersFuel_eq (unvisitedCount classMap visited + 1)
    classMap className visited (by omega)]
  rfl

/-- A concrete cyclic registry: `A extends B`, `B extends A`. -/
def c8ClassMap : ClassMap :=
  [("A", { name := "A", superClass := some "B", exported := false,
           exportType := none,
           members := categorizeMembers
             [.methodDef .methodKind (.ident "a") false [] []] }),
   ("B", { name := "B", superClass := some "A", exported := false,
           exportType := none,
           members := categorizeMembers
             [.methodDef .methodKind (.ident "b") false [] []] })]

/-- C8: linearization terminates on every input, cycles included, guarded
by the explicit visited set: a revisited class contributes the empty
member collection, the recursion depth is bounded by the number of
registry classes (so a stack bounded by the registry size plus one never
runs out, even on cyclic parent links), and the concrete cyclic registry
`A ↔ B` linearizes to a defined partial result instead of diverging. -/
theorem C8_cycle_guard_terminates :
    (∀ (classMap : ClassMap) (className : String) (visited : List String),
        className ∈ visited →
        collectInheritedMembers classMap className visited =
          createEmptyMemberCollection)
    ∧ (∀ (classMap : ClassMap) (className : String) (visited : List String)
          (fuel : Nat),
        unvisitedCount classMap visited < fuel →
        collectInheritedMembersFuel fuel classMap className visited =
          some (collectInheritedMembers classMap className visited))
    ∧ ((collectInheritedMembers c8ClassMap "A" []).instancePublicMethods.map
          MemberEntry.memberId = ["method:b", "method:a"]) := by
  refine ⟨?_, ?_, ?_⟩
  · intro classMap className visited h
    rw [collectInheritedMembers_eq]
    simp [h]
  · intro classMap className visited fuel h
    exact collectInheritedMembersFuel_eq fuel classMap className visited h
  · rw [collectInheritedMembers_eval]
    decide

/-- Witness for C8 at the concrete cyclic registry: the revisit guard
fires for `A` when `A` is already on the visited path, and fuel `3`
(registry size plus one) already suffices to linearize `A` despite the
`A ↔ B` cycle. -/
theorem C8_cycle_guard_terminates_witness :
    ("A" ∈ ["A"] ∧
      collectInheritedMembers c8ClassMap "A" ["A"] = createEmptyMemberCollection)
    ∧ (unvisitedCount c8ClassMap [] < 3 ∧
      collectInheritedMembersFuel 3 c8ClassMap "A" [] =
        some (collectInheritedMembers c8ClassMap "A" [])) := by
  have h := C8_cycle_guard_terminates
  exact ⟨⟨by decide, h.1 c8ClassMap "A" ["A"] (by decide)⟩,
    ⟨by decide, h.2.1 c8ClassMap "A" [] 3 (by decide)⟩⟩

/-! ## Association-list helper lemmas -/

theorem alistGet_set_self {α β : Type} [DecidableEq α] (m : List (α × β))
    (k : α) (v : β) : alistGet (alistSet m k v) k = some v := by
  induction m with
  | nil => simp [alistSet, alistGet]
  | cons p t ih =>
    by_cases hk : p.1 = k
    · simp [alistSet, alistGet, hk]
    · simp [alistSet, alistGet, hk, ih]

theorem alistGet_set_ne {α β : Type} [DecidableEq α] (m : List (α × β))
    (k k' : α) (v : β) (h : k ≠ k') :
    alistGet (alistSet m k v) k' = alistGet m k' := by
  induction m with
  | nil => simp [alistSet, alistGet, h]
  | cons p t ih =>
    by_cases hk : p.1 = k
    · simp [alistSet, alistGet, hk, h]
    · by_cases hk' : p.1 = k'
      · simp [alistSet, alistGet, hk, hk', Ne.symm h]
      · simp [alistSet, alistGet, hk, hk', ih]

/-! ## Claim C5: unresolvable super calls -/

/-- The diagnostics one `validateInheritance` loop iteration appends for
one registry entry. -/
def entryDiags (classMap : ClassMap) (kv : String × ClassInfo) : List Diag :=
  match kv.2.superClass with
  | none => []
  | some sup =>
    (if alistGet classMap sup = none then [.missingParent kv.1 sup] else []) ++
    (if hasCircularInheritance classMap kv.1 [] then [.circularInheritance kv.1]
     else [])

theorem foldl_append_eq_flatten {α β : Type} (g : β → List α) :
    ∀ (l : List β) (acc : List α),
      l.foldl (fun a b => a ++ g b) acc = acc ++ (l.map g).flatten := by
  intro l
  induction l with
  | nil => simp
  | cons b t ih => intro acc; simp [ih]

/-- `validateInheritance` is the concatenation of the per-entry
diagnostics, in registry order. -/
theorem validateInheritance_eq (classMap : ClassMap) :
    validateInheritance classMap = (classMap.map (entryDiags classMap)).flatten := by
  have hstep :
      (fun (errors : List Diag) (kv : String × ClassInfo) =>
        match kv.2.superClass with
        | none => errors
        | some sup =>
          let errors' :=
            if alistGet classMap sup = none then errors ++ [.missingParent kv.1 sup]
            else errors
          if hasCircularInheritance classMap kv.1 [] then
            errors' ++ [.circularInheritance kv.1]
          else errors') =
      (fun errors kv => errors ++ entryDiags classMap kv) := by
    funext errors kv
    rcases hsc : kv.2.superClass with _ | sup
    · simp [entryDiags, hsc]
    · by_cases h1 : alistGet classMap sup = none <;>
        by_cases h2 : hasCircularInheritance classMap kv.1 [] = true <;>
        simp [entryDiags, hsc, h1, h2]
  unfold validateInheritance
  rw [hstep, foldl_append_eq_flatten]
  simp

/-- Every diagnostic `validateInheritance` produces is a missing-parent or
circular-inheritance one. -/
theorem validateInheritance_shapes (classMap : ClassMap) (d : Diag)
    (h : d ∈ validateInheritance classMap) :
    (∃ a b, d = .missingParent a b) ∨ (∃ a, d = .circularInheritance a) := by
  rw [validateInheritance_eq] at h
  rw [List.mem_flatten] at h
  obtain ⟨l, hl, hd⟩ := h
  rw [List.mem_map] at hl
  obtain ⟨kv, _, rfl⟩ := hl
  unfold entryDiags at hd
  rcases hkv : kv.2.superClass with _ | sup <;> rw [hkv] at hd
  · simp at hd
  · rw [List.mem_append] at hd
    rcases hd with hd | hd <;> split at hd <;> simp at hd
    · exact Or.inl ⟨kv.1, sup, hd⟩
    · exact Or.inr ⟨kv.1, hd⟩

/-- If no parent implementation is found for a name, `analyzeSuperCalls`
puts no entry for that name into the super-method map. -/
theorem analyzeSuperCalls_map_none (allMembers : MemberCollection)
    (currentClassName : String) (name : String)
    (h : findParentMethodImplementation (some currentClassName) name allMembers
      = none) :
    alistGet (analyzeSuperCalls allMembers currentClassName).1 name = none := by
  unfold analyzeSuperCalls
  generalize (neededParentMethods allMembers) = needed
  have hgen :
      ∀ (l : List String) (acc : List (String × String) × List ClassMember),
        alistGet acc.1 name = none →
        alistGet (l.foldl (analyzeSuperStep allMembers currentClassName) acc).1
          name = none := by
    intro l
    induction l with
    | nil => intro acc hacc; exact hacc
    | cons methodName t ih =>
      intro acc hacc
      simp only [List.foldl]
      apply ih
      cases himpl : findParentMethodImplementation (some currentClassName)
          methodName allMembers with
      | none => simpa [analyzeSuperStep, himpl] using hacc
      | some parentImpl =>
        by_cases hn : methodName = name
        · subst hn
          rw [himpl] at h
          exact absurd h (by simp)
        · simp only [analyzeSuperStep, himpl]
          simpa [alistGet_set_ne _ _ _ _ hn] using hacc
  exact hgen needed ([], []) rfl

/-- Occurrences of `super.<name>(...)` in one top-level output node. -/
def countSuperNameTop (name : String) : TopLevel → Nat
  | .classDecl c => countSuperNameClass name c
  | .exportDefaultClass c => countSuperNameClass name c
  | .exportNamedClass c => countSuperNameClass name c
  | .otherNode _ => 0

/-- Concrete unit for C5: `class P {}` and an exported
`class C extends P { bar() { super.baz() } }` — the super call's target
`baz` has no ancestor implementation. -/
def c5Prog : List TopLevel :=
  [.classDecl ⟨some "P", none, []⟩,
   .exportNamedClass ⟨some "C", some (.ident "P"),
     [.methodDef .methodKind (.ident "bar") false []
       [.exprStmt (.call (.member .superE (.ident "baz") false) [])]]⟩]

/-- Counterexample to C5 as stated: compiling `c5Prog` leaves the
unresolvable `super.baz()` call unrewritten in the output (it occurs
exactly once), but the returned diagnostics list is empty — no
`unresolved-super-call` diagnostic is appended. -/
theorem C5_counterexample :
    (compileModel {} c5Prog).errors = [] ∧
    ((compileModel {} c5Prog).prog.map (countSuperNameTop "baz")).sum = 1 := by
  constructor <;>
    · simp only [compileModel, transformAST, transformNode, flattenClass,
        buildClassRegistry, validateInheritance, collectInheritedMembers_eval,
        hasCircularInheritance_eval, List.foldl, List.filterMap]
      decide

/-- C5 (amended): when a super call's target cannot be statically resolved
(computed member name, or no ancestor implementation found), compilation
still succeeds with the call site left unrewritten, and *no* diagnostic is
appended: the diagnostics list never contains an unresolved-super-call
entry (only missing-parent / circular-inheritance ones are ever produced
by validation).  Concretely: (1) no compilation ever reports
`unresolvedSuperCall`; (2) a computed super call is never rewritten (its
`super[...](...)`/callee shape is preserved); (3) a super call whose name
is not in the rewrite map is preserved; (4) a name with no found parent
implementation is never put into the rewrite map. -/
theorem C5_unresolved_super_silent
    (options : Options) (prog : List TopLevel) (d : Diag)
    (hd : d ∈ (compileModel options prog).errors) :
    (∀ cls mem, d ≠ .unresolvedSuperCall cls mem)
    ∧ (∀ (superMethodMap : List (String × String)) (prop : Expr)
          (args : List Expr),
        transformSuperCallsExpr superMethodMap (.call (.member .superE prop true) args)
          = .call (.member .superE (transformSuperCallsExpr superMethodMap prop) true)
              (transformSuperCallsExprList superMethodMap args))
    ∧ (∀ (superMethodMap : List (String × String)) (name : String)
          (args : List Expr),
        alistGet superMethodMap name = none →
        transformSuperCallsExpr superMethodMap
            (.call (.member .superE (.ident name) false) args)
          = .call (.member .superE (.ident name) false)
              (transformSuperCallsExprList superMethodMap args))
    ∧ (∀ (allMembers : MemberCollection) (currentClassName name : String),
        findParentMethodImplementation (some currentClassName) name allMembers
          = none →
        alistGet (analyzeSuperCalls allMembers currentClassName).1 name = none) := by
  refine ⟨?_, ?_, ?_, ?_⟩
  · intro cls mem
    simp only [compileModel] at hd
    split at hd
    · rcases validateInheritance_shapes _ _ hd with ⟨a, b, rfl⟩ | ⟨a, rfl⟩ <;> simp
    · simp at hd
  · intro superMethodMap prop args
    simp [transformSuperCallsExpr, superCalleeRewrite]
  · intro superMethodMap name args hnone
    by_cases hname : name = ""
    · subst hname
      simp [transformSuperCallsExpr, superCalleeRewrite, exprName]
    · simp [transformSuperCallsExpr, superCalleeRewrite, exprName, hname, hnone]
  · intro allMembers currentClassName name h
    exact analyzeSuperCalls_map_none allMembers currentClassName name h

/-- Witness for C5 (amended) at a concrete compilation: the Child/Ghost
unit produces a missing-parent diagnostic, which is indeed not an
unresolved-super-call one, and a concrete computed super call is left
unrewritten by a concrete rewrite map. -/
theorem C5_unresolved_super_silent_witness :
    (Diag.missingParent "Child" "Ghost" ∈
      (compileModel {} [.exportNamedClass ⟨some "Child", some (.ident "Ghost"), []⟩]).errors)
    ∧ (∀ cls mem,
        Diag.missingParent "Child" "Ghost" ≠ Diag.unresolvedSuperCall cls mem)
    ∧ (transformSuperCallsExpr [("baz", "x")]
        (.call (.member .superE (.ident "other") false) [])
        = .call (.member .superE (.ident "other") false) []) := by
  have hmem : Diag.missingParent "Child" "Ghost" ∈
      (compileModel {} [.exportNamedClass ⟨some "Child", some (.ident "Ghost"), []⟩]).errors := by
    simp only [compileModel, buildClassRegistry, validateInheritance,
      hasCircularInheritance_eval, List.foldl]
    decide
  have h := C5_unresolved_super_silent {}
    [.exportNamedClass ⟨some "Child", some (.ident "Ghost"), []⟩]
    (Diag.missingParent "Child" "Ghost") hmem
  exact ⟨hmem, h.1, h.2.2.1 [("baz", "x")] "other" [] (by decide)⟩

/-! ## Claim C6: which classes appear in the output -/

/-- Is a top-level output node wrapped in an export declaration? -/
def isExportWrapped : TopLevel → Bool
  | .exportDefaultClass _ => true
  | .exportNamedClass _ => true
  | _ => false

/-- The `children && children.length > 0` test of `shouldSkipClass`. -/
def graphHasChildren (graph : InheritanceGraph) (name : String) : Bool :=
  match alistGet graph name with
  | some children => children.length > 0
  | none => false

/-- `shouldSkipClass` in characterized form. -/
theorem shouldSkipClass_eq_false_iff (options : Options)
    (graph : InheritanceGraph) (classInfo : ClassInfo) :
    shouldSkipClass options graph classInfo = false ↔
      ((options.exportOnly = false ∨ classInfo.exported = true) ∧
        ¬(options.excludeIntermediate = true ∧
          graphHasChildren graph classInfo.name = true)) := by
  unfold shouldSkipClass graphHasChildren
  rcases hg : alistGet graph classInfo.name with _ | children <;>
    cases heo : options.exportOnly <;>
    cases hex : classInfo.exported <;>
    cases hei : options.excludeIntermediate <;>
    simp

/-- The per-node output of `transformAST`: a class node yields an output
node exactly when `shouldSkipClass` rejects it, and that output node is a
member of the transformed unit. -/
theorem transformNode_appears (options : Options) (classMap : ClassMap)
    (graph : InheritanceGraph) (prog : List TopLevel) (node : TopLevel)
    (classInfo : ClassInfo) (hn : node ∈ prog)
    (hx : extractClassInfo node = some classInfo) :
    ((∃ out, transformNode options classMap graph node = some out ∧
        out ∈ transformAST options classMap graph prog) ↔
      shouldSkipClass options graph classInfo = false) := by
  constructor
  · rintro ⟨out, hout, _⟩
    simp only [transformNode, hx] at hout
    by_cases hskip : shouldSkipClass options graph classInfo = true
    · rw [if_pos hskip] at hout
      exact absurd hout (by simp)
    · simpa using hskip
  · intro hskip
    have hsome : ∃ out, transformNode options classMap graph node = some out := by
      simp only [transformNode, hx, hskip, Bool.false_eq_true, if_false]
      by_cases hse : (classInfo.exported ||
          options.excludeIntermediate && !(alistGet graph classInfo.name).isSome) = true
      · rw [if_pos hse]
        rcases classInfo.exportType.getD .namedE <;> exact ⟨_, rfl⟩
      · rw [if_neg hse]
        exact ⟨_, rfl⟩
    obtain ⟨out, hout⟩ := hsome
    exact ⟨out, hout, List.mem_filterMap.mpr ⟨node, hn, hout⟩⟩

/-- Concrete unit for C6: `class Animal { a() {} }` and
`class Cat extends Animal { c() {} }`, neither exported. -/
def c6Prog : List TopLevel :=
  [.classDecl ⟨some "Animal", none,
     [.methodDef .methodKind (.ident "a") false [] []]⟩,
   .classDecl ⟨some "Cat", some (.ident "Animal"),
     [.methodDef .methodKind (.ident "c") false [] []]⟩]

/-- Counterexample to C6 as stated: under the default options `Cat` is not
exported, `excludeIntermediate` is enabled and `Cat` has no children, so
the claimed appearance condition holds for `Cat` — yet the compiled output
is empty (`Cat` is skipped by the `exportOnly` default, which the claimed
condition ignores; `Animal` is also elided). -/
theorem C6_counterexample :
    ((extractClassInfo c6Prog[1]).map ClassInfo.exported = some false)
    ∧ (Options.excludeIntermediate {} = true)
    ∧ (graphHasChildren (buildClassRegistry c6Prog).2 "Cat" = false)
    ∧ (compileModel {} c6Prog).prog = [] := by
  refine ⟨by decide, by decide, by decide, ?_⟩
  simp only [compileModel, transformAST, transformNode, flattenClass,
    buildClassRegistry, validateInheritance, collectInheritedMembers_eval,
    hasCircularInheritance_eval, List.foldl, List.filterMap]
  decide

/-- C6 (amended): a class from the input unit appears in the output
exactly when (`exportOnly` is disabled OR it was originally exported) AND
NOT (`excludeIntermediate` is enabled and it has children in the
inheritance graph); when it appears it is wrapped in an export exactly
when (it was originally exported) OR (`excludeIntermediate` is enabled and
it has no graph entry).  In the `Animal → Cat` scenario, `Cat` therefore
appears only once the `exportOnly` gate passes (e.g. `Cat` exported or
`exportOnly := false`), and `Animal` is always elided. -/
theorem C6_output_condition (options : Options) (prog : List TopLevel)
    (node : TopLevel) (classInfo : ClassInfo) (classMap : ClassMap)
    (graph : InheritanceGraph)
    (hreg : buildClassRegistry prog = (classMap, graph))
    (hn : node ∈ prog)
    (hx : extractClassInfo node = some classInfo) :
    ((∃ out, transformNode options classMap graph node = some out ∧
        out ∈ transformAST options classMap graph prog) ↔
      ((options.exportOnly = false ∨ classInfo.exported = true) ∧
        ¬(options.excludeIntermediate = true ∧
          graphHasChildren graph classInfo.name = true)))
    ∧ (∀ out, transformNode options classMap graph node = some out →
        isExportWrapped out =
          (classInfo.exported ||
            (options.excludeIntermediate && !(alistGet graph classInfo.name).isSome))) := by
  constructor
  · rw [transformNode_appears options classMap graph prog node classInfo hn hx]
    exact shouldSkipClass_eq_false_iff options graph classInfo
  · intro out hout
    simp only [transformNode, hx] at hout
    by_cases hskip : shouldSkipClass options graph classInfo = true
    · rw [if_pos hskip] at hout
      exact absurd hout (by simp)
    · simp only [Bool.not_eq_true] at hskip
      rw [hskip] at hout
      simp only [Bool.false_eq_true, if_false] at hout
      by_cases hexp : (classInfo.exported ||
          (options.excludeIntermediate && !(alistGet graph classInfo.name).isSome)) = true
      · rw [if_pos hexp] at hout
        rw [hexp]
        rcases het : classInfo.exportType.getD .namedE <;> rw [het] at hout <;>
          simp at hout <;> simp [← hout, isExportWrapped]
      · rw [if_neg (by simpa using hexp)] at hout
        simp only [Bool.not_eq_true] at hexp
        simp at hout
        rw [hexp, ← hout]
        rfl

/-- Witness for C6 (amended) at the `Animal → Cat` unit: with default
options `Cat` does not appear (the `exportOnly` conjunct fails), and with
`exportOnly := false` it does. -/
theorem C6_output_condition_witness :
    (¬ ∃ out, transformNode {} (buildClassRegistry c6Prog).1
        (buildClassRegistry c6Prog).2 c6Prog[1] = some out ∧
        out ∈ transformAST {} (buildClassRegistry c6Prog).1
          (buildClassRegistry c6Prog).2 c6Prog)
    ∧ (∃ out, transformNode { exportOnly := false } (buildClassRegistry c6Prog).1
        (buildClassRegistry c6Prog).2 c6Prog[1] = some out ∧
        out ∈ transformAST { exportOnly := false } (buildClassRegistry c6Prog).1
          (buildClassRegistry c6Prog).2 c6Prog) := by
  have hx : extractClassInfo c6Prog[1] =
      some { name := "Cat", superClass := some "Animal", exported := false,
             exportType := none,
             members := categorizeMembers
               [.methodDef .methodKind (.ident "c") false [] []] } := by decide
  have h1 := C6_output_condition {} c6Prog c6Prog[1] _
    (buildClassRegistry c6Prog).1 (buildClassRegistry c6Prog).2 rfl
    (by decide) hx
  have h2 := C6_output_condition { exportOnly := false } c6Prog c6Prog[1] _
    (buildClassRegistry c6Prog).1 (buildClassRegistry c6Prog).2 rfl
    (by decide) hx
  constructor
  · rw [h1.1]
    decide
  · rw [h2.1]
    decide

/-! ## Claim C9: missing parent -/

/-- Merging the empty collection into a target is a no-op. -/
theorem mergeMembers_empty_coll (t : MemberCollection) :
    mergeMembers t (.coll createEmptyMemberCollection) none = t := rfl

/-- A per-entry diagnostic list for a class not named `child` contains no
`missingParent child ghost` entry. -/
theorem entryDiags_count_ne (classMap : ClassMap) (child ghost : String)
    (k : String) (i : ClassInfo) (hk : k ≠ child) :
    (entryDiags classMap (k, i)).count (Diag.missingParent child ghost) = 0 := by
  unfold entryDiags
  rcases i.superClass with _ | sup
  · rfl
  · simp only []
    split <;> split <;>
      simp [List.count_cons, List.count_nil, hk]

/-- The entry for `child` itself contributes the `missingParent child
ghost` diagnostic exactly once. -/
theorem entryDiags_count_child (classMap : ClassMap) (child ghost : String)
    (info : ClassInfo)
    (hsc : info.superClass = some ghost)
    (hg : alistGet classMap ghost = none)
    (hcirc : hasCircularInheritance classMap child [] = false) :
    (entryDiags classMap (child, info)).count (Diag.missingParent child ghost) = 1 := by
  unfold entryDiags
  simp [hsc, hg, hcirc]

theorem count_flatten_entryDiags_zero (classMap : ClassMap)
    (child ghost : String) :
    ∀ (l : List (String × ClassInfo)), child ∉ l.map Prod.fst →
      ((l.map (entryDiags classMap)).flatten).count (Diag.missingParent child ghost)
        = 0 := by
  intro l
  induction l with
  | nil => intro _; rfl
  | cons p t ih =>
    intro h
    simp only [List.map_cons, List.flatten_cons, List.count_append]
    simp only [List.map_cons, List.mem_cons, not_or] at h
    have hk : p.1 ≠ child := Ne.symm h.1
    rw [ih h.2, entryDiags_count_ne classMap child ghost p.1 p.2 hk]

theorem count_flatten_entryDiags_one (classMap : ClassMap)
    (child ghost : String) (info : ClassInfo)
    (hsc : info.superClass = some ghost)
    (hg : alistGet classMap ghost = none)
    (hcirc : hasCircularInheritance classMap child [] = false) :
    ∀ (l : List (String × ClassInfo)), (l.map Prod.fst).Nodup →
      alistGet l child = some info →
      ((l.map (entryDiags classMap)).flatten).count (Diag.missingParent child ghost)
        = 1 := by
  intro l
  induction l with
  | nil => intro _ hc; simp [alistGet] at hc
  | cons p t ih =>
    intro hnd hc
    simp only [List.map_cons, List.flatten_cons, List.count_append]
    rw [List.map_cons, List.nodup_cons] at hnd
    by_cases hk : p.1 = child
    · rw [alistGet, if_pos hk] at hc
      obtain rfl : p.2 = info := by injection hc
      have hz := count_flatten_entryDiags_zero classMap child ghost t (hk ▸ hnd.1)
      rw [hz]
      rw [show p = (child, p.2) from Prod.ext hk rfl]
      rw [entryDiags_count_child classMap child ghost p.2 hsc hg hcirc]
    · rw [alistGet, if_neg hk] at hc
      rw [entryDiags_count_ne classMap child ghost p.1 p.2 hk, ih hnd.2 hc]

/-- C9: for `class Child extends Ghost` with `Ghost` undefined in the
unit, (1) the validation diagnostics contain exactly one missing-parent
entry naming `Child` and `Ghost`; (2) `Child` is linearized exactly as if
it were rootless (the missing parent contributes no members); and (3)
compilation still emits output for `Child` (whenever the skip rule would
not elide it anyway). -/
theorem C9_missing_parent (options : Options) (prog : List TopLevel)
    (node : TopLevel) (info : ClassInfo) (classMap : ClassMap)
    (graph : InheritanceGraph) (child ghost : String)
    (hreg : buildClassRegistry prog = (classMap, graph))
    (hnd : (classMap.map Prod.fst).Nodup)
    (hc : alistGet classMap child = some info)
    (hsc : info.superClass = some ghost)
    (hg : alistGet classMap ghost = none)
    (hn : node ∈ prog)
    (hx : extractClassInfo node = some info)
    (hskip : shouldSkipClass options graph info = false) :
    ((validateInheritance classMap).count (Diag.missingParent child ghost) = 1)
    ∧ (collectInheritedMembers classMap child [] =
        collectInheritedMembers
          (alistSet classMap child { info with superClass := none }) child [])
    ∧ (∃ out, transformNode options classMap graph node = some out ∧
        out ∈ transformAST options classMap graph prog) := by
  have hgc : ghost ≠ child := by
    intro h
    rw [h, hc] at hg
    exact Option.noConfusion hg
  have hcirc : hasCircularInheritance classMap child [] = false := by
    rw [hasCircularInheritance_eq]
    simp only [List.not_mem_nil, if_false, hc, hsc]
    rw [hasCircularInheritance_eq]
    simp [List.mem_singleton, hgc, hg]
  refine ⟨?_, ?_, ?_⟩
  · rw [validateInheritance_eq]
    exact count_flatten_entryDiags_one classMap child ghost info hsc hg hcirc
      classMap hnd hc
  · rw [collectInheritedMembers_eq]
    conv_rhs => rw [collectInheritedMembers_eq]
    simp only [List.not_mem_nil, if_false, hc, hsc,
      alistGet_set_self classMap child { info with superClass := none }]
    rw [collectInheritedMembers_eq]
    simp [List.mem_singleton, hgc, hg, mergeMembers_empty_coll]
  · exact (transformNode_appears options classMap graph prog node info hn hx).mpr
      hskip

/-- Concrete unit for C9: a single exported `class Child extends Ghost`. -/
def c9Prog : List TopLevel :=
  [.exportNamedClass ⟨some "Child", some (.ident "Ghost"),
    [.methodDef .methodKind (.ident "m") false [] []]⟩]

/-- Witness for C9 at the concrete Child/Ghost unit: all hypotheses hold
and all three conclusions follow. -/
theorem C9_missing_parent_witness :
    ((validateInheritance (buildClassRegistry c9Prog).1).count
        (Diag.missingParent "Child" "Ghost") = 1)
    ∧ (∃ out, transformNode {} (buildClassRegistry c9Prog).1
        (buildClassRegistry c9Prog).2 c9Prog[0] = some out ∧
        out ∈ transformAST {} (buildClassRegistry c9Prog).1
          (buildClassRegistry c9Prog).2 c9Prog) := by
  have h := C9_missing_parent {} c9Prog c9Prog[0]
    { name := "Child", superClass := some "Ghost", exported := true,
      exportType := some .namedE,
      members := categorizeMembers [.methodDef .methodKind (.ident "m") false [] []] }
    (buildClassRegistry c9Prog).1 (buildClassRegistry c9Prog).2 "Child" "Ghost"
    rfl (by decide) (by decide) rfl (by decide) (by decide) (by decide) (by decide)
  exact ⟨h.1, h.2.2⟩

/-! ## Claim C7: the member identity tuple -/

/-- The implementation's member kinds: unlike the spec's
`SpecMemberKind`, getters and setters are distinct kinds. -/
inductive ImplMemberKind where
  | fieldK
  | methodK
  | getK
  | setK
  | constructorK
  deriving Repr, DecidableEq

/-- The implementation's member-kind of a member. -/
def implMemberKind : ClassMember → ImplMemberKind
  | .methodDef .ctorKind _ _ _ _ => .constructorK
  | .methodDef .getKind _ _ _ _ => .getK
  | .methodDef .setKind _ _ _ _ => .setK
  | .methodDef .methodKind _ _ _ _ => .methodK
  | .propertyDef _ _ _ => .fieldK

/-- The kind component of `getMemberId` (`member.kind || 'field'`). -/
def kindStrOf : ClassMember → String
  | .methodDef k _ _ _ _ => k.str
  | .propertyDef _ _ _ => "field"

/-- The name component of `getMemberId`. -/
def nameStrOf (m : ClassMember) : String :=
  match m.key with
  | .ident n => n
  | .privateId n => "#" ++ n
  | .computedKey _ => "[computed]"

/-- The five kind strings `getMemberId` can produce. -/
def kindStrings : List String :=
  ["constructor", "method", "get", "set", "field"]

theorem getMemberId_decompose (m : ClassMember) :
    getMemberId m =
      (if m.isStatic then "static:" else "") ++ kindStrOf m ++ ":" ++ nameStrOf m := by
  rcases m with ⟨k, key, s, p, b⟩ | ⟨key, s, v⟩ <;> cases key <;> rfl

theorem kindStrOf_mem (m : ClassMember) : kindStrOf m ∈ kindStrings := by
  rcases m with ⟨k, _, _, _, _⟩ | _
  · cases k <;> simp [kindStrOf, kindStrings, MethodKind.str]
  · simp [kindStrOf, kindStrings]

theorem colon_not_mem_kind (k : String) (hk : k ∈ kindStrings) :
    ':' ∉ k.data := by
  fin_cases hk <;> decide

theorem kind_ne_static (k : String) (hk : k ∈ kindStrings) : k ≠ "static" := by
  fin_cases hk <;> decide

/-- Lists of the form `k ++ sep :: n` with `sep` free in `k` decompose
uniquely. -/
theorem append_sep_inj {α : Type} (sep : α) :
    ∀ (k1 k2 n1 n2 : List α), sep ∉ k1 → sep ∉ k2 →
      k1 ++ sep :: n1 = k2 ++ sep :: n2 → k1 = k2 ∧ n1 = n2 := by
  intro k1
  induction k1 with
  | nil =>
    intro k2 n1 n2 _ hk2 h
    cases k2 with
    | nil => simpa using h
    | cons c t =>
      simp only [List.nil_append, List.cons_append, List.cons.injEq] at h
      exact absurd (h.1 ▸ List.mem_cons_self c t) hk2
  | cons c t ih =>
    intro k2 n1 n2 hk1 hk2 h
    cases k2 with
    | nil =>
      simp only [List.cons_append, List.nil_append, List.cons.injEq] at h
      exact absurd (h.1 ▸ List.mem_cons_self c t) (by simpa [h.1] using hk1)
    | cons c2 t2 =>
      simp only [List.cons_append, List.cons.injEq] at h
      obtain ⟨rfl, h2⟩ := h
      have := ih t2 n1 n2 (fun hm => hk1 (List.mem_cons_of_mem _ hm))
        (fun hm => hk2 (List.mem_cons_of_mem _ hm)) h2
      exact ⟨by rw [this.1], this.2⟩

/-- Data decomposition of a non-static member-identity string. -/
theorem memberId_data_plain (k n : String) :
    (("" : String) ++ k ++ ":" ++ n).data = k.data ++ ':' :: n.data := by
  rcases k with ⟨kd⟩
  rcases n with ⟨nd⟩
  show [] ++ kd ++ [':'] ++ nd = kd ++ ':' :: nd
  simp

/-- Data decomposition of a static member-identity string. -/
theorem memberId_data_static (k n : String) :
    (("static:" : String) ++ k ++ ":" ++ n).data =
      ("static" : String).data ++ ':' :: (k.data ++ ':' :: n.data) := by
  rcases k with ⟨kd⟩
  rcases n with ⟨nd⟩
  show ['s', 't', 'a', 't', 'i', 'c', ':'] ++ kd ++ [':'] ++ nd =
    ['s', 't', 'a', 't', 'i', 'c'] ++ ':' :: (kd ++ ':' :: nd)
  simp

/-- Injectivity of the member-identity string over its three components. -/
theorem memberIdOf_inj (st1 st2 : Bool) (k1 k2 n1 n2 : String)
    (hk1 : k1 ∈ kindStrings) (hk2 : k2 ∈ kindStrings)
    (h : (if st1 then "static:" else "") ++ k1 ++ ":" ++ n1 =
         (if st2 then "static:" else "") ++ k2 ++ ":" ++ n2) :
    st1 = st2 ∧ k1 = k2 ∧ n1 = n2 := by
  have hsc : ':' ∉ ("static" : String).data := by decide
  cases st1 <;> cases st2
  · -- both non-static
    have h' : ("" : String) ++ k1 ++ ":" ++ n1 = ("" : String) ++ k2 ++ ":" ++ n2 := h
    have hd := congrArg String.data h'
    rw [memberId_data_plain, memberId_data_plain] at hd
    obtain ⟨hk, hn⟩ := append_sep_inj ':' _ _ _ _
      (colon_not_mem_kind k1 hk1) (colon_not_mem_kind k2 hk2) hd
    exact ⟨rfl, String.ext hk, String.ext hn⟩
  · -- non-static vs static
    have h' : ("" : String) ++ k1 ++ ":" ++ n1 =
      ("static:" : String) ++ k2 ++ ":" ++ n2 := h
    have hd := congrArg String.data h'
    rw [memberId_data_plain, memberId_data_static] at hd
    obtain ⟨hk, _⟩ := append_sep_inj ':' _ _ _ _
      (colon_not_mem_kind k1 hk1) hsc hd
    exact absurd (String.ext hk) (kind_ne_static k1 hk1)
  · -- static vs non-static
    have h' : ("static:" : String) ++ k1 ++ ":" ++ n1 =
      ("" : String) ++ k2 ++ ":" ++ n2 := h
    have hd := congrArg String.data h'
    rw [memberId_data_plain, memberId_data_static] at hd
    obtain ⟨hk, _⟩ := append_sep_inj ':' _ _ _ _ hsc
      (colon_not_mem_kind k2 hk2) hd
    exact absurd (String.ext hk).symm (kind_ne_static k2 hk2)
  · -- both static
    have h' : ("static:" : String) ++ k1 ++ ":" ++ n1 =
      ("static:" : String) ++ k2 ++ ":" ++ n2 := h
    have hd := congrArg String.data h'
    rw [memberId_data_static, memberId_data_static] at hd
    have hd' : k1.data ++ ':' :: n1.data = k2.data ++ ':' :: n2.data := by
      simpa using List.append_cancel_left hd
    obtain ⟨hk, hn⟩ := append_sep_inj ':' _ _ _ _
      (colon_not_mem_kind k1 hk1) (colon_not_mem_kind k2 hk2) hd'
    exact ⟨rfl, String.ext hk, String.ext hn⟩

/-- The kind string of each implementation kind. -/
def implKindStr : ImplMemberKind → String
  | .fieldK => "field"
  | .methodK => "method"
  | .getK => "get"
  | .setK => "set"
  | .constructorK => "constructor"

theorem kindStrOf_eq_implKindStr (m : ClassMember) :
    kindStrOf m = implKindStr (implMemberKind m) := by
  rcases m with ⟨k, _, _, _, _⟩ | _
  · cases k <;> rfl
  · rfl

theorem implKindStr_injective (a b : ImplMemberKind)
    (h : implKindStr a = implKindStr b) : a = b := by
  cases a <;> cases b <;> first | rfl | exact absurd h (by decide)

/-- A JS identifier or private name never begins with `#` (acorn rejects
it); the model records this as a side condition. -/
def validMemberName (n : String) : Prop := n.data.head? ≠ some '#'

theorem hash_append_inj (a b : String) (h : "#" ++ a = "#" ++ b) : a = b := by
  rcases a with ⟨ad⟩
  rcases b with ⟨bd⟩
  have hd := congrArg String.data h
  have hd' : '#' :: ad = '#' :: bd := hd
  exact String.ext (List.cons.injEq .. ▸ hd').2

theorem hash_append_ne (a b : String) (hb : validMemberName b) :
    "#" ++ a ≠ b := by
  intro h
  rcases a with ⟨ad⟩
  rcases b with ⟨bd⟩
  have hd : '#' :: ad = bd := congrArg String.data h
  exact hb (by rw [← hd]; rfl)

theorem nameStrOf_eq (m : ClassMember) (n : String)
    (h : memberKeyName m = some n) :
    nameStrOf m = if m.isPrivate then "#" ++ n else n := by
  rcases m with ⟨_, key, _, _, _⟩ | ⟨key, _, _⟩ <;> rcases key with n' | n' | e <;>
    simp only [memberKeyName, ClassMember.key, Option.some.injEq,
      reduceCtorEq] at h <;>
    subst h <;> rfl

theorem nameStrOf_eq_pub (m : ClassMember) (n : String)
    (h : memberKeyName m = some n) (hp : m.isPrivate = false) :
    nameStrOf m = n := by
  rw [nameStrOf_eq m n h, hp]
  simp

theorem nameStrOf_eq_priv (m : ClassMember) (n : String)
    (h : memberKeyName m = some n) (hp : m.isPrivate = true) :
    nameStrOf m = "#" ++ n := by
  rw [nameStrOf_eq m n h, hp]
  simp

instance (n : String) : Decidable (validMemberName n) := by
  unfold validMemberName
  infer_instance

/-- The bucket as a function of the implementation kind, staticness and
privacy. -/
def categoryFor : ImplMemberKind → Bool → Bool → Option Category
  | .constructorK, _, _ => none
  | .getK, _, _ => some .gettersSetters
  | .setK, _, _ => some .gettersSetters
  | .methodK, isStatic, isPrivate => some (getMemberCategory isStatic isPrivate "method")
  | .fieldK, isStatic, isPrivate => some (getMemberCategory isStatic isPrivate "field")

theorem memberCategoryOf_eq (m : ClassMember) :
    memberCategoryOf m = categoryFor (implMemberKind m) m.isStatic m.isPrivate := by
  rcases m with ⟨k, _, _, _, _⟩ | _
  · cases k <;> rfl
  · rfl

/-- C7 (amended): for members with statically known (non-computed) names,
the implementation's override criterion (`sameSlot`: same
`categorizeMembers` bucket and same `getMemberId` string, which is how
`mergeOneItem` detects an existing slot) coincides with equality of the
tuple (is-static, member-kind, visibility, name) where the member-kind
distinguishes getters from setters — not with the spec's tuple that
collapses both into one `accessor` kind. -/
theorem C7_member_identity (m1 m2 : ClassMember) (n1 n2 : String)
    (h1 : memberKeyName m1 = some n1) (h2 : memberKeyName m2 = some n2)
    (hv1 : validMemberName n1) (hv2 : validMemberName n2) :
    sameSlot m1 m2 ↔
      (m1.isStatic = m2.isStatic ∧ implMemberKind m1 = implMemberKind m2 ∧
        m1.isPrivate = m2.isPrivate ∧ n1 = n2) := by
  constructor
  · rintro ⟨-, hid⟩
    rw [getMemberId_decompose, getMemberId_decompose] at hid
    obtain ⟨hst, hkind, hname⟩ := memberIdOf_inj m1.isStatic m2.isStatic
      (kindStrOf m1) (kindStrOf m2) (nameStrOf m1) (nameStrOf m2)
      (kindStrOf_mem m1) (kindStrOf_mem m2) hid
    have hik : implMemberKind m1 = implMemberKind m2 :=
      implKindStr_injective _ _
        (by rw [← kindStrOf_eq_implKindStr, ← kindStrOf_eq_implKindStr, hkind])
    have hps : m1.isPrivate = m2.isPrivate ∧ n1 = n2 := by
      cases hp1 : m1.isPrivate <;> cases hp2 : m2.isPrivate
      · rw [nameStrOf_eq_pub m1 n1 h1 hp1, nameStrOf_eq_pub m2 n2 h2 hp2] at hname
        exact ⟨rfl, hname⟩
      · rw [nameStrOf_eq_pub m1 n1 h1 hp1, nameStrOf_eq_priv m2 n2 h2 hp2] at hname
        exact absurd hname.symm (hash_append_ne n2 n1 hv1)
      · rw [nameStrOf_eq_priv m1 n1 h1 hp1, nameStrOf_eq_pub m2 n2 h2 hp2] at hname
        exact absurd hname (hash_append_ne n1 n2 hv2)
      · rw [nameStrOf_eq_priv m1 n1 h1 hp1, nameStrOf_eq_priv m2 n2 h2 hp2] at hname
        exact ⟨rfl, hash_append_inj n1 n2 hname⟩
    exact ⟨hst, hik, hps.1, hps.2⟩
  · rintro ⟨hst, hik, hpriv, rfl⟩
    constructor
    · rw [memberCategoryOf_eq, memberCategoryOf_eq, hst, hik, hpriv]
    · rw [getMemberId_decompose, getMemberId_decompose, hst,
        kindStrOf_eq_implKindStr, kindStrOf_eq_implKindStr, hik,
        nameStrOf_eq m1 n1 h1, nameStrOf_eq m2 n1 h2, hpriv]

/-! ## Transform lemmas over the AST -/

/-- The empty super-method map never rewrites a callee: every lookup in
the empty association list fails. -/
theorem superCalleeRewrite_nil (callee : Expr) :
    superCalleeRewrite [] callee = none := by
  rcases callee with _ | _ | n | n | v | ⟨c, a⟩ | ⟨obj, prop, computed⟩ | t <;>
    try rfl
  rcases obj <;> rcases computed <;> try rfl
  rcases hp : exprName prop with _ | n
  · simp [superCalleeRewrite, hp]
  · simp [superCalleeRewrite, hp, alistGet]

mutual

/-- Transforming with an empty super-method map is the identity on
expressions. -/
theorem transformSuperCallsExpr_nil : ∀ (e : Expr),
    transformSuperCallsExpr [] e = e
  | .thisE => rfl
  | .superE => rfl
  | .ident _ => rfl
  | .privateName _ => rfl
  | .lit _ => rfl
  | .otherE _ => rfl
  | .member obj prop computed => by
    rw [transformSuperCallsExpr, transformSuperCallsExpr_nil obj,
      transformSuperCallsExpr_nil prop]
  | .call callee args => by
    rw [transformSuperCallsExpr, superCalleeRewrite_nil callee,
      transformSuperCallsExpr_nil callee, transformSuperCallsExprList_nil args]

/-- Transforming with an empty super-method map is the identity on
expression lists. -/
theorem transformSuperCallsExprList_nil : ∀ (l : List Expr),
    transformSuperCallsExprList [] l = l
  | [] => rfl
  | e :: es => by
    rw [transformSuperCallsExprList, transformSuperCallsExpr_nil e,
      transformSuperCallsExprList_nil es]

end

mutual

/-- Transforming with an empty super-method map is the identity on
statements. -/
theorem transformSuperCallsStmt_nil : ∀ (s : Stmt),
    transformSuperCallsStmt [] s = s
  | .exprStmt e => by
    rw [transformSuperCallsStmt, transformSuperCallsExpr_nil e]
  | .ifStmt t c a => by
    rw [transformSuperCallsStmt, transformSuperCallsExpr_nil t,
      transformSuperCallsStmt_nil c, transformSuperCallsStmtOpt_nil a]
  | .block b => by
    rw [transformSuperCallsStmt, transformSuperCallsStmtList_nil b]
  | .retStmt none => rfl
  | .retStmt (some e) => by
    rw [transformSuperCallsStmt, transformSuperCallsExpr_nil e]

/-- Transforming with an empty super-method map is the identity on
statement lists. -/
theorem transformSuperCallsStmtList_nil : ∀ (l : List Stmt),
    transformSuperCallsStmtList [] l = l
  | [] => rfl
  | s :: ss => by
    rw [transformSuperCallsStmtList, transformSuperCallsStmt_nil s,
      transformSuperCallsStmtList_nil ss]

/-- Transforming with an empty super-method map is the identity on
optional statements. -/
theorem transformSuperCallsStmtOpt_nil : ∀ (a : Option Stmt),
    transformSuperCallsStmtOpt [] a = a
  | none => rfl
  | some s => by
    rw [transformSuperCallsStmtOpt, transformSuperCallsStmt_nil s]

end

/-- Transforming with an empty super-method map is the identity on
members. -/
theorem transformSuperCallsMember_nil (m : ClassMember) :
    transformSuperCallsMember [] m = m := by
  rcases m with ⟨k, key, st, p, b⟩ | ⟨key, st, v⟩
  · rw [transformSuperCallsMember, transformSuperCallsStmtList_nil b]
    rcases key with n | n | e
    · rfl
    · rfl
    · rw [transformSuperCallsKey, transformSuperCallsExpr_nil e]
  · rcases v with _ | e
    · rcases key with n | n | e
      · rfl
      · rfl
      · rw [transformSuperCallsMember, transformSuperCallsKey,
          transformSuperCallsExpr_nil e]
    · rcases key with n | n | e'
      · rw [transformSuperCallsMember, transformSuperCallsExpr_nil e]
        rfl
      · rw [transformSuperCallsMember, transformSuperCallsExpr_nil e]
        rfl
      · rw [transformSuperCallsMember, transformSuperCallsExpr_nil e,
          transformSuperCallsKey, transformSuperCallsExpr_nil e']

/-- `get foo` from the parent, `set foo` from the child. -/
def c7Getter : ClassMember := .methodDef .getKind (.ident "foo") false [] []

/-- The child's setter in the C7 counterexample. -/
def c7Setter : ClassMember := .methodDef .setKind (.ident "foo") false ["v"] []

/-- Concrete unit for C7: `class P { get foo() {} }` and
`class C extends P { set foo(v) {} }`. -/
def c7Prog : List TopLevel :=
  [.classDecl ⟨some "P", none, [c7Getter]⟩,
   .classDecl ⟨some "C", some (.ident "P"), [c7Setter]⟩]

/-- Counterexample to C7 as stated: the parent's getter and the child's
setter agree on the spec's identity tuple (instance, accessor, public,
`foo`), so by the claim they should merge into a single slot; the
implementation keeps them in distinct slots, and the linearized
`gettersSetters` bucket of `C` holds both members. -/
theorem C7_counterexample :
    specMemberIdentity c7Getter = specMemberIdentity c7Setter
    ∧ ¬ sameSlot c7Getter c7Setter
    ∧ (collectInheritedMembers (buildClassRegistry c7Prog).1 "C" []).gettersSetters.length = 2 := by
  refine ⟨by decide, by decide, ?_⟩
  rw [collectInheritedMembers_eval]
  decide

/-- Witness for C7 (amended) at concrete members: two plain methods named
`m`, one static and one instance, are in different slots, and the tuple
characterization agrees. -/
theorem C7_member_identity_witness :
    ¬ sameSlot (ClassMember.methodDef .methodKind (.ident "m") true [] [])
        (ClassMember.methodDef .methodKind (.ident "m") false [] []) := by
  have h := C7_member_identity
    (ClassMember.methodDef .methodKind (.ident "m") true [] [])
    (ClassMember.methodDef .methodKind (.ident "m") false [] [])
    "m" "m" (by decide) (by decide) (by decide) (by decide)
  rw [h]
  decide

/-! ## Claim C4: frame effects of flattening -/

/-- With an empty super-method map, the in-place rewriting pass leaves a
registry entry's raw buckets untouched. -/
theorem rawAfterTransformAll_nil (r : RawMembers) (merged : MemberCollection)
    (cls : String) : rawAfterTransformAll r merged [] cls = r := by
  simp [rawAfterTransformAll, methodCategories, RawMembers.setCat,
    RawMembers.getCat, transformSuperCallsMember_nil]

/-- Concrete unit for C4: `class A { foo() { return "a" } }` and
`class B extends A { foo() { super.foo() } }`. -/
def c4Prog : List TopLevel :=
  [.classDecl ⟨some "A", none,
    [.methodDef .methodKind (.ident "foo") false [] [.retStmt (some (.lit "a"))]]⟩,
   .classDecl ⟨some "B", some (.ident "A"),
    [.methodDef .methodKind (.ident "foo") false []
      [.exprStmt (.call (.member .superE (.ident "foo") false) [])]]⟩]

/-- The registry built for the C4 unit. -/
def c4Map : ClassMap := (buildClassRegistry c4Prog).1

/-- Counterexample to C4 as stated: flattening `B` rewrites, in place, the
member AST nodes shared with the registry — after `flattenClass` for `B`,
the registry's node for `B.foo` has its `super.foo()` body replaced by
`this._super_A_foo()`, so the original class declaration recorded in the
registry IS mutated. -/
theorem C4_counterexample :
    registryAfterFlatten c4Map "B" ≠ c4Map
    ∧ ((alistGet (registryAfterFlatten c4Map "B") "B").map
          (fun i => i.members.instancePublicMethods))
        = some [ClassMember.methodDef .methodKind (.ident "foo") false []
            [.exprStmt (.call (.member .thisE (.ident "_super_A_foo") false) [])]]
    ∧ ((alistGet c4Map "B").map (fun i => i.members.instancePublicMethods))
        = some [ClassMember.methodDef .methodKind (.ident "foo") false []
            [.exprStmt (.call (.member .superE (.ident "foo") false) [])]] := by
  refine ⟨?_, ?_, by decide⟩ <;>
  · simp only [registryAfterFlatten, collectInheritedMembers_eval]
    decide

/-- C4 (amended): each flattened output class is a newly constructed value
with `superClass = null` and the flattened class's own name; the
constructor slot and all four field buckets of every registry entry are
never mutated; and when `analyzeSuperCalls` produces an empty rewrite map
the registry is not mutated at all.  (The method buckets, by
`C4_counterexample`, ARE mutated in general.) -/
theorem C4_frame_effects :
    (∀ (classMap : ClassMap) (classInfo : ClassInfo),
        (flattenClass classMap classInfo).superClass = none
        ∧ (flattenClass classMap classInfo).id = some classInfo.name)
    ∧ (∀ (r : RawMembers) (merged : MemberCollection)
          (smm : List (String × String)) (cls : String),
        (rawAfterTransformAll r merged smm cls).ctor = r.ctor
        ∧ (rawAfterTransformAll r merged smm cls).staticPrivateFields
            = r.staticPrivateFields
        ∧ (rawAfterTransformAll r merged smm cls).staticPublicFields
            = r.staticPublicFields
        ∧ (rawAfterTransformAll r merged smm cls).instancePrivateFields
            = r.instancePrivateFields
        ∧ (rawAfterTransformAll r merged smm cls).instancePublicFields
            = r.instancePublicFields)
    ∧ (∀ (classMap : ClassMap) (className : String),
        (analyzeSuperCalls (collectInheritedMembers classMap className [])
            className).1 = [] →
        registryAfterFlatten classMap className = classMap) := by
  refine ⟨fun classMap classInfo => ⟨rfl, rfl⟩,
    fun r merged smm cls => ⟨rfl, rfl, rfl, rfl, rfl⟩, ?_⟩
  intro classMap className h
  simp only [registryAfterFlatten, h, rawAfterTransformAll_nil]
  have hkv : ∀ kv : String × ClassInfo,
      (kv.1, { kv.2 with members := kv.2.members }) = kv := by
    rintro ⟨n, i⟩; rfl
  simp [hkv]

/-- Single-class unit for the C4 witness: one class with no super calls. -/
def c4PlainProg : List TopLevel :=
  [.classDecl ⟨some "W", none,
    [.methodDef .methodKind (.ident "foo") false [] [.retStmt (some (.lit "1"))]]⟩]

/-- Witness for C4 (amended): on the plain one-class registry the rewrite
map is empty, so flattening leaves the registry exactly as built. -/
theorem C4_frame_effects_witness :
    registryAfterFlatten (buildClassRegistry c4PlainProg).1 "W"
      = (buildClassRegistry c4PlainProg).1 := by
  apply C4_frame_effects.2.2
  rw [collectInheritedMembers_eval]
  decide

/-! ## Claim C3: super-call resolution and rewriting -/

/-- `exprName` succeeds only on identifiers and private names. -/
theorem exprName_some (e : Expr) (s : String) (h : exprName e = some s) :
    e = .ident s ∨ e = .privateName s := by
  cases e <;> simp [exprName] at h <;> simp [h]

/-- Super-call record counting distributes over concatenation. -/
theorem countSuperName_append (fn : String) (a b : List SuperCallInfo) :
    countSuperName fn (a ++ b) = countSuperName fn a + countSuperName fn b := by
  simp [countSuperName, List.filter_append]

/-- Occurrences of the name `rn` in a collected `this`-call name list. -/
def countThisName (rn : String) (l : List String) : Nat :=
  (l.filter (fun n => n = rn)).length

/-- `this`-call counting distributes over concatenation. -/
theorem countThisName_append (rn : String) (a b : List String) :
    countThisName rn (a ++ b) = countThisName rn a + countThisName rn b := by
  simp [countThisName, List.filter_append]

/-- `countThisCallMember` is `countThisName` over the member's call list. -/
theorem countThisCallMember_eq (rn : String) (m : ClassMember) :
    countThisCallMember rn m = countThisName rn (findThisCallsMember m) := rfl

/-- The rewriting pass never changes the head name of an expression. -/
theorem exprName_transform (smm : List (String × String)) (e : Expr) :
    exprName (transformSuperCallsExpr smm e) = exprName e := by
  cases e <;> simp [transformSuperCallsExpr, exprName]

/-- The rewriting pass preserves which callees are `this.<name>` hits. -/
theorem thisCallHit_transform (smm : List (String × String)) (callee : Expr) :
    thisCallHit (transformSuperCallsExpr smm callee) = thisCallHit callee := by
  rcases callee with _ | _ | n | n | v | ⟨c, a⟩ | ⟨obj, prop, computed⟩ | t <;>
    try rfl
  rw [transformSuperCallsExpr]
  rcases obj with _ | _ | n | n | v | ⟨c, a⟩ | ⟨o2, p2, c2⟩ | t <;>
    rcases prop with _ | _ | m | m | v2 | ⟨c3, a3⟩ | ⟨o3, p3, c4⟩ | t3 <;>
    rcases computed <;>
    simp [transformSuperCallsExpr, thisCallHit]

/-- The rewriting pass preserves which callees are `super.<name>` hits. -/
theorem superCallHit_transform (smm : List (String × String)) (callee : Expr) :
    superCallHit (transformSuperCallsExpr smm callee) = superCallHit callee := by
  rcases callee with _ | _ | n | n | v | ⟨c, a⟩ | ⟨obj, prop, computed⟩ | t <;>
    try rfl
  rw [transformSuperCallsExpr]
  rcases obj with _ | _ | n | n | v | ⟨c, a⟩ | ⟨o2, p2, c2⟩ | t <;>
    rcases prop with _ | _ | m | m | v2 | ⟨c3, a3⟩ | ⟨o3, p3, c4⟩ | t3 <;>
    rcases computed <;>
    simp [transformSuperCallsExpr, superCallHit, exprName, exprName_transform]

/-- Shape of a successful callee rewrite: the callee was a non-computed
`super.<g>` with `g` nonempty and mapped, and the result is
`this.<renamed>`. -/
theorem superCalleeRewrite_some (smm : List (String × String)) (callee c : Expr)
    (h : superCalleeRewrite smm callee = some c) :
    ∃ prop g r', callee = .member .superE prop false ∧ exprName prop = some g
      ∧ g ≠ "" ∧ alistGet smm g = some r'
      ∧ c = .member .thisE (.ident r') false := by
  rcases callee with _ | _ | n | n | v | ⟨cc, a⟩ | ⟨obj, prop, computed⟩ | t <;>
    simp [superCalleeRewrite] at h
  rcases obj <;> rcases computed <;> simp [superCalleeRewrite] at h
  rcases hg : exprName prop with _ | g
  · simp [hg] at h
  · simp only [hg] at h
    by_cases hgg : g = ""
    · simp [hgg] at h
    · simp only [hgg, if_false] at h
      rcases hr : alistGet smm g with _ | r'
      · simp [hr] at h
      · simp only [hr, Option.some.injEq] at h
        exact ⟨prop, g, r', rfl, hg, hgg, hr, h.symm⟩

/-- When the callee rewrite does not fire although `fn` is mapped, the
callee's own super-hit record does not mention `fn` non-computed. -/
theorem countSuperName_hit_none (smm : List (String × String)) (fn rn : String)
    (callee : Expr) (hget : alistGet smm fn = some rn) (hfn : fn ≠ "")
    (h : superCalleeRewrite smm callee = none) :
    countSuperName fn (superCallHit callee) = 0 := by
  rcases callee with _ | _ | n | n | v | ⟨cc, a⟩ | ⟨obj, prop, computed⟩ | t <;>
    try rfl
  rcases obj <;> try rfl
  rcases computed
  · rcases hg : exprName prop with _ | g
    · simp [superCallHit, countSuperName, hg]
    · simp only [superCalleeRewrite, hg] at h
      by_cases hgg : g = ""
      · subst hgg
        simp [superCallHit, countSuperName, hg, Ne.symm hfn]
      · simp only [hgg, if_false] at h
        rcases hr : alistGet smm g with _ | r'
        · have hgfn : g ≠ fn := by
            intro he; subst he; rw [hget] at hr; cases hr
          simp [superCallHit, countSuperName, hg, hgfn]
        · simp [hr] at h
  · simp [superCallHit, countSuperName]

mutual

/-- After rewriting with a map that binds the nonempty name `fn`, an
expression contains no `super.<fn>(...)` call site at all. -/
theorem countSuper_transform_expr (smm : List (String × String)) (fn rn : String)
    (hget : alistGet smm fn = some rn) (hfn : fn ≠ "") : ∀ (e : Expr),
    countSuperName fn (findSuperCallsExpr (transformSuperCallsExpr smm e)) = 0
  | .thisE => rfl
  | .superE => rfl
  | .ident _ => rfl
  | .privateName _ => rfl
  | .lit _ => rfl
  | .otherE _ => rfl
  | .member obj prop _ => by
    rw [transformSuperCallsExpr, findSuperCallsExpr, countSuperName_append,
      countSuper_transform_expr smm fn rn hget hfn obj,
      countSuper_transform_expr smm fn rn hget hfn prop]
  | .call callee args => by
    rw [transformSuperCallsExpr]
    rcases h : superCalleeRewrite smm callee with _ | c
    · simp only [h]
      rw [findSuperCallsExpr, countSuperName_append, countSuperName_append,
        superCallHit_transform, countSuperName_hit_none smm fn rn callee hget hfn h,
        countSuper_transform_expr smm fn rn hget hfn callee,
        countSuper_transform_exprList smm fn rn hget hfn args]
    · obtain ⟨prop, g, r', hc, hg, hgg, hr, rfl⟩ :=
        superCalleeRewrite_some smm callee c h
      simp only [h]
      rw [findSuperCallsExpr, countSuperName_append, countSuperName_append,
        countSuper_transform_exprList smm fn rn hget hfn args]
      rfl

/-- List version of `countSuper_transform_expr`. -/
theorem countSuper_transform_exprList (smm : List (String × String))
    (fn rn : String) (hget : alistGet smm fn = some rn) (hfn : fn ≠ "") :
    ∀ (l : List Expr),
    countSuperName fn (findSuperCallsExprList (transformSuperCallsExprList smm l))
      = 0
  | [] => rfl
  | e :: es => by
    rw [transformSuperCallsExprList, findSuperCallsExprList, countSuperName_append,
      countSuper_transform_expr smm fn rn hget hfn e,
      countSuper_transform_exprList smm fn rn hget hfn es]

end

mutual

/-- Statement version of `countSuper_transform_expr`. -/
theorem countSuper_transform_stmt (smm : List (String × String)) (fn rn : String)
    (hget : alistGet smm fn = some rn) (hfn : fn ≠ "") : ∀ (s : Stmt),
    countSuperName fn (findSuperCallsStmt (transformSuperCallsStmt smm s)) = 0
  | .exprStmt e => by
    rw [transformSuperCallsStmt, findSuperCallsStmt,
      countSuper_transform_expr smm fn rn hget hfn e]
  | .ifStmt t c a => by
    rw [transformSuperCallsStmt, findSuperCallsStmt, countSuperName_append,
      countSuperName_append, countSuper_transform_expr smm fn rn hget hfn t,
      countSuper_transform_stmt smm fn rn hget hfn c,
      countSuper_transform_stmtOpt smm fn rn hget hfn a]
  | .block b => by
    rw [transformSuperCallsStmt, findSuperCallsStmt,
      countSuper_transform_stmtList smm fn rn hget hfn b]
  | .retStmt none => rfl
  | .retStmt (some e) => by
    rw [transformSuperCallsStmt]
    exact countSuper_transform_expr smm fn rn hget hfn e

/-- Statement-list version of `countSuper_transform_expr`. -/
theorem countSuper_transform_stmtList (smm : List (String × String))
    (fn rn : String) (hget : alistGet smm fn = some rn) (hfn : fn ≠ "") :
    ∀ (l : List Stmt),
    countSuperName fn (findSuperCallsStmtList (transformSuperCallsStmtList smm l))
      = 0
  | [] => rfl
  | s :: ss => by
    rw [transformSuperCallsStmtList, findSuperCallsStmtList, countSuperName_append,
      countSuper_transform_stmt smm fn rn hget hfn s,
      countSuper_transform_stmtList smm fn rn hget hfn ss]

/-- Optional-statement version of `countSuper_transform_expr`. -/
theorem countSuper_transform_stmtOpt (smm : List (String × String))
    (fn rn : String) (hget : alistGet smm fn = some rn) (hfn : fn ≠ "") :
    ∀ (a : Option Stmt),
    countSuperName fn (findSuperCallsStmtOpt (transformSuperCallsStmtOpt smm a))
      = 0
  | none => rfl
  | some s => by
    rw [transformSuperCallsStmtOpt, findSuperCallsStmtOpt,
      countSuper_transform_stmt smm fn rn hget hfn s]

end

/-- Member version of `countSuper_transform_expr`: a rewritten member
contains no `super.<fn>(...)` call site. -/
theorem countSuper_transform_member (smm : List (String × String))
    (fn rn : String) (hget : alistGet smm fn = some rn) (hfn : fn ≠ "")
    (m : ClassMember) :
    countSuperNameMember fn (transformSuperCallsMember smm m) = 0 := by
  rcases m with ⟨k, key, st, p, b⟩ | ⟨key, st, v⟩
  · rw [transformSuperCallsMember]
    unfold countSuperNameMember
    rw [findSuperCallsMember, countSuperName_append,
      countSuper_transform_stmtList smm fn rn hget hfn b]
    rcases key with n | n | e
    · rfl
    · rfl
    · rw [transformSuperCallsKey, findSuperCallsKey,
        countSuper_transform_expr smm fn rn hget hfn e]
  · have hkey : countSuperName fn
        (findSuperCallsKey (transformSuperCallsKey smm key)) = 0 := by
      rcases key with n | n | e
      · rfl
      · rfl
      · rw [transformSuperCallsKey, findSuperCallsKey]
        exact countSuper_transform_expr smm fn rn hget hfn e
    rcases v with _ | e
    · rw [transformSuperCallsMember]
      unfold countSuperNameMember
      rw [findSuperCallsMember, countSuperName_append, hkey]
      rfl
    · rw [transformSuperCallsMember]
      unfold countSuperNameMember
      rw [findSuperCallsMember, countSuperName_append, hkey]
      simpa using countSuper_transform_expr smm fn rn hget hfn e

/-- `transformAllSuperCalls` acts bucket-wise on each method category. -/
theorem transformAll_getCat (allMembers : MemberCollection)
    (smm : List (String × String)) (category : Category)
    (hcat : category ∈ methodCategories) :
    (transformAllSuperCalls allMembers smm).getCat category
      = (allMembers.getCat category).map
          (fun me => { me with
            member := transformSuperCallsMember smm me.member }) := by
  simp only [methodCategories, List.mem_cons, List.not_mem_nil, or_false] at hcat
  rcases hcat with rfl | rfl | rfl | rfl | rfl <;> rfl

/-- Lookup in a one-entry association list, positive case. -/
theorem alistGet_singleton_self {α β : Type} [DecidableEq α] (k : α) (v : β) :
    alistGet [(k, v)] k = some v := by
  simp [alistGet]

/-- Lookup in a one-entry association list succeeds only at its key. -/
theorem alistGet_singleton {α β : Type} [DecidableEq α] (k a : α) (v b : β)
    (h : alistGet [(k, v)] a = some b) : a = k ∧ b = v := by
  by_cases hk : k = a
  · subst hk
    simp [alistGet] at h
    exact ⟨rfl, h.symm⟩
  · simp [alistGet, hk] at h

/-- The concrete count values at a fired rewrite site: the new
`this.<rn>` callee is one `this`-hit and nothing else, and the old
`super.<fn>` callee was one `super.<fn>`-record and nothing else. -/
theorem fired_counts (fn rn : String) (prop : Expr)
    (hprop : prop = .ident fn ∨ prop = .privateName fn) :
    countThisName rn (thisCallHit (.member .thisE (.ident rn) false)) = 1
    ∧ countThisName rn (findThisCallsExpr (.member .thisE (.ident rn) false)) = 0
    ∧ countSuperName fn (superCallHit (.member .superE prop false)) = 1
    ∧ countSuperName fn (findSuperCallsExpr (.member .superE prop false)) = 0
    ∧ countThisName rn (thisCallHit (.member .superE prop false)) = 0
    ∧ countThisName rn (findThisCallsExpr (.member .superE prop false)) = 0 := by
  rcases hprop with rfl | rfl <;>
    exact ⟨by simp [thisCallHit, countThisName], rfl,
      by simp [superCallHit, countSuperName, exprName], rfl, rfl, rfl⟩

mutual

/-- Rewriting with the one-name map `fn ↦ rn` turns every
`super.<fn>(...)` call site into a `this.<rn>(...)` call site and creates
no other `this.<rn>` call sites: the `this.<rn>` count of the result is
the `super.<fn>` count plus the pre-existing `this.<rn>` count. -/
theorem countThis_rewrite_expr (fn rn : String) (hfn : fn ≠ "") : ∀ (e : Expr),
    countThisName rn (findThisCallsExpr (transformSuperCallsExpr [(fn, rn)] e))
      = countSuperName fn (findSuperCallsExpr e)
        + countThisName rn (findThisCallsExpr e)
  | .thisE => rfl
  | .superE => rfl
  | .ident _ => rfl
  | .privateName _ => rfl
  | .lit _ => rfl
  | .otherE _ => rfl
  | .member obj prop computed => by
    rw [transformSuperCallsExpr, findThisCallsExpr, countThisName_append,
      countThis_rewrite_expr fn rn hfn obj, countThis_rewrite_expr fn rn hfn prop,
      findSuperCallsExpr, findThisCallsExpr, countSuperName_append,
      countThisName_append]
    omega
  | .call callee args => by
    rw [transformSuperCallsExpr]
    rcases h : superCalleeRewrite [(fn, rn)] callee with _ | c
    · simp only [h]
      rw [findThisCallsExpr, countThisName_append, countThisName_append,
        thisCallHit_transform, countThis_rewrite_expr fn rn hfn callee,
        countThis_rewrite_exprList fn rn hfn args,
        findSuperCallsExpr, findThisCallsExpr,
        countSuperName_append, countSuperName_append,
        countThisName_append, countThisName_append,
        countSuperName_hit_none [(fn, rn)] fn rn callee
          (alistGet_singleton_self fn rn) hfn h]
      omega
    · obtain ⟨prop, g, r', rfl, hg, hgg, hr, rfl⟩ :=
        superCalleeRewrite_some [(fn, rn)] callee c h
      obtain ⟨hg1, hr1⟩ := alistGet_singleton fn g rn r' hr
      rw [hg1] at hg
      obtain ⟨c1, c2, c3, c4, c5, c6⟩ :=
        fired_counts fn rn prop (exprName_some prop fn hg)
      simp only [h]
      rw [hr1]
      rw [findThisCallsExpr, countThisName_append, countThisName_append, c1, c2,
        countThis_rewrite_exprList fn rn hfn args,
        findSuperCallsExpr, findThisCallsExpr,
        countSuperName_append, countSuperName_append,
        countThisName_append, countThisName_append, c3, c4, c5, c6]
      omega

/-- List version of `countThis_rewrite_expr`. -/
theorem countThis_rewrite_exprList (fn rn : String) (hfn : fn ≠ "") :
    ∀ (l : List Expr),
    countThisName rn
        (findThisCallsExprList (transformSuperCallsExprList [(fn, rn)] l))
      = countSuperName fn (findSuperCallsExprList l)
        + countThisName rn (findThisCallsExprList l)
  | [] => rfl
  | e :: es => by
    rw [transformSuperCallsExprList, findThisCallsExprList, countThisName_append,
      countThis_rewrite_expr fn rn hfn e, countThis_rewrite_exprList fn rn hfn es,
      findThisCallsExprList, findSuperCallsExprList, countSuperName_append,
      countThisName_append]
    omega

end

mutual

/-- Statement version of `countThis_rewrite_expr`. -/
theorem countThis_rewrite_stmt (fn rn : String) (hfn : fn ≠ "") : ∀ (s : Stmt),
    countThisName rn (findThisCallsStmt (transformSuperCallsStmt [(fn, rn)] s))
      = countSuperName fn (findSuperCallsStmt s)
        + countThisName rn (findThisCallsStmt s)
  | .exprStmt e => by
    rw [transformSuperCallsStmt, findThisCallsStmt, findThisCallsStmt,
      findSuperCallsStmt, countThis_rewrite_expr fn rn hfn e]
  | .ifStmt t c a => by
    rw [transformSuperCallsStmt, findThisCallsStmt, countThisName_append,
      countThisName_append, countThis_rewrite_expr fn rn hfn t,
      countThis_rewrite_stmt fn rn hfn c, countThis_rewrite_stmtOpt fn rn hfn a,
      findSuperCallsStmt, findThisCallsStmt,
      countSuperName_append, countSuperName_append,
      countThisName_append, countThisName_append]
    omega
  | .block b => by
    rw [transformSuperCallsStmt, findThisCallsStmt, findThisCallsStmt,
      findSuperCallsStmt, countThis_rewrite_stmtList fn rn hfn b]
  | .retStmt none => rfl
  | .retStmt (some e) => by
    rw [transformSuperCallsStmt]
    exact countThis_rewrite_expr fn rn hfn e

/-- Statement-list version of `countThis_rewrite_expr`. -/
theorem countThis_rewrite_stmtList (fn rn : String) (hfn : fn ≠ "") :
    ∀ (l : List Stmt),
    countThisName rn
        (findThisCallsStmtList (transformSuperCallsStmtList [(fn, rn)] l))
      = countSuperName fn (findSuperCallsStmtList l)
        + countThisName rn (findThisCallsStmtList l)
  | [] => rfl
  | s :: ss => by
    rw [transformSuperCallsStmtList, findThisCallsStmtList, countThisName_append,
      countThis_rewrite_stmt fn rn hfn s, countThis_rewrite_stmtList fn rn hfn ss,
      findThisCallsStmtList, findSuperCallsStmtList, countSuperName_append,
      countThisName_append]
    omega

/-- Optional-statement version of `countThis_rewrite_expr`. -/
theorem countThis_rewrite_stmtOpt (fn rn : String) (hfn : fn ≠ "") :
    ∀ (a : Option Stmt),
    countThisName rn
        (findThisCallsStmtOpt (transformSuperCallsStmtOpt [(fn, rn)] a))
      = countSuperName fn (findSuperCallsStmtOpt a)
        + countThisName rn (findThisCallsStmtOpt a)
  | none => rfl
  | some s => by
    rw [transformSuperCallsStmtOpt, findThisCallsStmtOpt, findThisCallsStmtOpt,
      findSuperCallsStmtOpt, countThis_rewrite_stmt fn rn hfn s]

end

/-- Member version of `countThis_rewrite_expr`: rewriting with `fn ↦ rn`
turns every `super.<fn>(...)` call site of a member into a
`this.<rn>(...)` call site, preserving pre-existing `this.<rn>` sites. -/
theorem countThis_rewrite_member (fn rn : String) (hfn : fn ≠ "")
    (m : ClassMember) :
    countThisCallMember rn (transformSuperCallsMember [(fn, rn)] m)
      = countSuperNameMember fn m + countThisCallMember rn m := by
  have hnil1 : countThisName rn ([] : List String) = 0 := rfl
  have hnil2 : countSuperName fn ([] : List SuperCallInfo) = 0 := rfl
  rcases m with ⟨k, key, st, p, b⟩ | ⟨key, st, v⟩
  · rcases key with n | n | e
    · simp only [transformSuperCallsMember, transformSuperCallsKey,
        countThisCallMember_eq, countSuperNameMember, findThisCallsMember,
        findSuperCallsMember, findSuperCallsKey, countThisName_append,
        countSuperName_append, hnil1, hnil2, List.nil_append,
        countThis_rewrite_stmtList fn rn hfn b]
      try omega
    · simp only [transformSuperCallsMember, transformSuperCallsKey,
        countThisCallMember_eq, countSuperNameMember, findThisCallsMember,
        findSuperCallsMember, findSuperCallsKey, countThisName_append,
        countSuperName_append, hnil1, hnil2, List.nil_append,
        countThis_rewrite_stmtList fn rn hfn b]
      try omega
    · simp only [transformSuperCallsMember, transformSuperCallsKey,
        countThisCallMember_eq, countSuperNameMember, findThisCallsMember,
        findSuperCallsMember, findSuperCallsKey, countThisName_append,
        countSuperName_append, hnil1, hnil2, List.nil_append,
        countThis_rewrite_stmtList fn rn hfn b,
        countThis_rewrite_expr fn rn hfn e]
      try omega
  · rcases v with _ | e
    · rcases key with n | n | e2
      · simp only [transformSuperCallsMember, transformSuperCallsKey,
          countThisCallMember_eq, countSuperNameMember, findThisCallsMember,
          findSuperCallsMember, findSuperCallsKey, countThisName_append,
          countSuperName_append, hnil1, hnil2, List.nil_append, List.append_nil]
        try omega
      · simp only [transformSuperCallsMember, transformSuperCallsKey,
          countThisCallMember_eq, countSuperNameMember, findThisCallsMember,
          findSuperCallsMember, findSuperCallsKey, countThisName_append,
          countSuperName_append, hnil1, hnil2, List.nil_append, List.append_nil]
        try omega
      · simp only [transformSuperCallsMember, transformSuperCallsKey,
          countThisCallMember_eq, countSuperNameMember, findThisCallsMember,
          findSuperCallsMember, findSuperCallsKey, countThisName_append,
          countSuperName_append, hnil1, hnil2, List.nil_append, List.append_nil,
          countThis_rewrite_expr fn rn hfn e2]
        try omega
    · rcases key with n | n | e2
      · simp only [transformSuperCallsMember, transformSuperCallsKey,
          countThisCallMember_eq, countSuperNameMember, findThisCallsMember,
          findSuperCallsMember, findSuperCallsKey, countThisName_append,
          countSuperName_append, hnil1, hnil2, List.nil_append,
          countThis_rewrite_expr fn rn hfn e]
        try omega
      · simp only [transformSuperCallsMember, transformSuperCallsKey,
          countThisCallMember_eq, countSuperNameMember, findThisCallsMember,
          findSuperCallsMember, findSuperCallsKey, countThisName_append,
          countSuperName_append, hnil1, hnil2, List.nil_append,
          countThis_rewrite_expr fn rn hfn e]
        try omega
      · simp only [transformSuperCallsMember, transformSuperCallsKey,
          countThisCallMember_eq, countSuperNameMember, findThisCallsMember,
          findSuperCallsMember, findSuperCallsKey, countThisName_append,
          countSuperName_append, hnil1, hnil2, List.nil_append,
          countThis_rewrite_expr fn rn hfn e,
          countThis_rewrite_expr fn rn hfn e2]
        try omega

/-- The synthesized method `analyzeSuperCalls` produces for one needed
name: the found ancestor implementation, renamed to
`_super_<owningClass>_<name>`, with its own super calls rewritten against
the grandparent implementations. -/
def synthFor (allMembers : MemberCollection) (currentClassName : String)
    (methodName : String) : Option ClassMember :=
  match findParentMethodImplementation (some currentClassName) methodName
      allMembers with
  | some parentImpl =>
    let renamedMethodName :=
      "_super_" ++ optName parentImpl.fromClass ++ "_" ++ methodName
    let renamedMethod := parentImpl.member.withKey (.ident renamedMethodName)
    let parentSuperMap :=
      buildParentSuperMap parentImpl.fromClass renamedMethod allMembers
    some (transformSuperCallsMember parentSuperMap renamedMethod)
  | none => none

/-- The second pass of `analyzeSuperCalls` appends exactly one synthesized
method per resolved needed name, in order. -/
theorem analyzeFold_list (allMembers : MemberCollection) (cn : String) :
    ∀ (names : List String) (acc : List (String × String) × List ClassMember),
    (names.foldl (analyzeSuperStep allMembers cn) acc).2
      = acc.2 ++ names.filterMap (synthFor allMembers cn) := by
  intro names
  induction names with
  | nil => intro acc; simp
  | cons n t ih =>
    intro acc
    simp only [List.foldl, List.filterMap]
    cases himpl : findParentMethodImplementation (some cn) n allMembers with
    | none =>
      rw [show analyzeSuperStep allMembers cn acc n = acc by
        simp [analyzeSuperStep, himpl]]
      rw [ih acc, show synthFor allMembers cn n = none by
        simp [synthFor, himpl]]
    | some parentImpl =>
      rw [ih]
      rw [show synthFor allMembers cn n
          = some (transformSuperCallsMember
              (buildParentSuperMap parentImpl.fromClass
                (parentImpl.member.withKey
                  (.ident ("_super_" ++ optName parentImpl.fromClass ++ "_" ++ n)))
                allMembers)
              (parentImpl.member.withKey
                (.ident ("_super_" ++ optName parentImpl.fromClass ++ "_" ++ n))))
        by simp [synthFor, himpl]]
      rw [show (analyzeSuperStep allMembers cn acc n).2
          = acc.2 ++ [transformSuperCallsMember
              (buildParentSuperMap parentImpl.fromClass
                (parentImpl.member.withKey
                  (.ident ("_super_" ++ optName parentImpl.fromClass ++ "_" ++ n)))
                allMembers)
              (parentImpl.member.withKey
                (.ident ("_super_" ++ optName parentImpl.fromClass ++ "_" ++ n)))]
        by simp [analyzeSuperStep, himpl]]
      simp

/-- Where a binding of the second-pass map can come from: an input
binding, or a processed name resolved to an ancestor implementation with
the deterministic `_super_<owningClass>_<name>` rename. -/
theorem analyzeFold_get (allMembers : MemberCollection) (cn : String) :
    ∀ (names : List String) (acc : List (String × String) × List ClassMember)
      (fn rn : String),
    alistGet (names.foldl (analyzeSuperStep allMembers cn) acc).1 fn = some rn →
    alistGet acc.1 fn = some rn
    ∨ (fn ∈ names
        ∧ ∃ e, findParentMethodImplementation (some cn) fn allMembers = some e
        ∧ rn = "_super_" ++ optName e.fromClass ++ "_" ++ fn) := by
  intro names
  induction names with
  | nil => intro acc fn rn h; exact Or.inl h
  | cons n t ih =>
    intro acc fn rn h
    simp only [List.foldl] at h
    rcases ih (analyzeSuperStep allMembers cn acc n) fn rn h with h1 | ⟨h1, h2⟩
    · cases himpl : findParentMethodImplementation (some cn) n allMembers with
      | none =>
        rw [show analyzeSuperStep allMembers cn acc n = acc by
          simp [analyzeSuperStep, himpl]] at h1
        exact Or.inl h1
      | some parentImpl =>
        rw [show (analyzeSuperStep allMembers cn acc n).1
            = alistSet acc.1 n
                ("_super_" ++ optName parentImpl.fromClass ++ "_" ++ n)
          by simp [analyzeSuperStep, himpl]] at h1
        by_cases hn : n = fn
        · subst hn
          rw [alistGet_set_self] at h1
          refine Or.inr ⟨List.mem_cons_self n t, parentImpl, himpl, ?_⟩
          exact (Option.some.injEq _ _ ▸ h1).symm
        · rw [alistGet_set_ne _ _ _ _ hn] at h1
          exact Or.inl h1
    · exact Or.inr ⟨List.mem_cons_of_mem n h1, h2⟩

/-- One step of the needed-name scan preserves de-duplication. -/
theorem neededFold1_nodup (l : List SuperCallInfo) (acc : List String)
    (h : acc.Nodup) :
    (l.foldl (fun acc superCall =>
      match superCall.memberName with
      | some memberName =>
        if memberName = "" then acc
        else if superCall.isComputed then acc
        else if acc.contains memberName then acc
        else acc ++ [memberName]
      | none => acc) acc).Nodup := by
  induction l generalizing acc with
  | nil => exact h
  | cons sc t ih =>
    simp only [List.foldl]
    apply ih
    rcases hm : sc.memberName with _ | memberName
    · simpa [hm] using h
    · simp only [hm]
      by_cases h1 : memberName = ""
      · simpa [h1] using h
      · simp only [h1, if_false]
        by_cases h2 : sc.isComputed
        · simpa [h2] using h
        · simp only [h2, if_false]
          by_cases h3 : memberName ∈ acc
          · simpa [h3] using h
          · simpa [h3, List.nodup_append] using h

/-- The member-level needed-name scan preserves de-duplication. -/
theorem neededFold2_nodup (entries : List MemberEntry) (acc : List String)
    (h : acc.Nodup) :
    (entries.foldl (fun acc memberEntry =>
      (findSuperCallsMember memberEntry.member).foldl
        (fun acc superCall =>
          match superCall.memberName with
          | some memberName =>
            if memberName = "" then acc
            else if superCall.isComputed then acc
            else if acc.contains memberName then acc
            else acc ++ [memberName]
          | none => acc)
        acc) acc).Nodup := by
  induction entries generalizing acc with
  | nil => exact h
  | cons e t ih =>
    simp only [List.foldl]
    exact ih _ (neededFold1_nodup _ acc h)

/-- The needed-name list of `analyzeSuperCalls` holds no duplicates. -/
theorem neededParentMethods_nodup (allMembers : MemberCollection) :
    (neededParentMethods allMembers).Nodup := by
  unfold neededParentMethods
  have hcat : ∀ (cats : List Category) (acc : List String), acc.Nodup →
      (cats.foldl (fun acc category =>
        ((allMembers.getCat category).foldl
          (fun acc memberEntry =>
            (findSuperCallsMember memberEntry.member).foldl
              (fun acc superCall =>
                match superCall.memberName with
                | some memberName =>
                  if memberName = "" then acc
                  else if superCall.isComputed then acc
                  else if acc.contains memberName then acc
                  else acc ++ [memberName]
                | none => acc)
              acc)
          acc)) acc).Nodup := by
    intro cats
    induction cats with
    | nil => intro acc h; exact h
    | cons c t ih =>
      intro acc h
      simp only [List.foldl]
      exact ih _ (neededFold2_nodup _ acc h)
  exact hcat methodCategories [] List.nodup_nil

/-- C3 (amended): whenever the rewrite map binds a (nonempty) super-called
name `fn` to `rn`, then (1) `rn` is named deterministically from the
owning ancestor class and member name of the found ancestor
implementation; (2) the needed-name list is duplicate-free, contains
`fn`, and exactly one synthesized method (the renamed ancestor
implementation) is emitted per resolved needed name; (3) after the
rewriting pass no method bucket member contains `super.<fn>(...)`
anymore; and (4) rewriting a member with `fn ↦ rn` turns each
`super.<fn>(...)` call site into a `this.<rn>(...)` call site, preserving
pre-existing `this.<rn>` sites.  (By `C3_counterexample`, the claim's
stronger "zero occurrences in the flattened output" and collision-free
naming both fail in general.) -/
theorem C3_super_resolution (allMembers : MemberCollection) (cn fn rn : String)
    (hfn : fn ≠ "")
    (h1 : alistGet (analyzeSuperCalls allMembers cn).1 fn = some rn) :
    (∃ entry, findParentMethodImplementation (some cn) fn allMembers = some entry
      ∧ rn = "_super_" ++ optName entry.fromClass ++ "_" ++ fn)
    ∧ ((neededParentMethods allMembers).Nodup
        ∧ fn ∈ neededParentMethods allMembers
        ∧ (analyzeSuperCalls allMembers cn).2
            = (neededParentMethods allMembers).filterMap (synthFor allMembers cn))
    ∧ (∀ category ∈ methodCategories,
        ∀ e ∈ (transformAllSuperCalls allMembers
            (analyzeSuperCalls allMembers cn).1).getCat category,
          countSuperNameMember fn e.member = 0)
    ∧ (∀ m : ClassMember,
        countThisCallMember rn (transformSuperCallsMember [(fn, rn)] m)
          = countSuperNameMember fn m + countThisCallMember rn m) := by
  have h1' := h1
  rw [analyzeSuperCalls] at h1'
  rcases analyzeFold_get allMembers cn (neededParentMethods allMembers)
      ([], []) fn rn h1' with habs | ⟨hmem, entry, himpl, hrn⟩
  · simp [alistGet] at habs
  refine ⟨⟨entry, himpl, hrn⟩,
    ⟨neededParentMethods_nodup allMembers, hmem, ?_⟩, ?_, ?_⟩
  · rw [analyzeSuperCalls]
    simpa using analyzeFold_list allMembers cn (neededParentMethods allMembers)
      ([], [])
  · intro category hcat e he
    rw [transformAll_getCat allMembers _ category hcat] at he
    obtain ⟨me, _, rfl⟩ := List.mem_map.mp he
    exact countSuper_transform_member _ fn rn h1 hfn me.member
  · intro m
    exact countThis_rewrite_member fn rn hfn m

/-- Concrete unit for the C3 counterexample, part 1:
`class A { foo() { super.foo() } }` (rootless, its own `super.foo` is
unresolvable) and `class C extends A { bar() { super.foo() } }`. -/
def c3Prog : List TopLevel :=
  [.classDecl ⟨some "A", none,
    [.methodDef .methodKind (.ident "foo") false []
      [.exprStmt (.call (.member .superE (.ident "foo") false) [])]]⟩,
   .classDecl ⟨some "C", some (.ident "A"),
    [.methodDef .methodKind (.ident "bar") false []
      [.exprStmt (.call (.member .superE (.ident "foo") false) [])]]⟩]

/-- Concrete unit for the C3 counterexample, part 2 (name collision):
`class A { b_c() {}; c() {} }`, `class A_b extends A { c() {} }`,
`class C extends A_b { m() { super.b_c(); super.c() } }`. -/
def c3CollProg : List TopLevel :=
  [.classDecl ⟨some "A", none,
    [.methodDef .methodKind (.ident "b_c") false [] [],
     .methodDef .methodKind (.ident "c") false [] []]⟩,
   .classDecl ⟨some "A_b", some (.ident "A"),
    [.methodDef .methodKind (.ident "c") false [] []]⟩,
   .classDecl ⟨some "C", some (.ident "A_b"),
    [.methodDef .methodKind (.ident "m") false []
      [.exprStmt (.call (.member .superE (.ident "b_c") false) []),
       .exprStmt (.call (.member .superE (.ident "c") false) [])]]⟩]

/-- Counterexample to C3 as stated.  Part 1: flattening `C` of `c3Prog`
leaves ONE occurrence of `super.foo(...)` in the output class (the
synthesized `_super_A_foo` holds `A`'s implementation, whose own
`super.foo()` resolves to no grandparent and survives), although `C.bar`'s
`super.foo` has a statically known name implemented by the ancestor `A` —
so "zero occurrences of the original super-call syntax" fails.  Part 2:
in `c3CollProg` the deterministic `_super_<class>_<name>` naming collides
(`_super_` ++ "A" ++ "_" ++ "b_c" = `_super_` ++ "A_b" ++ "_" ++ "c"`),
so two distinct synthesized methods share one name — the spec's
"collision-free against all other members" remark is also wrong. -/
theorem C3_counterexample :
    ((alistGet (buildClassRegistry c3Prog).1 "C").map
        (fun ci => countSuperNameClass "foo"
          (flattenClass (buildClassRegistry c3Prog).1 ci)))
      = some 1
    ∧ ((analyzeSuperCalls
          (collectInheritedMembers (buildClassRegistry c3CollProg).1 "C" [])
          "C").2.map getMethodName)
        = [some "_super_A_b_c", some "_super_A_b_c"] := by
  constructor
  · simp only [flattenClass, collectInheritedMembers_eval]
    decide
  · rw [collectInheritedMembers_eval]
    decide

/-- Concrete unit for the C3 witness: `class A { foo() { return "a" } }`
and `class B extends A { foo() { super.foo() } }`. -/
def c3WProg : List TopLevel :=
  [.classDecl ⟨some "A", none,
    [.methodDef .methodKind (.ident "foo") false [] [.retStmt (some (.lit "a"))]]⟩,
   .classDecl ⟨some "B", some (.ident "A"),
    [.methodDef .methodKind (.ident "foo") false []
      [.exprStmt (.call (.member .superE (.ident "foo") false) [])]]⟩]

/-- The linearized member collection of `B` in the C3 witness unit. -/
def c3WMembers : MemberCollection :=
  collectInheritedMembers (buildClassRegistry c3WProg).1 "B" []

/-- Witness for C3 (amended) on the concrete `A`/`B` unit: the rewrite
map binds `foo ↦ _super_A_foo` and all four conclusions follow. -/
theorem C3_super_resolution_witness :
    ("foo" : String) ≠ ""
    ∧ alistGet (analyzeSuperCalls c3WMembers "B").1 "foo" = some "_super_A_foo"
    ∧ ((∃ entry,
          findParentMethodImplementation (some "B") "foo" c3WMembers = some entry
          ∧ "_super_A_foo" = "_super_" ++ optName entry.fromClass ++ "_" ++ "foo")
        ∧ ((neededParentMethods c3WMembers).Nodup
            ∧ "foo" ∈ neededParentMethods c3WMembers
            ∧ (analyzeSuperCalls c3WMembers "B").2
                = (neededParentMethods c3WMembers).filterMap
                    (synthFor c3WMembers "B"))
        ∧ (∀ category ∈ methodCategories,
            ∀ e ∈ (transformAllSuperCalls c3WMembers
                (analyzeSuperCalls c3WMembers "B").1).getCat category,
              countSuperNameMember "foo" e.member = 0)
        ∧ (∀ m : ClassMember,
            countThisCallMember "_super_A_foo"
                (transformSuperCallsMember [("foo", "_super_A_foo")] m)
              = countSuperNameMember "foo" m
                + countThisCallMember "_super_A_foo" m)) := by
  have hget : alistGet (analyzeSuperCalls c3WMembers "B").1 "foo"
      = some "_super_A_foo" := by
    rw [show c3WMembers
        = collectInheritedMembers (buildClassRegistry c3WProg).1 "B" [] from rfl,
      collectInheritedMembers_eval]
    decide
  exact ⟨by decide, hget,
    C3_super_resolution c3WMembers "B" "foo" "_super_A_foo" (by decide) hget⟩

/-! ## Claim C1: override merging (replace in place, most-derived wins) -/

/-- The member-identity strings of a merged bucket, in order. -/
def memberIds (l : List MemberEntry) : List String :=
  l.map (fun m => m.memberId)

/-- The bucket effect of one `mergeOneItem` call: replace the first entry
with the incoming identity in place, or append at the end. -/
def mergeEntry : List MemberEntry → MemberEntry → List MemberEntry
  | [], e => [e]
  | m :: t, e =>
    if m.memberId = e.memberId then e :: t else m :: mergeEntry t e

/-- The bucket effect of merging a whole item list. -/
def bucketMerge (l : List MemberEntry) (items : List MemberEntry) :
    List MemberEntry :=
  items.foldl mergeEntry l

/-- `mergeEntry` is the `findIndex`-and-splice of the JS loop: the entry
with the same identity is overwritten at its original position, and a new
identity is appended. -/
theorem mergeEntry_eq_splice (l : List MemberEntry) (e : MemberEntry) :
    mergeEntry l e
      = (match l.findIdx? (fun m => m.memberId = e.memberId) with
         | some i => l.set i e
         | none => l ++ [e]) := by
  induction l with
  | nil => rfl
  | cons m t ih =>
    rw [mergeEntry]
    by_cases hm : m.memberId = e.memberId
    · rw [if_pos hm, List.findIdx?_cons]
      simp [hm]
    · rw [if_neg hm, List.findIdx?_cons]
      simp only [hm, decide_False, if_false, List.findIdx?_succ]
      rcases hidx : t.findIdx? (fun m => m.memberId = e.memberId) with _ | i <;>
        simp [hidx] at ih <;> simp [hidx, ih]

/-- Bucket reads are unaffected by `methodHistory` updates. -/
theorem getCat_history (t : MemberCollection)
    (x : List (String × List MemberEntry)) (c : Category) :
    ({ t with methodHistory := x } : MemberCollection).getCat c = t.getCat c := by
  cases c <;> rfl

/-- Bucket reads are unaffected by constructor-chain updates. -/
theorem getCat_chain (t : MemberCollection) (x : List ChainEntry)
    (y : Option ClassMember) (c : Category) :
    ({ t with constructorChain := x, ctor := y } : MemberCollection).getCat c
      = t.getCat c := by
  cases c <;> rfl

/-- Reading the bucket just written. -/
theorem getCat_setCat_self (t : MemberCollection) (c : Category)
    (l : List MemberEntry) : (t.setCat c l).getCat c = l := by
  cases c <;> rfl

/-- Reading another bucket than the one written. -/
theorem getCat_setCat_ne (t : MemberCollection) (c c' : Category)
    (h : c ≠ c') (l : List MemberEntry) :
    (t.setCat c l).getCat c' = t.getCat c' := by
  cases c <;> cases c' <;> first | rfl | exact absurd rfl h

/-- `mergeOneItem` acts on its own bucket as `mergeEntry`. -/
theorem mergeOneItem_getCat (t : MemberCollection) (c : Category)
    (e : MemberEntry) :
    (mergeOneItem t c e).getCat c = mergeEntry (t.getCat c) e := by
  rw [mergeEntry_eq_splice]
  unfold mergeOneItem
  rcases hidx : (t.getCat c).findIdx? (fun m => m.memberId = e.memberId)
      with _ | i <;>
  · simp only [hidx]
    rcases hm : getMethodName e.member with _ | name
    · simp only [hm, getCat_setCat_self]
    · simp only [hm]
      by_cases hname : name = ""
      · simp [hname, getCat_setCat_self]
      · by_cases hmeth : isMethod c
        · simp [hname, hmeth, getCat_setCat_self, getCat_history]
        · simp [hname, hmeth, getCat_setCat_self]

/-- `mergeOneItem` leaves every other bucket unchanged. -/
theorem mergeOneItem_getCat_ne (t : MemberCollection) (c c' : Category)
    (h : c ≠ c') (e : MemberEntry) :
    (mergeOneItem t c e).getCat c' = t.getCat c' := by
  unfold mergeOneItem
  rcases hidx : (t.getCat c).findIdx? (fun m => m.memberId = e.memberId)
      with _ | i <;>
  · simp only [hidx]
    rcases hm : getMethodName e.member with _ | name
    · simp only [hm, getCat_setCat_ne t c c' h]
    · simp only [hm]
      by_cases hname : name = ""
      · simp [hname, getCat_setCat_ne _ c c' h]
      · by_cases hmeth : isMethod c
        · simp [hname, hmeth, getCat_setCat_ne _ c c' h, getCat_history]
        · simp [hname, hmeth, getCat_setCat_ne _ c c' h]

/-- The inner merge fold acts on its own bucket as `bucketMerge`. -/
theorem innerFold_getCat_self (items : List MemberEntry)
    (t : MemberCollection) (c : Category) :
    ((items.foldl (fun t e => mergeOneItem t c e) t).getCat c)
      = bucketMerge (t.getCat c) items := by
  induction items generalizing t with
  | nil => rfl
  | cons e rest ih =>
    simp only [List.foldl, bucketMerge]
    rw [ih (mergeOneItem t c e), mergeOneItem_getCat]
    rfl

/-- The inner merge fold leaves other buckets unchanged. -/
theorem innerFold_getCat_ne (items : List MemberEntry)
    (t : MemberCollection) (c c' : Category) (h : c ≠ c') :
    ((items.foldl (fun t e => mergeOneItem t c e) t).getCat c') = t.getCat c' := by
  induction items generalizing t with
  | nil => rfl
  | cons e rest ih =>
    simp only [List.foldl]
    rw [ih (mergeOneItem t c e), mergeOneItem_getCat_ne t c c' h]

/-- The category fold of `mergeMembers` over categories not containing
`c` leaves bucket `c` unchanged. -/
theorem outerFold_getCat_notmem (source : MergeSource) (scn : Option String)
    (cats : List Category) (t : MemberCollection) (c : Category)
    (hc : c ∉ cats) :
    ((cats.foldl (fun t category =>
        (source.items category scn).foldl
          (fun t entry => mergeOneItem t category entry) t) t).getCat c)
      = t.getCat c := by
  induction cats generalizing t with
  | nil => rfl
  | cons d rest ih =>
    simp only [List.foldl]
    have hdc : d ≠ c := fun he => hc (he ▸ List.mem_cons_self d rest)
    rw [ih _ (fun hx => hc (List.mem_cons_of_mem d hx)),
      innerFold_getCat_ne _ _ d c hdc]

/-- The category fold of `mergeMembers` over a duplicate-free category
list containing `c` acts on bucket `c` as `bucketMerge`. -/
theorem outerFold_getCat (source : MergeSource) (scn : Option String)
    (cats : List Category) (t : MemberCollection) (c : Category)
    (hnd : cats.Nodup) (hc : c ∈ cats) :
    ((cats.foldl (fun t category =>
        (source.items category scn).foldl
          (fun t entry => mergeOneItem t category entry) t) t).getCat c)
      = bucketMerge (t.getCat c) (source.items c scn) := by
  induction cats generalizing t with
  | nil => simp at hc
  | cons d rest ih =>
    simp only [List.foldl]
    rcases List.mem_cons.mp hc with rfl | hc2
    · rw [outerFold_getCat_notmem source scn rest _ c
        (List.nodup_cons.mp hnd).1, innerFold_getCat_self]
    · have hdc : d ≠ c := by
        rintro rfl
        exact (List.nodup_cons.mp hnd).1 hc2
      rw [ih _ (List.nodup_cons.mp hnd).2 hc2, innerFold_getCat_ne _ _ d c hdc]

/-- `mergeMembers` acts bucket-wise as `bucketMerge` of the source items
into the target bucket. -/
theorem mergeMembers_getCat (target : MemberCollection) (source : MergeSource)
    (scn : Option String) (c : Category) :
    (mergeMembers target source scn).getCat c
      = bucketMerge (target.getCat c) (source.items c scn) := by
  unfold mergeMembers
  have hmem : c ∈ mergeCategories := by cases c <;> decide
  have hnd : mergeCategories.Nodup := by decide
  rw [outerFold_getCat source scn mergeCategories _ c hnd hmem]
  congr 1
  rcases source with c0 | r
  · have hhist : ∀ (hs : List (String × List MemberEntry))
        (t : MemberCollection),
        ((hs.foldl (fun t kv =>
          { t with methodHistory := alistAppend t.methodHistory kv.1 kv.2 }) t).getCat c)
          = t.getCat c := by
      intro hs
      induction hs with
      | nil => intro t; rfl
      | cons kv rest ih =>
        intro t
        simp only [List.foldl]
        rw [ih, getCat_history]
    by_cases hlen : c0.constructorChain.length > 0
    · simp only [hlen, if_true, getCat_chain]
      exact hhist c0.methodHistory target
    · simp only [hlen, if_false]
      rcases hctor : c0.ctor with _ | con
      · simp only [hctor]
        exact hhist c0.methodHistory target
      · simp only [hctor, getCat_chain]
        exact hhist c0.methodHistory target
  · rcases hctor : r.ctor with _ | con
    · simp only [hctor]
    · simp only [hctor, getCat_chain]

/-- If an identity does not occur in a bucket, filtering for it yields
nothing. -/
theorem filter_id_nil (l : List MemberEntry) (id : String)
    (h : id ∉ memberIds l) :
    l.filter (fun m => m.memberId = id) = [] := by
  induction l with
  | nil => rfl
  | cons m t ih =>
    simp only [memberIds, List.map_cons, List.mem_cons, not_or] at h
    have hm : m.memberId ≠ id := fun he => h.1 he.symm
    rw [show List.filter (fun m => decide (m.memberId = id)) (m :: t)
        = List.filter (fun m => decide (m.memberId = id)) t by
      simp [List.filter_cons, hm]]
    exact ih (by simpa [memberIds] using h.2)

/-- Identities of a merged bucket come from the bucket or the new entry. -/
theorem memberIds_mergeEntry_mem (l : List MemberEntry) (e : MemberEntry)
    (x : String) (h : x ∈ memberIds (mergeEntry l e)) :
    x ∈ memberIds l ∨ x = e.memberId := by
  induction l with
  | nil => simpa [mergeEntry, memberIds] using h
  | cons m t ih =>
    rw [mergeEntry] at h
    by_cases hm : m.memberId = e.memberId
    · rw [if_pos hm] at h
      simp only [memberIds, List.map, List.mem_cons] at h ⊢
      rcases h with h | h
      · exact Or.inr h
      · exact Or.inl (Or.inr h)
    · rw [if_neg hm] at h
      simp only [memberIds, List.map, List.mem_cons] at h ⊢
      rcases h with h | h
      · exact Or.inl (Or.inl h)
      · rcases ih h with h2 | h2
        · exact Or.inl (Or.inr h2)
        · exact Or.inr h2

/-- Merging one entry preserves bucket-identity uniqueness. -/
theorem mergeEntry_nodup (l : List MemberEntry) (e : MemberEntry)
    (h : (memberIds l).Nodup) : (memberIds (mergeEntry l e)).Nodup := by
  induction l with
  | nil => simp [mergeEntry, memberIds]
  | cons m t ih =>
    rw [mergeEntry]
    simp only [memberIds, List.map, List.nodup_cons] at h
    by_cases hm : m.memberId = e.memberId
    · rw [if_pos hm]
      simp only [memberIds, List.map, List.nodup_cons]
      exact ⟨hm ▸ h.1, h.2⟩
    · rw [if_neg hm]
      simp only [memberIds, List.map, List.nodup_cons]
      refine ⟨?_, ih h.2⟩
      intro hmem
      rcases memberIds_mergeEntry_mem t e m.memberId hmem with h2 | h2
      · exact h.1 h2
      · exact hm h2

/-- After a merge the entry found for the merged identity is the incoming
(most-derived) member. -/
theorem mergeEntry_find_self (l : List MemberEntry) (e : MemberEntry) :
    (mergeEntry l e).find? (fun m => m.memberId = e.memberId) = some e := by
  induction l with
  | nil => simp [mergeEntry, List.find?]
  | cons m t ih =>
    rw [mergeEntry]
    by_cases hm : m.memberId = e.memberId
    · rw [if_pos hm]
      simp [List.find?]
    · rw [if_neg hm]
      simp only [List.find?_cons, hm, decide_False]
      exact ih

/-- Merging an entry does not disturb the lookup of other identities. -/
theorem mergeEntry_find_ne (l : List MemberEntry) (e : MemberEntry)
    (id : String) (h : id ≠ e.memberId) :
    (mergeEntry l e).find? (fun m => m.memberId = id)
      = l.find? (fun m => m.memberId = id) := by
  have h1 : e.memberId ≠ id := fun he => h he.symm
  induction l with
  | nil =>
    simp [mergeEntry, List.find?_cons, h1]
  | cons m t ih =>
    rw [mergeEntry]
    by_cases hm : m.memberId = e.memberId
    · rw [if_pos hm]
      have h2 : m.memberId ≠ id := by rw [hm]; exact h1
      simp [List.find?_cons, h1, h2]
    · rw [if_neg hm]
      by_cases hmid : m.memberId = id
      · simp [List.find?_cons, hmid]
      · simp only [List.find?_cons, hmid, decide_False]
        exact ih

/-- After a merge the bucket holds exactly one entry for the merged
identity (given bucket-identity uniqueness). -/
theorem mergeEntry_count_one (l : List MemberEntry) (e : MemberEntry)
    (h : (memberIds l).Nodup) :
    ((mergeEntry l e).filter (fun m => m.memberId = e.memberId)).length = 1 := by
  induction l with
  | nil => simp [mergeEntry, List.filter]
  | cons m t ih =>
    rw [mergeEntry]
    simp only [memberIds, List.map, List.nodup_cons] at h
    by_cases hm : m.memberId = e.memberId
    · rw [if_pos hm]
      have ht : t.filter (fun m => m.memberId = e.memberId) = [] :=
        filter_id_nil t e.memberId (hm ▸ h.1)
      simp [List.filter_cons, ht]
    · rw [if_neg hm]
      rw [show List.filter (fun m => decide (m.memberId = e.memberId))
            (m :: mergeEntry t e)
          = List.filter (fun m => decide (m.memberId = e.memberId))
            (mergeEntry t e) by
        simp [List.filter_cons, hm]]
      exact ih h.2

/-- Merging a whole item list preserves bucket-identity uniqueness. -/
theorem bucketMerge_nodup (items l : List MemberEntry)
    (h : (memberIds l).Nodup) : (memberIds (bucketMerge l items)).Nodup := by
  induction items generalizing l with
  | nil => exact h
  | cons e rest ih =>
    simp only [bucketMerge, List.foldl]
    exact ih (mergeEntry l e) (mergeEntry_nodup l e h)

/-- C1: the override merge rule.  `mergeMembers` acts on every bucket as
a left fold of `mergeEntry`; `mergeEntry` replaces an already-present
member identity IN PLACE at its original position (`List.set` at the
`findIndex` position) and appends a new identity at the end; under the
bucket-uniqueness invariant (which merging preserves from the empty
collection up), the merged bucket holds EXACTLY ONE entry for the merged
identity and looking it up yields the incoming — most-derived, since the
derived class is merged after its ancestors — member, while all other
identities are untouched. -/
theorem C1_override_in_place :
    (∀ (target : MemberCollection) (source : MergeSource)
        (scn : Option String) (category : Category),
      (mergeMembers target source scn).getCat category
        = bucketMerge (target.getCat category) (source.items category scn))
    ∧ (∀ (l : List MemberEntry) (e : MemberEntry) (i : Nat),
        l.findIdx? (fun m => m.memberId = e.memberId) = some i →
        mergeEntry l e = l.set i e)
    ∧ (∀ (l : List MemberEntry) (e : MemberEntry),
        l.findIdx? (fun m => m.memberId = e.memberId) = none →
        mergeEntry l e = l ++ [e])
    ∧ (∀ (l : List MemberEntry) (e : MemberEntry),
        (memberIds l).Nodup →
        ((mergeEntry l e).filter (fun m => m.memberId = e.memberId)).length = 1
        ∧ (mergeEntry l e).find? (fun m => m.memberId = e.memberId) = some e
        ∧ (memberIds (mergeEntry l e)).Nodup)
    ∧ (∀ (l : List MemberEntry) (e : MemberEntry) (id : String),
        id ≠ e.memberId →
        (mergeEntry l e).find? (fun m => m.memberId = id)
          = l.find? (fun m => m.memberId = id))
    ∧ (∀ (items l : List MemberEntry),
        (memberIds l).Nodup → (memberIds (bucketMerge l items)).Nodup) := by
  refine ⟨mergeMembers_getCat, ?_, ?_, ?_, mergeEntry_find_ne, bucketMerge_nodup⟩
  · intro l e i hidx
    rw [mergeEntry_eq_splice, hidx]
  · intro l e hidx
    rw [mergeEntry_eq_splice, hidx]
  · intro l e h
    exact ⟨mergeEntry_count_one l e h, mergeEntry_find_self l e,
      mergeEntry_nodup l e h⟩

/-- Concrete unit for the C1 witness: `class A { foo() { return "a" } }`
and `class B extends A { foo() { return "b" } }`. -/
def c1Prog : List TopLevel :=
  [.classDecl ⟨some "A", none,
    [.methodDef .methodKind (.ident "foo") false [] [.retStmt (some (.lit "a"))]]⟩,
   .classDecl ⟨some "B", some (.ident "A"),
    [.methodDef .methodKind (.ident "foo") false [] [.retStmt (some (.lit "b"))]]⟩]

/-- `B`'s redefinition of `foo` as a member entry. -/
def c1ChildEntry : MemberEntry :=
  ⟨.methodDef .methodKind (.ident "foo") false [] [.retStmt (some (.lit "b"))],
   some "B", "method:foo"⟩

/-- The parent's bucket holding `A`'s `foo`. -/
def c1ParentBucket : List MemberEntry :=
  [⟨.methodDef .methodKind (.ident "foo") false [] [.retStmt (some (.lit "a"))],
    some "A", "method:foo"⟩]

/-- Witness for C1 at the concrete `A`/`B` chain: `B.foo` replaces
`A.foo` in place at position 0, the merged bucket holds exactly one `foo`
whose implementation is `B`'s, and the full linearization of `B` indeed
yields exactly the child entry in the instance-public-method bucket. -/
theorem C1_override_in_place_witness :
    (mergeEntry c1ParentBucket c1ChildEntry = c1ParentBucket.set 0 c1ChildEntry)
    ∧ (((mergeEntry c1ParentBucket c1ChildEntry).filter
          (fun m => m.memberId = c1ChildEntry.memberId)).length = 1
        ∧ (mergeEntry c1ParentBucket c1ChildEntry).find?
            (fun m => m.memberId = c1ChildEntry.memberId) = some c1ChildEntry
        ∧ (memberIds (mergeEntry c1ParentBucket c1ChildEntry)).Nodup)
    ∧ (collectInheritedMembers (buildClassRegistry c1Prog).1 "B"
          []).instancePublicMethods = [c1ChildEntry] := by
  have h := C1_override_in_place
  refine ⟨h.2.1 c1ParentBucket c1ChildEntry 0 (by decide),
    h.2.2.2.1 c1ParentBucket c1ChildEntry (by decide), ?_⟩
  rw [collectInheritedMembers_eval]
  decide

/-! ## Claim C2: constructor chains

The scenario family: a chain of `N` classes, base first, each constructor
`super(...)`-calling its immediate parent exactly once and then logging
one letter (the base constructor only logs).  The chain is described by a
list of `(className, letter)` pairs, base first. -/

/-- `console.log("<v>")` as a statement. -/
def logStmt (v : String) : Stmt :=
  .exprStmt (.call (.member (.ident "console") (.ident "log") false) [.lit v])

/-- A bare `super()` statement. -/
def superCallStmt : Stmt := .exprStmt (.call .superE [])

/-- A bare `this.<n>()` statement. -/
def thisCallStmt (n : String) : Stmt :=
  .exprStmt (.call (.member .thisE (.ident n) false) [])

/-- One constructor-chain entry of the scenario: the base constructor
logs its letter; every other constructor calls `super()` first. -/
def c2Entry (cls l : String) (isBase : Bool) : ChainEntry :=
  ⟨.methodDef .ctorKind (.ident "constructor") false []
    (if isBase then [logStmt l] else [superCallStmt, logStmt l]), some cls⟩

/-- The scenario's constructor chain, base first. -/
def c2Chain : List (String × String) → List ChainEntry
  | [] => []
  | (cls, l) :: rest =>
    c2Entry cls l true :: rest.map (fun p => c2Entry p.1 p.2 false)

/-- Class name at chain position `i`. -/
def clsAt (chain : List (String × String)) (i : Nat) : String :=
  ((chain.get? i).map Prod.fst).getD ""

/-- Letter at chain position `i`. -/
def letterAt (chain : List (String × String)) (i : Nat) : String :=
  ((chain.get? i).map Prod.snd).getD ""

/-- Name of the synthesized constructor-method for chain link `i`. -/
def c2SynthName (chain : List (String × String)) (i : Nat) : String :=
  "_super_" ++ clsAt chain i ++ "_constructor"

/-- Body of the synthesized constructor-method for chain link `i`: the
base link only logs; an inner link calls the next-outer link on `this`
and then logs. -/
def c2SynthBody (chain : List (String × String)) (i : Nat) : List Stmt :=
  if i = 0 then [logStmt (letterAt chain 0)]
  else [thisCallStmt (c2SynthName chain (i - 1)), logStmt (letterAt chain i)]

/-- The synthesized constructor-method for chain link `i`. -/
def c2SynthAt (chain : List (String × String)) (i : Nat) : ClassMember :=
  .methodDef .methodKind (.ident (c2SynthName chain i)) false []
    (c2SynthBody chain i)

/-- The expected flattened constructor: for a one-link chain just the
base body; otherwise the most-derived body with its `super()` rewired to
the `(N-2)`-nd synthesized link. -/
def c2FinalCtor (chain : List (String × String)) : ClassMember :=
  .methodDef .ctorKind (.ident "constructor") false []
    (if chain.length ≤ 1 then [logStmt (letterAt chain 0)]
     else [thisCallStmt (c2SynthName chain (chain.length - 2)),
           logStmt (letterAt chain (chain.length - 1))])

/-- Length of the scenario chain. -/
theorem c2Chain_length (chain : List (String × String)) :
    (c2Chain chain).length = chain.length := by
  cases chain with
  | nil => rfl
  | cons p rest => simp [c2Chain]

/-- Entries of the scenario chain by index. -/
theorem c2Chain_get? (chain : List (String × String)) (i : Nat) :
    (c2Chain chain).get? i
      = (chain.get? i).map (fun p => c2Entry p.1 p.2 (decide (i = 0))) := by
  cases chain with
  | nil => simp [c2Chain]
  | cons p rest =>
    cases i with
    | zero => simp [c2Chain]
    | succ j => simp [c2Chain, List.get?_map]

/-- `_super_<cls>_constructor` names are injective in the class name. -/
theorem super_ctor_name_inj (a b : String)
    (h : "_super_" ++ a ++ "_constructor" = "_super_" ++ b ++ "_constructor") :
    a = b := by
  have hd : ("_super_".data ++ a.data) ++ "_constructor".data
      = ("_super_".data ++ b.data) ++ "_constructor".data := by
    have := congrArg String.data h
    simpa [String.data_append] using this
  have hd2 : a.data ++ "_constructor".data = b.data ++ "_constructor".data := by
    have h3 : "_super_".data ++ (a.data ++ "_constructor".data)
        = "_super_".data ++ (b.data ++ "_constructor".data) := by
      simpa [List.append_assoc] using hd
    exact List.append_cancel_left h3
  exact String.ext (List.append_cancel_right hd2)

/-- A lookup off the key set fails. -/
theorem alistGet_eq_none {α β : Type} [DecidableEq α] (m : List (α × β))
    (k : α) (h : k ∉ m.map Prod.fst) : alistGet m k = none := by
  induction m with
  | nil => rfl
  | cons p t ih =>
    simp only [List.map_cons, List.mem_cons, not_or] at h
    rw [alistGet, if_neg (fun he => h.1 he.symm)]
    exact ih h.2

/-- Setting a fresh key appends the pair at the end. -/
theorem alistSet_fresh {α β : Type} [DecidableEq α] (m : List (α × β))
    (k : α) (v : β) (h : alistGet m k = none) :
    alistSet m k v = m ++ [(k, v)] := by
  induction m with
  | nil => rfl
  | cons p t ih =>
    rw [alistGet] at h
    by_cases hk : p.1 = k
    · rw [if_pos hk] at h
      cases h
    · rw [if_neg hk] at h
      rw [alistSet, if_neg hk, ih h]
      rfl

/-- A lookup in a key-unique association list finds a member pair. -/
theorem alistGet_of_mem_nodup {α β : Type} [DecidableEq α]
    (m : List (α × β)) (hnd : (m.map Prod.fst).Nodup) (k : α) (v : β)
    (hmem : (k, v) ∈ m) : alistGet m k = some v := by
  induction m with
  | nil => simp at hmem
  | cons p t ih =>
    simp only [List.map_cons, List.nodup_cons] at hnd
    rcases List.mem_cons.mp hmem with rfl | hmem2
    · rw [alistGet, if_pos rfl]
    · rw [alistGet]
      by_cases hk : p.1 = k
      · exfalso
        apply hnd.1
        rw [hk]
        exact List.mem_map.mpr ⟨(k, v), hmem2, rfl⟩
      · rw [if_neg hk]
        exact ih hnd.2 hmem2

/-- An element of a duplicate-free list at position `k` does not occur
among the first `k` elements. -/
theorem nodup_get_not_mem_take {α : Type} (l : List α) (h : l.Nodup)
    (k : Nat) (x : α) (hx : l.get? k = some x) : x ∉ l.take k := by
  have hsplit : l.take k ++ l.drop k = l := List.take_append_drop k l
  have hnd2 : (l.take k ++ l.drop k).Nodup := by rw [hsplit]; exact h
  have hdisj := (List.nodup_append.mp hnd2).2.2
  have hxd : x ∈ l.drop k := by
    have : (l.drop k).get? 0 = some x := by
      rw [List.get?_drop]
      simpa using hx
    exact List.get?_mem this
  intro hmem
  exact hdisj hmem hxd

/-- `take (n+1)` in terms of the element at `n`. -/
theorem take_succ_get {α : Type} (l : List α) (n : Nat) (x : α)
    (h : l.get? n = some x) : l.take (n + 1) = l.take n ++ [x] := by
  rw [List.take_succ, show l[n]? = some x from (List.get?_eq_getElem? l n).symm.trans h]
  rfl

/-- `isSuperCall` facts for the scenario statements. -/
theorem isSuperCall_scenario (v n : String) :
    isSuperCall (logStmt v) = false ∧ isSuperCall superCallStmt = true
    ∧ isSuperCall (thisCallStmt n) = false :=
  ⟨rfl, rfl, rfl⟩

/-- The constructor-chain fold computes, link by link, the deterministic
rename map and the synthesized constructor-methods of the scenario. -/
theorem c2_fold (chain : List (String × String))
    (hnd : (chain.map Prod.fst).Nodup) :
    ∀ (k : Nat), k ≤ chain.length - 1 →
    (List.range k).foldl (ctorChainStep (c2Chain chain)) ([], [])
      = ((chain.take k).map
          (fun p => (some p.1, "_super_" ++ p.1 ++ "_constructor")),
         (List.range k).map (c2SynthAt chain)) := by
  intro k
  induction k with
  | zero => intro _; rfl
  | succ k ih =>
    intro hk
    have hk' : k ≤ chain.length - 1 := by omega
    have hklt : k < chain.length := by
      rcases Nat.eq_zero_or_pos chain.length with h0 | h0
      · rw [h0] at hk; omega
      · omega
    rw [List.range_succ, List.foldl_append, ih hk']
    simp only [List.foldl]
    rcases hp : chain.get? k with _ | pk
    · rw [List.get?_eq_none] at hp
      omega
    have hpE : chain[k]? = some pk := (List.get?_eq_getElem? chain k).symm.trans hp
    have hpc : (c2Chain chain).get? k
        = some (c2Entry pk.1 pk.2 (decide (k = 0))) := by
      rw [c2Chain_get?, hp]
      rfl
    have hnottake : pk.1 ∉ (chain.take k).map Prod.fst := by
      rw [List.map_take]
      apply nodup_get_not_mem_take _ hnd k
      rw [List.get?_map, hp]
      rfl
    have hfresh : alistGet
        ((chain.take k).map
          (fun p => (some p.1, "_super_" ++ p.1 ++ "_constructor")))
        (some pk.1) = none := by
      apply alistGet_eq_none
      intro hmem
      rw [List.map_map] at hmem
      obtain ⟨q, hq, hqe⟩ := List.mem_map.mp hmem
      have hq1 : q.1 = pk.1 := by simpa using hqe
      exact hnottake (List.mem_map.mpr ⟨q, hq, hq1⟩)
    have hmapeq : alistSet
        ((chain.take k).map
          (fun p => (some p.1, "_super_" ++ p.1 ++ "_constructor")))
        (some pk.1) ("_super_" ++ pk.1 ++ "_constructor")
        = (chain.take (k + 1)).map
            (fun p => (some p.1, "_super_" ++ p.1 ++ "_constructor")) := by
      rw [alistSet_fresh _ _ _ hfresh, take_succ_get chain k pk hp,
        List.map_append]
      rfl
    by_cases hk0 : k = 0
    · subst hk0
      unfold ctorChainStep
      rw [hpc]
      simp only [c2Entry, optName, Nat.lt_irrefl, if_false, gt_iff_lt,
        decide_True, if_true, ClassMember.params, ClassMember.body]
      rw [show removeSuperConstructorCalls [logStmt pk.2] = [logStmt pk.2] by
        simp [removeSuperConstructorCalls, (isSuperCall_scenario pk.2 "").1]]
      simp only [Prod.mk.injEq]
      refine ⟨hmapeq, ?_⟩
      rw [List.map_append]
      simp only [List.map_cons, List.map_nil]
      rw [show c2SynthAt chain 0
          = .methodDef .methodKind
              (.ident ("_super_" ++ pk.1 ++ "_constructor")) false []
              [logStmt pk.2] by
        simp [c2SynthAt, c2SynthName, c2SynthBody, clsAt, letterAt, hpE]]
    · have hkpos : 0 < k := Nat.pos_of_ne_zero hk0
      have hklt1 : k - 1 < chain.length := by omega
      rcases hp1 : chain.get? (k - 1) with _ | pk1
      · rw [List.get?_eq_none] at hp1
        omega
      have hp1E : chain[k - 1]? = some pk1 :=
        (List.get?_eq_getElem? chain (k - 1)).symm.trans hp1
      have hpc1 : (c2Chain chain).get? (k - 1)
          = some (c2Entry pk1.1 pk1.2 (decide (k - 1 = 0))) := by
        rw [c2Chain_get?, hp1]
        rfl
      unfold ctorChainStep
      rw [hpc]
      simp only [c2Entry, optName, gt_iff_lt, hkpos, if_true, hk0,
        decide_False, Bool.false_eq_true, if_false, ClassMember.params,
        ClassMember.body]
      rw [hpc1]
      simp only [c2Entry, optName, ClassMember.params, ClassMember.body]
      rw [show transformSuperConstructorCalls [superCallStmt, logStmt pk.2]
            ("_super_" ++ pk1.1 ++ "_constructor")
          = [thisCallStmt ("_super_" ++ pk1.1 ++ "_constructor"),
             logStmt pk.2] by
        simp [transformSuperConstructorCalls, superCallStmt, thisCallStmt,
          logStmt, isSuperCall, superCtorRewrite, superCallArgs]]
      simp only [Prod.mk.injEq]
      refine ⟨hmapeq, ?_⟩
      rw [List.map_append]
      simp only [List.map_cons, List.map_nil]
      rw [show c2SynthAt chain k
          = .methodDef .methodKind
              (.ident ("_super_" ++ pk.1 ++ "_constructor")) false []
              [thisCallStmt ("_super_" ++ pk1.1 ++ "_constructor"),
               logStmt pk.2] by
        simp [c2SynthAt, c2SynthName, c2SynthBody, clsAt, letterAt, hpE, hp1E,
          hk0]]

/-- Distinct chain positions carry distinct class names. -/
theorem clsAt_inj (chain : List (String × String))
    (hnd : (chain.map Prod.fst).Nodup) (i j : Nat)
    (hi : i < chain.length) (hj : j < chain.length)
    (heq : clsAt chain i = clsAt chain j) : i = j := by
  have key : ∀ a b, a < b → b < chain.length →
      clsAt chain a ≠ clsAt chain b := by
    intro a b hab hb he
    have hbL : b < (chain.map Prod.fst).length := by simpa using hb
    rcases hgb : (chain.map Prod.fst).get? b with _ | xb
    · rw [List.get?_eq_none] at hgb
      omega
    have hxb : xb = clsAt chain b := by
      rcases hcb : chain.get? b with _ | pb
      · rw [List.get?_eq_none] at hcb; omega
      · have hcb1 : clsAt chain b = pb.1 := by
          unfold clsAt
          rw [hcb]
          rfl
        rw [List.get?_map, hcb] at hgb
        rw [hcb1]
        exact (Option.some.inj hgb).symm
    have hnot : xb ∉ (chain.map Prod.fst).take b :=
      nodup_get_not_mem_take _ hnd b xb hgb
    apply hnot
    rcases hca : chain.get? a with _ | pa
    · rw [List.get?_eq_none] at hca
      omega
    have hca1 : clsAt chain a = pa.1 := by
      unfold clsAt
      rw [hca]
      rfl
    have hmem : clsAt chain a ∈ (chain.map Prod.fst).take b := by
      have hga : ((chain.map Prod.fst).take b).get? a
          = some (clsAt chain a) := by
        rw [List.get?_take hab, List.get?_map, hca, hca1]
        rfl
      exact List.get?_mem hga
    rw [hxb, ← he]
    exact hmem
  rcases Nat.lt_trichotomy i j with h | h | h
  · exact absurd heq (key i j h hj)
  · exact h
  · exact absurd heq.symm (key j i h hi)

/-- Synthesized constructor-method names are distinct across links. -/
theorem c2SynthName_inj (chain : List (String × String))
    (hnd : (chain.map Prod.fst).Nodup) (i j : Nat)
    (hi : i < chain.length) (hj : j < chain.length)
    (heq : c2SynthName chain i = c2SynthName chain j) : i = j :=
  clsAt_inj chain hnd i j hi hj (super_ctor_name_inj _ _ heq)

/-- The env-pair key list of the scenario is duplicate-free. -/
theorem c2_env_keys_nodup (chain : List (String × String))
    (hnd : (chain.map Prod.fst).Nodup) (k : Nat) (hk : k ≤ chain.length) :
    (((List.range k).map
        (fun i => (c2SynthName chain i, c2SynthBody chain i))).map
      Prod.fst).Nodup := by
  rw [List.map_map]
  apply List.Nodup.map_on ?_ (List.nodup_range k)
  intro x hx y hy hxy
  simp only [Function.comp] at hxy
  exact c2SynthName_inj chain hnd x y
    (by have := List.mem_range.mp hx; omega)
    (by have := List.mem_range.mp hy; omega) hxy

/-- `analyzeConstructorSuperCalls` on the scenario: the rename map lists
every link but the last with its deterministic name, and the synthesized
methods are exactly the rewired links. -/
theorem c2_analyze (allMembers : MemberCollection) (cn : String)
    (chain : List (String × String)) (c0 : ClassMember)
    (hctor : allMembers.ctor = some c0)
    (hchain : allMembers.constructorChain = c2Chain chain)
    (hnd : (chain.map Prod.fst).Nodup) :
    analyzeConstructorSuperCalls allMembers cn
      = ((chain.take (chain.length - 1)).map
          (fun p => (some p.1, "_super_" ++ p.1 ++ "_constructor")),
         (List.range (chain.length - 1)).map (c2SynthAt chain)) := by
  unfold analyzeConstructorSuperCalls
  rw [hctor, hchain]
  show (List.range ((c2Chain chain).length - 1)).foldl
      (ctorChainStep (c2Chain chain)) ([], []) = _
  rw [c2Chain_length]
  exact c2_fold chain hnd (chain.length - 1) (le_refl _)

/-- `buildSuperPatternConstructor` on the scenario yields the expected
flattened constructor. -/
theorem c2_buildFinal (allMembers : MemberCollection) (cn : String)
    (chain : List (String × String)) (c0 : ClassMember)
    (hctor : allMembers.ctor = some c0)
    (hchain : allMembers.constructorChain = c2Chain chain)
    (hne : chain ≠ []) (hnd : (chain.map Prod.fst).Nodup) :
    buildSuperPatternConstructor cn allMembers
        ((chain.take (chain.length - 1)).map
          (fun p => (some p.1, "_super_" ++ p.1 ++ "_constructor")))
      = some (c2FinalCtor chain) := by
  have hlen : 0 < chain.length := List.length_pos.mpr hne
  rcases hlast : chain.get? (chain.length - 1) with _ | plast
  · rw [List.get?_eq_none] at hlast
    omega
  have hlet : letterAt chain (chain.length - 1) = plast.2 := by
    unfold letterAt
    rw [hlast]
    rfl
  have hlastC : (c2Chain chain).getLast?
      = some (c2Entry plast.1 plast.2 (decide (chain.length - 1 = 0))) := by
    rw [List.getLast?_eq_get?, c2Chain_length, c2Chain_get?, hlast]
    rfl
  unfold buildSuperPatternConstructor
  rw [hctor]
  simp only [hchain, hlastC, c2Chain_length]
  by_cases h1 : chain.length = 1
  · have hd0 : chain.length - 1 = 0 := by omega
    have hngt : ¬(chain.length > 1) := by omega
    simp only [hd0, decide_True, hngt, if_false, c2Entry,
      ClassMember.params, ClassMember.body, if_true]
    rw [show removeSuperConstructorCalls [logStmt plast.2] = [logStmt plast.2] by
      simp [removeSuperConstructorCalls, (isSuperCall_scenario plast.2 "").1]]
    have hle1 : chain.length ≤ 1 := by omega
    simp only [c2FinalCtor, hle1, if_true]
    rw [show letterAt chain 0 = plast.2 by rw [← hd0, hlet]]
  · have hgt : chain.length > 1 := by omega
    have hd0 : ¬(chain.length - 1 = 0) := by omega
    rcases hprev : chain.get? (chain.length - 2) with _ | pprev
    · rw [List.get?_eq_none] at hprev
      omega
    have hprevC : (c2Chain chain).get? (chain.length - 2)
        = some (c2Entry pprev.1 pprev.2 (decide (chain.length - 2 = 0))) := by
      rw [c2Chain_get?, hprev]
      rfl
    have hkeys : (((chain.take (chain.length - 1)).map
        (fun p => (some p.1, "_super_" ++ p.1 ++ "_constructor"))).map
          Prod.fst).Nodup := by
      rw [List.map_map]
      have h2 : ((chain.take (chain.length - 1)).map Prod.fst).Nodup := by
        rw [List.map_take]
        exact List.Nodup.sublist (List.take_sublist _ _) hnd
      have h3 : (((chain.take (chain.length - 1)).map Prod.fst).map
          some).Nodup := by
        apply List.Nodup.map ?_ h2
        intro a b hab
        exact Option.some.inj hab
      simpa [List.map_map, Function.comp] using h3
    have hget : alistGet
        ((chain.take (chain.length - 1)).map
          (fun p => (some p.1, "_super_" ++ p.1 ++ "_constructor")))
        (some pprev.1)
        = some ("_super_" ++ pprev.1 ++ "_constructor") := by
      apply alistGet_of_mem_nodup _ hkeys
      apply List.mem_map.mpr
      refine ⟨pprev, ?_, rfl⟩
      have hmem : (chain.take (chain.length - 1)).get? (chain.length - 2)
          = some pprev := by
        rw [List.get?_take (by omega), hprev]
      exact List.get?_mem hmem
    simp only [hgt, if_true, hprevC, c2Entry, ClassMember.params,
      ClassMember.body, hget, hd0, decide_False, Bool.false_eq_true, if_false]
    rw [show transformSuperConstructorCalls [superCallStmt, logStmt plast.2]
          ("_super_" ++ pprev.1 ++ "_constructor")
        = [thisCallStmt ("_super_" ++ pprev.1 ++ "_constructor"),
           logStmt plast.2] by
      simp [transformSuperConstructorCalls, superCallStmt, thisCallStmt,
        logStmt, isSuperCall, superCtorRewrite, superCallArgs]]
    have hle1 : ¬(chain.length ≤ 1) := by omega
    simp only [c2FinalCtor, hle1, if_false]
    rw [hlet, show c2SynthName chain (chain.length - 2)
        = "_super_" ++ pprev.1 ++ "_constructor" by
      unfold c2SynthName clsAt
      rw [hprev]
      rfl]

/-- The assembled flat class's constructor is the synthesized one: the
synthesized link methods are plain methods and do not shadow it. -/
theorem c2_findCtor (cn : String) (chain : List (String × String)) :
    findClassConstructor ⟨some cn, none,
        (List.range (chain.length - 1)).map (c2SynthAt chain)
          ++ [c2FinalCtor chain]⟩
      = some (c2FinalCtor chain) := by
  unfold findClassConstructor
  rw [List.foldl_append]
  have hsynths : ∀ (l : List Nat) (acc : Option ClassMember),
      (l.map (c2SynthAt chain)).foldl
        (fun acc m => match m with
          | .methodDef .ctorKind _ _ _ _ => some m
          | _ => acc) acc = acc := by
    intro l
    induction l with
    | nil => intro acc; rfl
    | cons i t ih =>
      intro acc
      simp only [List.map_cons, List.foldl]
      rw [show (match c2SynthAt chain i with
          | .methodDef .ctorKind _ _ _ _ => some (c2SynthAt chain i)
          | _ => acc) = acc by simp [c2SynthAt]]
      exact ih acc
  rw [hsynths]
  rfl

/-- The assembled flat class's method environment binds each synthesized
link name to its body, in link order. -/
theorem c2_env (cn : String) (chain : List (String × String))
    (hnd : (chain.map Prod.fst).Nodup) :
    classMethodEnv ⟨some cn, none,
        (List.range (chain.length - 1)).map (c2SynthAt chain)
          ++ [c2FinalCtor chain]⟩
      = (List.range (chain.length - 1)).map
          (fun i => (c2SynthName chain i, c2SynthBody chain i)) := by
  unfold classMethodEnv
  rw [List.foldl_append]
  have hfinal : ∀ (env : List (String × List Stmt)),
      [c2FinalCtor chain].foldl
        (fun env m => match m with
          | .methodDef .methodKind (.ident n) false _ body => alistSet env n body
          | _ => env) env = env := by
    intro env
    simp [c2FinalCtor]
  rw [hfinal]
  have hfold : ∀ (k : Nat), k ≤ chain.length - 1 →
      ((List.range k).map (c2SynthAt chain)).foldl
        (fun env m => match m with
          | .methodDef .methodKind (.ident n) false _ body => alistSet env n body
          | _ => env) []
      = (List.range k).map
          (fun i => (c2SynthName chain i, c2SynthBody chain i)) := by
    intro k
    induction k with
    | zero => intro _; rfl
    | succ k ih =>
      intro hk
      rw [List.range_succ, List.map_append, List.foldl_append,
        ih (by omega), List.map_append]
      simp only [List.map_cons, List.map_nil, List.foldl]
      rw [show (match c2SynthAt chain k with
          | ClassMember.methodDef .methodKind (.ident n) false _ body =>
            alistSet ((List.range k).map
              (fun i => (c2SynthName chain i, c2SynthBody chain i))) n body
          | _ => (List.range k).map
              (fun i => (c2SynthName chain i, c2SynthBody chain i)))
          = alistSet ((List.range k).map
              (fun i => (c2SynthName chain i, c2SynthBody chain i)))
              (c2SynthName chain k) (c2SynthBody chain k) by
        simp [c2SynthAt]]
      rw [alistSet_fresh]
      apply alistGet_eq_none
      rw [List.map_map]
      intro hmem
      obtain ⟨i, hi, hie⟩ := List.mem_map.mp hmem
      have hiR := List.mem_range.mp hi
      have hieq : c2SynthName chain i = c2SynthName chain k := by
        simpa using hie
      have hik : i = k :=
        c2SynthName_inj chain hnd i k (by omega) (by omega) hieq
      omega
  exact hfold (chain.length - 1) (le_refl _)

/-- Executing a synthesized link body runs the chain base-first: the log
is the chain's letters up to and including that link. -/
theorem c2_exec (chain : List (String × String))
    (hnd : (chain.map Prod.fst).Nodup) :
    ∀ (i : Nat), i < chain.length - 1 → ∀ (fuel : Nat), i < fuel →
    execStmts fuel
        ((List.range (chain.length - 1)).map
          (fun j => (c2SynthName chain j, c2SynthBody chain j)))
        (c2SynthBody chain i)
      = (chain.take (i + 1)).map Prod.snd := by
  intro i
  induction i with
  | zero =>
    intro hi fuel hfuel
    rcases hp : chain.get? 0 with _ | p0
    · rw [List.get?_eq_none] at hp
      omega
    rw [show c2SynthBody chain 0 = [logStmt (letterAt chain 0)] by
      simp [c2SynthBody]]
    rw [show execStmts fuel _ [logStmt (letterAt chain 0)]
        = [letterAt chain 0] by
      simp [execStmts, logStmt]]
    rw [take_succ_get chain 0 p0 hp]
    rw [show letterAt chain 0 = p0.2 by unfold letterAt; rw [hp]; rfl]
    rfl
  | succ i ih =>
    intro hi fuel hfuel
    rcases fuel with _ | f
    · omega
    rcases hp : chain.get? (i + 1) with _ | pi1
    · rw [List.get?_eq_none] at hp
      omega
    have hbody : c2SynthBody chain (i + 1)
        = [thisCallStmt (c2SynthName chain i),
           logStmt (letterAt chain (i + 1))] := by
      simp [c2SynthBody]
    rw [hbody]
    have hkeys := c2_env_keys_nodup chain hnd (chain.length - 1)
      (by omega)
    have hlook : alistGet
        ((List.range (chain.length - 1)).map
          (fun j => (c2SynthName chain j, c2SynthBody chain j)))
        (c2SynthName chain i) = some (c2SynthBody chain i) := by
      apply alistGet_of_mem_nodup _ hkeys
      exact List.mem_map.mpr ⟨i, List.mem_range.mpr (by omega), rfl⟩
    rw [show execStmts (f + 1)
          ((List.range (chain.length - 1)).map
            (fun j => (c2SynthName chain j, c2SynthBody chain j)))
          [thisCallStmt (c2SynthName chain i),
           logStmt (letterAt chain (i + 1))]
        = execStmts f
            ((List.range (chain.length - 1)).map
              (fun j => (c2SynthName chain j, c2SynthBody chain j)))
            (c2SynthBody chain i)
          ++ [letterAt chain (i + 1)] by
      simp [execStmts, thisCallStmt, logStmt, hlook]]
    rw [ih (by omega) f (by omega), take_succ_get chain (i + 1) pi1 hp,
      List.map_append]
    rw [show letterAt chain (i + 1) = pi1.2 by unfold letterAt; rw [hp]; rfl]
    rfl

/-- The scenario bodies contain no `super(...)` call at any depth. -/
theorem c2_no_super_left (chain : List (String × String)) (i : Nat) :
    countSuperCtorCallsStmtList (c2SynthBody chain i) = 0 := by
  by_cases h : i = 0 <;>
    simp [c2SynthBody, h, countSuperCtorCallsStmtList, countSuperCtorCallsStmt,
      countSuperCtorCallsExpr, countSuperCtorCallsExprList, superCtorHit,
      logStmt, thisCallStmt]

/-- C2: for a constructor chain of depth `N` (base first, each non-base
constructor calling its immediate parent exactly once then logging its
letter), the flattened class gets exactly `N−1` synthesized
`_super_<Class>_constructor` methods — link `i>0` rewired to call link
`i−1` on `this`, the base link with its parent-call removed — plus one
flattened constructor calling link `N−2`; no `super(...)` call survives
anywhere in the synthesized chain; and instantiating the assembled flat
class logs the letters base-first. -/
theorem C2_constructor_chain (allMembers : MemberCollection) (cn : String)
    (chain : List (String × String)) (c0 : ClassMember)
    (hctor : allMembers.ctor = some c0)
    (hchain : allMembers.constructorChain = c2Chain chain)
    (hne : chain ≠ [])
    (hnd : (chain.map Prod.fst).Nodup) :
    ((analyzeConstructorSuperCalls allMembers cn).2
        = (List.range (chain.length - 1)).map (c2SynthAt chain))
    ∧ ((analyzeConstructorSuperCalls allMembers cn).2.length
        = chain.length - 1)
    ∧ (buildSuperPatternConstructor cn allMembers
          (analyzeConstructorSuperCalls allMembers cn).1
        = some (c2FinalCtor chain))
    ∧ (∀ m ∈ (analyzeConstructorSuperCalls allMembers cn).2,
        countSuperCtorCallsStmtList m.body = 0)
    ∧ (countSuperCtorCallsStmtList (c2FinalCtor chain).body = 0)
    ∧ (instantiate chain.length
          ⟨some cn, none,
            (analyzeConstructorSuperCalls allMembers cn).2
              ++ [c2FinalCtor chain]⟩
        = chain.map Prod.snd) := by
  have hA := c2_analyze allMembers cn chain c0 hctor hchain hnd
  have h2 : (analyzeConstructorSuperCalls allMembers cn).2
      = (List.range (chain.length - 1)).map (c2SynthAt chain) := by rw [hA]
  have h1 : (analyzeConstructorSuperCalls allMembers cn).1
      = (chain.take (chain.length - 1)).map
          (fun p => (some p.1, "_super_" ++ p.1 ++ "_constructor")) := by
    rw [hA]
  have hlen : 0 < chain.length := List.length_pos.mpr hne
  refine ⟨h2, by rw [h2, List.length_map, List.length_range], ?_, ?_, ?_, ?_⟩
  · rw [h1]
    exact c2_buildFinal allMembers cn chain c0 hctor hchain hne hnd
  · intro m hm
    rw [h2] at hm
    obtain ⟨i, _, rfl⟩ := List.mem_map.mp hm
    rw [show (c2SynthAt chain i).body = c2SynthBody chain i from rfl]
    exact c2_no_super_left chain i
  · by_cases hL : chain.length ≤ 1 <;>
      simp [c2FinalCtor, hL, countSuperCtorCallsStmtList,
        countSuperCtorCallsStmt, countSuperCtorCallsExpr,
        countSuperCtorCallsExprList, superCtorHit, logStmt, thisCallStmt]
  · rw [h2]
    rw [show instantiate chain.length
          ⟨some cn, none,
            (List.range (chain.length - 1)).map (c2SynthAt chain)
              ++ [c2FinalCtor chain]⟩
        = execStmts chain.length
            (classMethodEnv ⟨some cn, none,
              (List.range (chain.length - 1)).map (c2SynthAt chain)
                ++ [c2FinalCtor chain]⟩)
            (c2FinalCtor chain).body by
      unfold instantiate
      rw [c2_findCtor]]
    rw [c2_env cn chain hnd]
    by_cases hL : chain.length ≤ 1
    · have h1' : chain.length = 1 := by omega
      rcases chain with _ | ⟨p0, rest⟩
      · exact absurd rfl hne
      · have hrest : rest = [] := by
          simpa using h1'
        subst hrest
        simp [c2FinalCtor, ClassMember.body, execStmts, logStmt, letterAt,
          clsAt]
    · have hgt : 1 < chain.length := by omega
      rcases hlast : chain.get? (chain.length - 1) with _ | plast
      · rw [List.get?_eq_none] at hlast
        omega
      have hbody : (c2FinalCtor chain).body
          = [thisCallStmt (c2SynthName chain (chain.length - 2)),
             logStmt (letterAt chain (chain.length - 1))] := by
        simp [c2FinalCtor, ClassMember.body, hL]
      rw [hbody]
      have hkeys := c2_env_keys_nodup chain hnd (chain.length - 1) (by omega)
      have hlook : alistGet
          ((List.range (chain.length - 1)).map
            (fun j => (c2SynthName chain j, c2SynthBody chain j)))
          (c2SynthName chain (chain.length - 2))
          = some (c2SynthBody chain (chain.length - 2)) := by
        apply alistGet_of_mem_nodup _ hkeys
        exact List.mem_map.mpr
          ⟨chain.length - 2, List.mem_range.mpr (by omega), rfl⟩
      have hstep : execStmts chain.length
            ((List.range (chain.length - 1)).map
              (fun j => (c2SynthName chain j, c2SynthBody chain j)))
            [thisCallStmt (c2SynthName chain (chain.length - 2)),
             logStmt (letterAt chain (chain.length - 1))]
          = execStmts (chain.length - 1)
              ((List.range (chain.length - 1)).map
                (fun j => (c2SynthName chain j, c2SynthBody chain j)))
              (c2SynthBody chain (chain.length - 2))
            ++ [letterAt chain (chain.length - 1)] := by
        obtain ⟨f, hf⟩ : ∃ f, chain.length = f + 1 :=
          ⟨chain.length - 1, by omega⟩
        rw [hf] at hlook ⊢
        simp only [Nat.add_sub_cancel] at hlook ⊢
        rw [show f + 1 - 2 = f - 1 by omega] at hlook
        simp [execStmts, thisCallStmt, logStmt, hlook]
      rw [hstep]
      rw [c2_exec chain hnd (chain.length - 2) (by omega) (chain.length - 1)
        (by omega)]
      rw [show chain.length - 2 + 1 = chain.length - 1 by omega]
      rw [show letterAt chain (chain.length - 1) = plast.2 by
        unfold letterAt; rw [hlast]; rfl]
      rw [show ([plast.2] : List String) = [plast].map Prod.snd from rfl,
        ← List.map_append, ← take_succ_get chain (chain.length - 1) plast hlast]
      rw [show chain.length - 1 + 1 = chain.length by omega, List.take_length]

/-- The spec's own scenario chain `A → B → C → D`, each constructor
calling its parent then logging its letter. -/
def c2WChain : List (String × String) :=
  [("A", "a"), ("B", "b"), ("C", "c"), ("D", "d")]

/-- The concrete unit for the C2 witness. -/
def c2WProg : List TopLevel :=
  [.classDecl ⟨some "A", none,
    [.methodDef .ctorKind (.ident "constructor") false [] [logStmt "a"]]⟩,
   .classDecl ⟨some "B", some (.ident "A"),
    [.methodDef .ctorKind (.ident "constructor") false []
      [superCallStmt, logStmt "b"]]⟩,
   .classDecl ⟨some "C", some (.ident "B"),
    [.methodDef .ctorKind (.ident "constructor") false []
      [superCallStmt, logStmt "c"]]⟩,
   .classDecl ⟨some "D", some (.ident "C"),
    [.methodDef .ctorKind (.ident "constructor") false []
      [superCallStmt, logStmt "d"]]⟩]

/-- The linearized member collection of `D` in the C2 witness unit. -/
def c2WMembers : MemberCollection :=
  collectInheritedMembers (buildClassRegistry c2WProg).1 "D" []

/-- Witness for C2 on the depth-4 scenario: the linearized chain is the
scenario chain, three `_super_<Class>_constructor` methods are
synthesized, and instantiating the assembled flat class logs
`a, b, c, d` in that order. -/
theorem C2_constructor_chain_witness :
    (c2WMembers.constructorChain = c2Chain c2WChain)
    ∧ ((analyzeConstructorSuperCalls c2WMembers "D").2.length = 3)
    ∧ (instantiate 4
        ⟨some "D", none,
          (analyzeConstructorSuperCalls c2WMembers "D").2
            ++ [c2FinalCtor c2WChain]⟩
        = ["a", "b", "c", "d"]) := by
  have hch : c2WMembers.constructorChain = c2Chain c2WChain := by
    rw [show c2WMembers
        = collectInheritedMembers (buildClassRegistry c2WProg).1 "D" []
      from rfl, collectInheritedMembers_eval]
    decide
  have hct : c2WMembers.ctor
      = some (.methodDef .ctorKind (.ident "constructor") false []
          [superCallStmt, logStmt "d"]) := by
    rw [show c2WMembers
        = collectInheritedMembers (buildClassRegistry c2WProg).1 "D" []
      from rfl, collectInheritedMembers_eval]
    decide
  have h := C2_constructor_chain c2WMembers "D" c2WChain _ hct hch
    (by decide) (by decide)
  exact ⟨hch, h.2.1, h.2.2.2.2.2⟩

end Ignorant
